import Mathlib

/-!
# VtArrayEdit: a shallow embedding of `arrayEditOps.h`, `arrayEdit.h`,
`arrayEditBuilder.h` and `arrayEditBuilder.cpp`

Conventions of the embedding.

* A `VtArray<ELEM>` is a `List α`; value-initialised elements are `default`.
* `int64_t` values are `Int`.  Array and pool sizes (`size_t`) are `Nat`, the
  lengths of the lists.  An array of `2^63` elements does not fit a 64-bit
  address space, so `idx += size` on a negative `idx` never wraps and is exact
  integer addition.
* `size_t(-1)`, the `_DisableBoundsCheck` sentinel, is `none : Option Nat`; a
  real size `n` is `some n`.
* `OpAndCount` is the bit-field pair `count:56, op:8` laid over one 64-bit
  word with `memcpy`; `count` occupies the low 56 bits and `op` the high 8
  bits (the layout of the little-endian ABIs the library is built for), both
  read as signed fields.
* A visitor `fn(op, a1, a2)` is represented by the list of calls made to it.
-/

namespace Vt_ArrayEditOps

/-- The constant `EndIndex`, `std::numeric_limits<int64_t>::min()`. -/
def EndIndex : Int := -9223372036854775808

/-- The enum `Op` of the supported operations. -/
inductive Op where
  | OpWriteLiteral
  | OpWriteRef
  | OpInsertLiteral
  | OpInsertRef
  | OpEraseRef
  | OpMinSize
  | OpMinSizeFill
  | OpSetSize
  | OpSetSizeFill
  | OpMaxSize
  deriving DecidableEq, Repr, Inhabited

open Op

/-- The integer value of an enumerator. -/
def Op.toInt : Op → Int
  | OpWriteLiteral => 0
  | OpWriteRef => 1
  | OpInsertLiteral => 2
  | OpInsertRef => 3
  | OpEraseRef => 4
  | OpMinSize => 5
  | OpMinSizeFill => 6
  | OpSetSize => 7
  | OpSetSizeFill => 8
  | OpMaxSize => 9

/-- The constant `NumOps`, `OpMaxSize + 1`. -/
def NumOps : Int := Op.toInt OpMaxSize + 1

/-- The test `IsValidOp` on the raw value of an `op` field. -/
def IsValidOp (op : Int) : Bool := decide (0 ≤ op) && decide (op < NumOps)

/-- The enumerator of a raw `op` value, `none` when `IsValidOp` fails. -/
def Op.ofInt (op : Int) : Option Op :=
  if op = 0 then some OpWriteLiteral
  else if op = 1 then some OpWriteRef
  else if op = 2 then some OpInsertLiteral
  else if op = 3 then some OpInsertRef
  else if op = 4 then some OpEraseRef
  else if op = 5 then some OpMinSize
  else if op = 6 then some OpMinSizeFill
  else if op = 7 then some OpSetSize
  else if op = 8 then some OpSetSizeFill
  else if op = 9 then some OpMaxSize
  else none

/-- The function `GetArity`. -/
def GetArity (op : Op) : Nat :=
  if op = OpWriteLiteral ∨ op = OpWriteRef ∨
     op = OpInsertLiteral ∨ op = OpInsertRef ∨
     op = OpMinSizeFill ∨ op = OpSetSizeFill then 2
  else 1

/-- The struct `OpAndCount`: `count` is a signed 56-bit field and `op` a
signed 8-bit field holding the raw enum value. -/
structure OpAndCount where
  count : Int
  op : Int
  deriving DecidableEq, Repr

/-- The value stored by a signed 56-bit field assigned `x`. -/
def wrap56 (x : Int) : Int :=
  let c := x % 72057594037927936
  if c < 36028797018963968 then c else c - 72057594037927936

/-- The function `_ToOpAndCount`: reinterpret a 64-bit word as `OpAndCount`. -/
def _ToOpAndCount (i64 : Int) : OpAndCount :=
  let u := i64 % 18446744073709551616
  let o := u / 72057594037927936
  { count := wrap56 u, op := if o < 128 then o else o - 256 }

/-- The function `_ToInt64`: reinterpret an `OpAndCount` as a 64-bit word. -/
def _ToInt64 (oc : OpAndCount) : Int :=
  let u := (oc.op % 256) * 72057594037927936 + oc.count % 72057594037927936
  if u < 9223372036854775808 then u else u - 18446744073709551616

/-- The function `_CheckLiteralIndex`. -/
def _CheckLiteralIndex (idx : Int) (size : Option Nat) : Bool :=
  match size with
  | none => true
  | some n => decide (0 ≤ idx) && decide (idx.toNat < n)

/-- The function `_NormalizeAndCheckRefIndex`: the returned pair is the
result and the value left in the by-reference `idx`. -/
def _NormalizeAndCheckRefIndex (idx : Int) (size : Option Nat) : Bool × Int :=
  match size with
  | none => (true, idx)
  | some n =>
    let idx := if idx < 0 then idx + n else idx
    (decide (0 ≤ idx) && decide (idx.toNat < n), idx)

/-- The function `_NormalizeAndCheckInsertIndex`: the returned pair is the
result and the value left in the by-reference `idx`. -/
def _NormalizeAndCheckInsertIndex (idx : Int) (size : Option Nat) : Bool × Int :=
  match size with
  | none => (true, idx)
  | some n =>
    let idx := if idx = EndIndex then (n : Int) else idx
    let idx := if idx < 0 then idx + n else idx
    (decide (0 ≤ idx) && decide (idx.toNat ≤ n), idx)

/-- The function `_CheckSizeArg`. -/
def _CheckSizeArg (_op : Op) (arg : Int) : Bool := !decide (arg < 0)

/-- The function `_UpdateWorkingSize`: the value left in `workingSize`. -/
def _UpdateWorkingSize (workingSize : Option Nat) (newSize : Nat) : Option Nat :=
  match workingSize with
  | none => none
  | some _ => some newSize

/-- One call `fn(op, a1, a2)` of the visitor. -/
structure Visit where
  op : Op
  a1 : Int
  a2 : Int
  deriving DecidableEq, Repr

/-- The `switch (oc.op)` of `_ForEachImpl` for one instruction whose stored
arguments are `a1`, `a2`: `none` is `continue` (the instruction is skipped),
`some (v, size)` is the call made to the visitor, with the normalised
arguments, and the updated working size. -/
def _CheckIns (numLiterals initialSize : Option Nat) (op : Op) (a1 a2 : Int) :
    Option (Visit × Option Nat) :=
  match op with
  | OpWriteLiteral =>
    if !_CheckLiteralIndex a1 numLiterals then none
    else
      let r2 := _NormalizeAndCheckRefIndex a2 initialSize
      if !r2.1 then none else some (⟨op, a1, r2.2⟩, initialSize)
  | OpWriteRef =>
    let r1 := _NormalizeAndCheckRefIndex a1 initialSize
    if !r1.1 then none
    else
      let r2 := _NormalizeAndCheckRefIndex a2 initialSize
      if !r2.1 then none else some (⟨op, r1.2, r2.2⟩, initialSize)
  | OpInsertLiteral =>
    if !_CheckLiteralIndex a1 numLiterals then none
    else
      let r2 := _NormalizeAndCheckInsertIndex a2 initialSize
      if !r2.1 then none
      else some (⟨op, a1, r2.2⟩,
        _UpdateWorkingSize initialSize (initialSize.getD 0 + 1))
  | OpInsertRef =>
    let r1 := _NormalizeAndCheckRefIndex a1 initialSize
    if !r1.1 then none
    else
      let r2 := _NormalizeAndCheckInsertIndex a2 initialSize
      if !r2.1 then none
      else some (⟨op, r1.2, r2.2⟩,
        _UpdateWorkingSize initialSize (initialSize.getD 0 + 1))
  | OpEraseRef =>
    let r1 := _NormalizeAndCheckRefIndex a1 initialSize
    if !r1.1 then none
    else some (⟨op, r1.2, a2⟩,
      _UpdateWorkingSize initialSize (initialSize.getD 0 - 1))
  | OpMinSizeFill =>
    if !_CheckLiteralIndex a2 numLiterals then none
    else if !_CheckSizeArg op a1 then none
    else some (⟨op, a1, a2⟩,
      _UpdateWorkingSize initialSize (max (initialSize.getD 0) a1.toNat))
  | OpMinSize =>
    if !_CheckSizeArg op a1 then none
    else some (⟨op, a1, a2⟩,
      _UpdateWorkingSize initialSize (max (initialSize.getD 0) a1.toNat))
  | OpSetSizeFill =>
    if !_CheckLiteralIndex a2 numLiterals then none
    else if !_CheckSizeArg op a1 then none
    else some (⟨op, a1, a2⟩, _UpdateWorkingSize initialSize a1.toNat)
  | OpSetSize =>
    if !_CheckSizeArg op a1 then none
    else some (⟨op, a1, a2⟩, _UpdateWorkingSize initialSize a1.toNat)
  | OpMaxSize =>
    if !_CheckSizeArg op a1 then none
    else some (⟨op, a1, a2⟩,
      _UpdateWorkingSize initialSize (min (initialSize.getD 0) a1.toNat))

/-- How a pass of `_ForEachImpl` ends: the `while` loop ran to `iter == end`;
or `_IssueInvalidOpError` was raised and the pass returned; or the argument
loop indexed `iter[0]` / `iter[1]` beyond `end` (the declared count has more
argument words than the stream holds; the pass does not return after
`_IssueInvalidInsError`). -/
inductive Status where
  | completed
  | invalidOp
  | pastEnd
  deriving DecidableEq, Repr

/-- The outcome of a pass of `_ForEachImpl`: the calls made to the visitor in
order, how the pass ended, and the working size it ended with. -/
structure Replay where
  visits : List Visit
  status : Status
  size : Option Nat
  deriving DecidableEq, Repr

/-- Put a visitor call in front of the calls of a later part of the pass. -/
def Replay.push (v : Option Visit) (r : Replay) : Replay :=
  match v with
  | none => r
  | some v => { r with visits := v :: r.visits }

/-- The loops of `_ForEachImpl` over the words from `iter` to `end`.

`op`, `count` are the `oc` of the run being replayed; `count = 0` is the
state of the outer `while (iter != end)` (before the first header and after
each finished `for (; oc.count--; iter += arity)` loop), where the next word
is read as a header.  With `count ≠ 0` the body of the `for` loop runs on
the next `arity` words. -/
def _ForEachImpl.loop (numLiterals : Option Nat) :
    Option Nat → Op → Int → List Int → Replay
  | size, _, count, [] =>
    if count = 0 then ⟨[], Status.completed, size⟩ else ⟨[], Status.pastEnd, size⟩
  | size, op, count, w :: rest =>
    if count = 0 then
      let oc := _ToOpAndCount w
      if !IsValidOp oc.op then ⟨[], Status.invalidOp, size⟩
      else
        match Op.ofInt oc.op with
        | none => ⟨[], Status.invalidOp, size⟩
        | some op' => _ForEachImpl.loop numLiterals size op' oc.count rest
    else if GetArity op = 1 then
      match _CheckIns numLiterals size op w (-1) with
      | none => _ForEachImpl.loop numLiterals size op (wrap56 (count - 1)) rest
      | some (v, size') =>
        (_ForEachImpl.loop numLiterals size' op (wrap56 (count - 1)) rest).push (some v)
    else
      match rest with
      | [] => ⟨[], Status.pastEnd, size⟩
      | a2 :: rest' =>
        match _CheckIns numLiterals size op w a2 with
        | none => _ForEachImpl.loop numLiterals size op (wrap56 (count - 1)) rest'
        | some (v, size') =>
          (_ForEachImpl.loop numLiterals size' op (wrap56 (count - 1)) rest').push (some v)

/-- The function `_ForEachImpl` on the instruction words `ins`. -/
def _ForEachImpl (numLiterals initialSize : Option Nat) (ins : List Int) : Replay :=
  _ForEachImpl.loop numLiterals initialSize OpWriteLiteral 0 ins

end Vt_ArrayEditOps

/-- The class `Vt_ArrayEditOps`: the instruction words `_ins`. -/
structure Vt_ArrayEditOps where
  _ins : List Int := []
  deriving DecidableEq, Repr

namespace Vt_ArrayEditOps

/-- The member `ForEachValid`. -/
def ForEachValid (self : Vt_ArrayEditOps) (numLiterals initialSize : Nat) : Replay :=
  _ForEachImpl (some numLiterals) (some initialSize) self._ins

/-- The member `ForEach`: both sizes are `size_t(-1)`. -/
def ForEach (self : Vt_ArrayEditOps) : Replay :=
  _ForEachImpl none none self._ins

/-- The member `ModifyEach`.  The visitor `fn` takes `a1` and `a2` by
reference and returns the values it leaves in them.  `_ForEachImpl` binds
these references to its locals `int64_t a1 = iter[0]` and `a2`, and no
statement of it stores to `*iter`: the words of `_ins` after the pass are
the words before it (first component).  The second component lists the
values the visitor left in the locals, which the pass discards.  A pass that
ends `Status.pastEnd` has indexed `_ins` past its end: the member returns
normally only on words whose pass ends otherwise, and the value given here is
its result on those. -/
def ModifyEach (self : Vt_ArrayEditOps) (fn : Op → Int → Int → Int × Int) :
    Vt_ArrayEditOps × List (Int × Int) :=
  (self, (_ForEachImpl none none self._ins).visits.map (fun v => fn v.op v.a1 v.a2))

/-- The member `IsEmpty`. -/
def IsEmpty (self : Vt_ArrayEditOps) : Bool := self._ins.isEmpty

end Vt_ArrayEditOps


/-! ## The array container

`array.h` is outside the sources at hand; its operations are taken with the
standard sequence semantics the specification assumes of the container. -/

namespace VtArray

/-- Modelled from the spec: `VtArray::operator[]` for reading (the container
is "randomly-indexable"); an index outside the array, which no checked replay
produces, reads `default`. -/
def get [Inhabited α] (a : List α) (i : Int) : α := a.getD i.toNat default

/-- Modelled from the spec: assignment through `VtArray::operator[]`,
`a[i] = x`. -/
def assign (a : List α) (i : Int) (x : α) : List α := a.set i.toNat x

/-- Modelled from the spec: `VtArray::insert(cbegin() + i, x)` with the
"standard insert semantics": `x` is placed before position `i`. -/
def insert (a : List α) (i : Int) (x : α) : List α :=
  a.take i.toNat ++ x :: a.drop i.toNat

/-- Modelled from the spec: `VtArray::erase(cbegin() + i)` with the
"standard erase semantics". -/
def erase (a : List α) (i : Int) : List α := a.eraseIdx i.toNat

/-- Modelled from the spec: `VtArray::resize(n, fill)` with the "standard
resize semantics": truncate to `n` elements or grow with copies of `fill`. -/
def resizeFill (a : List α) (n : Int) (fill : α) : List α :=
  a.take n.toNat ++ List.replicate (n.toNat - a.length) fill

/-- Modelled from the spec: `VtArray::resize(n)`: truncate to `n` elements or
grow with value-initialised ("default-constructed") elements. -/
def resize [Inhabited α] (a : List α) (n : Int) : List α := resizeFill a n default

end VtArray

/-- The class `VtArrayEdit<ELEM>`; the default values are those of the
default constructor, the identity edit. -/
structure VtArrayEdit (α : Type) where
  _denseOrLiterals : List α := []
  _ops : Vt_ArrayEditOps := {}
  _isDense : Bool := false
  deriving DecidableEq, Repr

namespace VtArrayEdit

open Vt_ArrayEditOps Vt_ArrayEditOps.Op

variable {α : Type}

/-- The default constructor `VtArrayEdit()`. -/
def ident : VtArrayEdit α := {}

/-- The converting constructors `VtArrayEdit(Array const &)` and
`VtArrayEdit(Array &&)`. -/
def ofArray (a : List α) : VtArrayEdit α :=
  { _denseOrLiterals := a, _isDense := true }

/-- The member `IsIdentity`. -/
def IsIdentity (self : VtArrayEdit α) : Bool := !self._isDense && self._ops.IsEmpty

/-- The member `IsDenseArray`. -/
def IsDenseArray (self : VtArrayEdit α) : Bool := self._isDense

/-- The member `GetDenseArray`; the coding error of the non-dense case is
not represented. -/
def GetDenseArray (self : VtArrayEdit α) : List α :=
  if !self.IsDenseArray then [] else self._denseOrLiterals

/-- The visitor lambda of `_ApplyEdits`: the effect of one call on `result`. -/
def _ApplyEdits.fn [Inhabited α] (literals : List α) (result : List α) (v : Visit) :
    List α :=
  match v.op with
  | OpWriteLiteral => VtArray.assign result v.a2 (VtArray.get literals v.a1)
  | OpWriteRef => VtArray.assign result v.a2 (VtArray.get result v.a1)
  | OpInsertLiteral => VtArray.insert result v.a2 (VtArray.get literals v.a1)
  | OpInsertRef => VtArray.insert result v.a2 (VtArray.get result v.a1)
  | OpEraseRef => VtArray.erase result v.a1
  | OpMinSize =>
    if result.length < v.a1.toNat then VtArray.resize result v.a1 else result
  | OpMinSizeFill =>
    if result.length < v.a1.toNat then
      VtArray.resizeFill result v.a1 (VtArray.get literals v.a2)
    else result
  | OpSetSize => VtArray.resize result v.a1
  | OpSetSizeFill => VtArray.resizeFill result v.a1 (VtArray.get literals v.a2)
  | OpMaxSize =>
    if result.length > v.a1.toNat then VtArray.resize result v.a1 else result

/-- The member `_ApplyEdits`.  A pass of `ForEachValid` that ends
`Status.pastEnd` has indexed `_ins` past its end: the member returns normally
only on words whose pass ends otherwise, and the value given here is its
result on those. -/
def _ApplyEdits [Inhabited α] (self : VtArrayEdit α) (weaker : List α) : List α :=
  let result := weaker
  let literals := self._denseOrLiterals
  let numLiterals := literals.length
  (self._ops.ForEachValid numLiterals result.length).visits.foldl
    (_ApplyEdits.fn literals) result

/-- The visitor lambda of `_ComposeEdits`, `(Op op, int64_t &a1, int64_t)`:
the values it leaves in `a1` and in its by-value copy of `a2`. -/
def _ComposeEdits.fn (numWeakerLiterals : Nat) (op : Op) (a1 a2 : Int) : Int × Int :=
  match op with
  | OpWriteLiteral => (a1 + numWeakerLiterals, a2)
  | OpInsertLiteral => (a1 + numWeakerLiterals, a2)
  | _ => (a1, a2)

/-- The member `_ComposeEdits(VtArrayEdit const &weaker) &&`, which the
`const &` overload calls on a copy of `*this`. -/
def _ComposeEdits (self weaker : VtArrayEdit α) : VtArrayEdit α :=
  let result := self
  let result := { result with
    _denseOrLiterals := weaker._denseOrLiterals ++ result._denseOrLiterals }
  let numWeakerLiterals := weaker._denseOrLiterals.length
  let result := { result with
    _ops := (result._ops.ModifyEach (_ComposeEdits.fn numWeakerLiterals)).1 }
  { result with _ops := { _ins := weaker._ops._ins ++ result._ops._ins } }

/-- The member `ComposeOver(VtArrayEdit const &weaker) const &`. -/
def ComposeOver [Inhabited α] (self weaker : VtArrayEdit α) : VtArrayEdit α :=
  if self.IsDenseArray then self
  else if self.IsIdentity then weaker
  else if weaker.IsDenseArray then ofArray (self._ApplyEdits weaker._denseOrLiterals)
  else self._ComposeEdits weaker

end VtArrayEdit

/-- The class `Vt_ArrayEditOpsBuilder`. -/
structure Vt_ArrayEditOpsBuilder where
  _ins : List Int := []
  _lastOpIdx : Int := 0
  deriving DecidableEq, Repr

namespace Vt_ArrayEditOpsBuilder

open Vt_ArrayEditOps Vt_ArrayEditOps.Op

/-- The function `_CheckArity`. -/
def _CheckArity (op : Op) (count : Nat) : Bool :=
  if GetArity op ≠ count then false else true

/-- The member `_AddOp`. -/
def _AddOp (self : Vt_ArrayEditOpsBuilder) (op : Op) : Vt_ArrayEditOpsBuilder :=
  if self._ins.isEmpty ∨
      (_ToOpAndCount (self._ins.getD self._lastOpIdx.toNat 0)).op ≠ op.toInt then
    { _lastOpIdx := self._ins.length,
      _ins := self._ins ++ [_ToInt64 { count := 1, op := op.toInt }] }
  else
    let oc := _ToOpAndCount (self._ins.getD self._lastOpIdx.toNat 0)
    let oc := { oc with count := wrap56 (oc.count + 1) }
    { self with _ins := self._ins.set self._lastOpIdx.toNat (_ToInt64 oc) }

/-- The member `AddOp(Ops::Op op, int64_t a1, int64_t a2)`. -/
def AddOp2 (self : Vt_ArrayEditOpsBuilder) (op : Op) (a1 a2 : Int) :
    Vt_ArrayEditOpsBuilder :=
  let self := self._AddOp op
  if _CheckArity op 2 then { self with _ins := self._ins ++ [a1, a2] } else self

/-- The member `AddOp(Ops::Op op, int64_t a1)`. -/
def AddOp1 (self : Vt_ArrayEditOpsBuilder) (op : Op) (a1 : Int) :
    Vt_ArrayEditOpsBuilder :=
  if a1 < 0 ∧ (op = OpMinSize ∨ op = OpMaxSize ∨ op = OpSetSize) then self
  else
    let self := self._AddOp op
    if _CheckArity op 1 then { self with _ins := self._ins ++ [a1] } else self

end Vt_ArrayEditOpsBuilder

/-- The class `VtArrayEditBuilder<ELEM>`; `_literalToIndex`, an
`unordered_map`, is the list of its (key, value) entries. -/
structure VtArrayEditBuilder (α : Type) where
  _literals : List α := []
  _opsBuilder : Vt_ArrayEditOpsBuilder := {}
  _literalToIndex : List (α × Int) := []

namespace VtArrayEditBuilder

open Vt_ArrayEditOps Vt_ArrayEditOps.Op

variable {α : Type}

/-- The member `_FindOrAddLiteral`: the returned index and the builder after
the call (`emplace` inserts only when the key is absent). -/
def _FindOrAddLiteral [DecidableEq α] (self : VtArrayEditBuilder α) (elem : α) :
    Int × VtArrayEditBuilder α :=
  match self._literalToIndex.lookup elem with
  | some idx => (idx, self)
  | none =>
    ((self._literals.length : Int),
      { self with
        _literalToIndex := (elem, (self._literals.length : Int)) :: self._literalToIndex,
        _literals := self._literals ++ [elem] })

/-- The member `Write`. -/
def Write [DecidableEq α] (self : VtArrayEditBuilder α) (elem : α) (index : Int) :
    VtArrayEditBuilder α :=
  let r := self._FindOrAddLiteral elem
  { r.2 with _opsBuilder := r.2._opsBuilder.AddOp2 OpWriteLiteral r.1 index }

/-- The member `WriteRef`. -/
def WriteRef (self : VtArrayEditBuilder α) (srcIndex dstIndex : Int) :
    VtArrayEditBuilder α :=
  { self with _opsBuilder := self._opsBuilder.AddOp2 OpWriteRef srcIndex dstIndex }

/-- The member `Insert`. -/
def Insert [DecidableEq α] (self : VtArrayEditBuilder α) (elem : α) (index : Int) :
    VtArrayEditBuilder α :=
  let r := self._FindOrAddLiteral elem
  { r.2 with _opsBuilder := r.2._opsBuilder.AddOp2 OpInsertLiteral r.1 index }

/-- The member `InsertRef`. -/
def InsertRef (self : VtArrayEditBuilder α) (srcIndex dstIndex : Int) :
    VtArrayEditBuilder α :=
  { self with _opsBuilder := self._opsBuilder.AddOp2 OpInsertRef srcIndex dstIndex }

/-- The member `Prepend`. -/
def Prepend [DecidableEq α] (self : VtArrayEditBuilder α) (elem : α) :
    VtArrayEditBuilder α :=
  let r := self._FindOrAddLiteral elem
  { r.2 with _opsBuilder := r.2._opsBuilder.AddOp2 OpInsertLiteral r.1 0 }

/-- The member `PrependRef`. -/
def PrependRef (self : VtArrayEditBuilder α) (srcIndex : Int) : VtArrayEditBuilder α :=
  { self with _opsBuilder := self._opsBuilder.AddOp2 OpInsertRef srcIndex 0 }

/-- The member `Append`. -/
def Append [DecidableEq α] (self : VtArrayEditBuilder α) (elem : α) :
    VtArrayEditBuilder α :=
  let r := self._FindOrAddLiteral elem
  { r.2 with _opsBuilder := r.2._opsBuilder.AddOp2 OpInsertLiteral r.1 EndIndex }

/-- The member `AppendRef`. -/
def AppendRef (self : VtArrayEditBuilder α) (srcIndex : Int) : VtArrayEditBuilder α :=
  { self with _opsBuilder := self._opsBuilder.AddOp2 OpInsertRef srcIndex EndIndex }

/-- The member `EraseRef`. -/
def EraseRef (self : VtArrayEditBuilder α) (index : Int) : VtArrayEditBuilder α :=
  { self with _opsBuilder := self._opsBuilder.AddOp1 OpEraseRef index }

/-- The member `MinSize(int64_t size)`. -/
def MinSize (self : VtArrayEditBuilder α) (size : Int) : VtArrayEditBuilder α :=
  { self with _opsBuilder := self._opsBuilder.AddOp1 OpMinSize size }

/-- The member `MinSize(int64_t size, ElementType const &fill)`. -/
def MinSizeFill [DecidableEq α] (self : VtArrayEditBuilder α) (size : Int) (fill : α) :
    VtArrayEditBuilder α :=
  let r := self._FindOrAddLiteral fill
  { r.2 with _opsBuilder := r.2._opsBuilder.AddOp2 OpMinSizeFill size r.1 }

/-- The member `MaxSize`. -/
def MaxSize (self : VtArrayEditBuilder α) (size : Int) : VtArrayEditBuilder α :=
  { self with _opsBuilder := self._opsBuilder.AddOp1 OpMaxSize size }

/-- The member `SetSize(int64_t size)`. -/
def SetSize (self : VtArrayEditBuilder α) (size : Int) : VtArrayEditBuilder α :=
  { self with _opsBuilder := self._opsBuilder.AddOp1 OpSetSize size }

/-- The member `SetSize(int64_t size, ElementType const &fill)`. -/
def SetSizeFill [DecidableEq α] (self : VtArrayEditBuilder α) (size : Int) (fill : α) :
    VtArrayEditBuilder α :=
  let r := self._FindOrAddLiteral fill
  { r.2 with _opsBuilder := r.2._opsBuilder.AddOp2 OpSetSizeFill size r.1 }

/-- The member `FinalizeAndReset`: the returned edit and the builder after
`*this = {}`. -/
def FinalizeAndReset (self : VtArrayEditBuilder α) :
    VtArrayEdit α × VtArrayEditBuilder α :=
  ({ _denseOrLiterals := self._literals,
     _ops := { _ins := self._opsBuilder._ins },
     _isDense := false }, {})

/-- The visitor lambda of `Optimize`: the builder after one call.  The
lambda reads `literals[a2]` of a fill instruction without a test on `a2`;
with `a2` outside the pool the code reads outside the array, and `default`
stands here for what it finds: the value given is the result of the code only
when `a2` lies in the pool. -/
def Optimize.fn [DecidableEq α] [Inhabited α] (literals : List α)
    (builder : VtArrayEditBuilder α) (v : Visit) : VtArrayEditBuilder α :=
  let numLiterals := literals.length
  match v.op with
  | OpWriteLiteral =>
    if 0 ≤ v.a1 ∧ v.a1.toNat < numLiterals then
      builder.Write (VtArray.get literals v.a1) v.a2
    else builder
  | OpInsertLiteral =>
    if 0 ≤ v.a1 ∧ v.a1.toNat < numLiterals then
      builder.Insert (VtArray.get literals v.a1) v.a2
    else builder
  | OpWriteRef => builder.WriteRef v.a1 v.a2
  | OpInsertRef => builder.InsertRef v.a1 v.a2
  | OpEraseRef => builder.EraseRef v.a1
  | OpMinSize => builder.MinSize v.a1
  | OpSetSize => builder.SetSize v.a1
  | OpMaxSize => builder.MaxSize v.a1
  | OpMinSizeFill =>
    if 0 ≤ v.a1 ∧ v.a1.toNat < numLiterals then
      builder.MinSizeFill v.a1 (VtArray.get literals v.a2)
    else builder
  | OpSetSizeFill =>
    if 0 ≤ v.a1 ∧ v.a1.toNat < numLiterals then
      builder.SetSizeFill v.a1 (VtArray.get literals v.a2)
    else builder

/-- The static member `Optimize`.  A pass of `ForEach` that ends
`Status.pastEnd` has indexed `_ins` past its end: the member returns normally
only on words whose pass ends otherwise, and the value given here is its
result on those. -/
def Optimize [DecidableEq α] [Inhabited α] (in_ : VtArrayEdit α) : VtArrayEdit α :=
  if in_.IsDenseArray ∨ in_.IsIdentity then in_
  else
    let literals := in_._denseOrLiterals
    let ops := in_._ops
    (ops.ForEach.visits.foldl (Optimize.fn literals) {}).FinalizeAndReset.1

/-- One call of an instruction-recording member of the builder. -/
inductive Call (α : Type) where
  | Write (elem : α) (index : Int)
  | WriteRef (srcIndex dstIndex : Int)
  | Insert (elem : α) (index : Int)
  | InsertRef (srcIndex dstIndex : Int)
  | Prepend (elem : α)
  | PrependRef (srcIndex : Int)
  | Append (elem : α)
  | AppendRef (srcIndex : Int)
  | EraseRef (index : Int)
  | MinSize (size : Int)
  | MinSizeFill (size : Int) (fill : α)
  | MaxSize (size : Int)
  | SetSize (size : Int)
  | SetSizeFill (size : Int) (fill : α)
  deriving DecidableEq, Repr

/-- The builder after one call. -/
def call [DecidableEq α] (self : VtArrayEditBuilder α) : Call α → VtArrayEditBuilder α
  | Call.Write elem index => self.Write elem index
  | Call.WriteRef s d => self.WriteRef s d
  | Call.Insert elem index => self.Insert elem index
  | Call.InsertRef s d => self.InsertRef s d
  | Call.Prepend elem => self.Prepend elem
  | Call.PrependRef s => self.PrependRef s
  | Call.Append elem => self.Append elem
  | Call.AppendRef s => self.AppendRef s
  | Call.EraseRef index => self.EraseRef index
  | Call.MinSize size => self.MinSize size
  | Call.MinSizeFill size fill => self.MinSizeFill size fill
  | Call.MaxSize size => self.MaxSize size
  | Call.SetSize size => self.SetSize size
  | Call.SetSizeFill size fill => self.SetSizeFill size fill

/-- The edit a default-constructed builder returns from `FinalizeAndReset`
after the calls `cs`, made in order. -/
def build [DecidableEq α] (cs : List (Call α)) : VtArrayEdit α :=
  (cs.foldl call ({} : VtArrayEditBuilder α)).FinalizeAndReset.1

end VtArrayEditBuilder


/-! ## Vocabulary of the statements and proofs -/

namespace Vt_ArrayEditOps

open Op

/-- Put visitor calls in front of the calls of a later part of a pass. -/
def Replay.prepend (vs : List Visit) (r : Replay) : Replay :=
  { r with visits := vs ++ r.visits }

/-- The argument words `_ins` holds for the instruction `(op, a1, a2)`:
`GetArity op` of them. -/
def argWords (v : Visit) : List Int :=
  if GetArity v.op = 1 then [v.a1] else [v.a1, v.a2]

/-- The argument words of a list of instructions, in order. -/
def flatArgs : List Visit → List Int
  | [] => []
  | v :: vs => argWords v ++ flatArgs vs

/-- The `switch` of `_ForEachImpl` run over a list of stored instructions:
the visitor calls made and the working size left. -/
def replayIns (numLiterals : Option Nat) : Option Nat → List Visit → List Visit × Option Nat
  | size, [] => ([], size)
  | size, i :: is =>
    match _CheckIns numLiterals size i.op i.a1 i.a2 with
    | none => replayIns numLiterals size is
    | some (v, size') =>
      ((v :: (replayIns numLiterals size' is).1), (replayIns numLiterals size' is).2)

/-- The words `ws` hold exactly the stored instructions `is`, in complete
runs: a pass entering `ws` at a header position makes the visitor calls of
`is` and goes on with what follows `ws`. -/
def Decodes (ws : List Int) (is : List Visit) : Prop :=
  ∀ (nl size : Option Nat) (rest : List Int),
    _ForEachImpl.loop nl size OpWriteLiteral 0 (ws ++ rest) =
      Replay.prepend (replayIns nl size is).1
        (_ForEachImpl.loop nl (replayIns nl size is).2 OpWriteLiteral 0 rest)

/-- Every literal index stored in the instruction lies in a pool of `n`
elements. -/
def LitOK (n : Nat) (v : Visit) : Prop :=
  ((v.op = OpWriteLiteral ∨ v.op = OpInsertLiteral) → 0 ≤ v.a1 ∧ v.a1.toNat < n) ∧
  ((v.op = OpMinSizeFill ∨ v.op = OpSetSizeFill) → 0 ≤ v.a2 ∧ v.a2.toNat < n)

end Vt_ArrayEditOps

namespace VtArrayEdit

open Vt_ArrayEditOps Vt_ArrayEditOps.Op

variable {α : Type}

/-- What `_ApplyEdits` does to the live array `result` for one stored
instruction: nothing when the checked pass skips it, the visitor's effect
otherwise. -/
def applyIns [Inhabited α] (literals : List α) (result : List α) (i : Visit) : List α :=
  match _CheckIns (some literals.length) (some result.length) i.op i.a1 i.a2 with
  | none => result
  | some (v, _) => _ApplyEdits.fn literals result v

end VtArrayEdit

namespace Vt_ArrayEditOpsBuilder

open Vt_ArrayEditOps Vt_ArrayEditOps.Op

/-- The builder after `_AddOp(op)` and the `push_back` of the argument words
of `v`. -/
def addIns (self : Vt_ArrayEditOpsBuilder) (v : Visit) : Vt_ArrayEditOpsBuilder :=
  { (self._AddOp v.op) with _ins := (self._AddOp v.op)._ins ++ argWords v }

/-- The state of a `Vt_ArrayEditOpsBuilder` that has recorded the
instructions `is`: `_ins` is empty, or it ends with the run `_lastOpIdx`
points at, whose header counts the instructions of the run. -/
def Recorded (b : Vt_ArrayEditOpsBuilder) (is : List Visit) : Prop :=
  (b._ins = [] ∧ is = []) ∨
  ∃ (pre : List Int) (isPre : List Visit) (op : Op) (run : List Visit),
    b._ins = pre ++ _ToInt64 { count := run.length, op := op.toInt } :: flatArgs run ∧
    b._lastOpIdx = pre.length ∧ run ≠ [] ∧
    (∀ v ∈ run, v.op = op ∧ (GetArity op = 1 → v.a2 = -1)) ∧
    Decodes pre isPre ∧ is = isPre ++ run

end Vt_ArrayEditOpsBuilder

namespace VtArrayEditBuilder

open Vt_ArrayEditOps Vt_ArrayEditOps.Op VtArrayEdit

variable {α : Type}

/-- The static member `GetSerializationData`: the values left in
`*valuesOut` and `*indexesOut`. -/
def GetSerializationData (edit : VtArrayEdit α) : List α × List Int :=
  (edit._denseOrLiterals, edit._ops._ins)

/-- The static member `CreateFromSerializationData`. -/
def CreateFromSerializationData (values : List α) (indexes : List Int) (isDense : Bool) :
    VtArrayEdit α :=
  { _denseOrLiterals := values, _ops := { _ins := indexes }, _isDense := isDense }

/-- The element a call passes to `_FindOrAddLiteral`, if it passes one. -/
def Call.elem : Call α → Option α
  | Call.Write elem _ => some elem
  | Call.Insert elem _ => some elem
  | Call.Prepend elem => some elem
  | Call.Append elem => some elem
  | Call.MinSizeFill _ fill => some fill
  | Call.SetSizeFill _ fill => some fill
  | _ => none

/-- The instruction a call hands to `AddOp`, `k` being the pool index of its
element; `none` when `AddOp` returns before `_AddOp` (a negative size). -/
def Call.toIns (k : Int) : Call α → Option Visit
  | Call.Write _ index => some ⟨OpWriteLiteral, k, index⟩
  | Call.WriteRef s d => some ⟨OpWriteRef, s, d⟩
  | Call.Insert _ index => some ⟨OpInsertLiteral, k, index⟩
  | Call.InsertRef s d => some ⟨OpInsertRef, s, d⟩
  | Call.Prepend _ => some ⟨OpInsertLiteral, k, 0⟩
  | Call.PrependRef s => some ⟨OpInsertRef, s, 0⟩
  | Call.Append _ => some ⟨OpInsertLiteral, k, EndIndex⟩
  | Call.AppendRef s => some ⟨OpInsertRef, s, EndIndex⟩
  | Call.EraseRef index => some ⟨OpEraseRef, index, -1⟩
  | Call.MinSize size => if size < 0 then none else some ⟨OpMinSize, size, -1⟩
  | Call.MinSizeFill size _ => some ⟨OpMinSizeFill, size, k⟩
  | Call.MaxSize size => if size < 0 then none else some ⟨OpMaxSize, size, -1⟩
  | Call.SetSize size => if size < 0 then none else some ⟨OpSetSize, size, -1⟩
  | Call.SetSizeFill size _ => some ⟨OpSetSizeFill, size, k⟩

/-- The effect of one builder call on an array: its instruction applied with
the call's own element as the pool. -/
def Call.effect [Inhabited α] (result : List α) (c : Call α) : List α :=
  match c.toIns 0 with
  | none => result
  | some i => applyIns c.elem.toList result i

/-- The entries of `_literalToIndex` point at their keys in `_literals`. -/
def MapOK [DecidableEq α] (b : VtArrayEditBuilder α) : Prop :=
  ∀ (e : α) (idx : Int), b._literalToIndex.lookup e = some idx →
    0 ≤ idx ∧ b._literals[idx.toNat]? = some e

/-- The state of a builder after the calls `cs`: it has recorded
instructions whose literal indices lie in `_literals` and whose replay on any
array is the calls' effects in order. -/
def After [DecidableEq α] [Inhabited α] (b : VtArrayEditBuilder α) (cs : List (Call α)) :
    Prop :=
  ∃ is : List Visit,
    b._opsBuilder.Recorded is ∧ is.length ≤ cs.length ∧ MapOK b ∧
    (∀ i ∈ is, LitOK b._literals.length i) ∧
    ∀ D : List α, is.foldl (applyIns b._literals) D = cs.foldl Call.effect D

end VtArrayEditBuilder

namespace Vt_ArrayEditOps

open Op

/-- The arguments of a visitor call are in range for a pool of `nl` literals
and a live array of `n` elements. -/
def Visit.InRange (nl n : Nat) (v : Visit) : Prop :=
  match v.op with
  | OpWriteLiteral => (0 ≤ v.a1 ∧ v.a1 < nl) ∧ (0 ≤ v.a2 ∧ v.a2 < n)
  | OpWriteRef => (0 ≤ v.a1 ∧ v.a1 < n) ∧ (0 ≤ v.a2 ∧ v.a2 < n)
  | OpInsertLiteral => (0 ≤ v.a1 ∧ v.a1 < nl) ∧ (0 ≤ v.a2 ∧ v.a2 ≤ n)
  | OpInsertRef => (0 ≤ v.a1 ∧ v.a1 < n) ∧ (0 ≤ v.a2 ∧ v.a2 ≤ n)
  | OpEraseRef => 0 ≤ v.a1 ∧ v.a1 < n
  | OpMinSize => 0 ≤ v.a1
  | OpMinSizeFill => 0 ≤ v.a1 ∧ (0 ≤ v.a2 ∧ v.a2 < nl)
  | OpSetSize => 0 ≤ v.a1
  | OpSetSizeFill => 0 ≤ v.a1 ∧ (0 ≤ v.a2 ∧ v.a2 < nl)
  | OpMaxSize => 0 ≤ v.a1

/-- The length of an array of `n` elements after the visitor call `v`. -/
def Visit.sizeAfter (n : Nat) (v : Visit) : Nat :=
  match v.op with
  | OpWriteLiteral => n
  | OpWriteRef => n
  | OpInsertLiteral => n + 1
  | OpInsertRef => n + 1
  | OpEraseRef => n - 1
  | OpMinSize => max n v.a1.toNat
  | OpMinSizeFill => max n v.a1.toNat
  | OpSetSize => v.a1.toNat
  | OpSetSizeFill => v.a1.toNat
  | OpMaxSize => min n v.a1.toNat

end Vt_ArrayEditOps

namespace Vt_ArrayEditOps

/-- The value `_NormalizeAndCheckRefIndex` leaves in `idx` for a size `n`. -/
def normRef (idx : Int) (n : Nat) : Int := if idx < 0 then idx + n else idx

/-- The value `_NormalizeAndCheckInsertIndex` leaves in `idx` for a size `n`. -/
def normIns (idx : Int) (n : Nat) : Int :=
  if idx = EndIndex then (n : Int) else if idx < 0 then idx + n else idx

end Vt_ArrayEditOps

namespace VtArrayEdit

open Vt_ArrayEditOps Vt_ArrayEditOps.Op

/-- The stored instructions `i` (for the pool `lits`) and `i'` (for the pool
`lits'`) are the same operation on the same operands: equal opcodes, equal
index and size arguments, and literal indices that lie in their pools and
name equal elements. -/
def SameIns {α : Type} (lits lits' : List α) (i i' : Visit) : Prop :=
  i.op = i'.op ∧
  match i.op with
  | OpWriteLiteral | OpInsertLiteral =>
    i.a2 = i'.a2 ∧ (0 ≤ i.a1 ∧ i.a1 < lits.length) ∧ (0 ≤ i'.a1 ∧ i'.a1 < lits'.length) ∧
      lits[i.a1.toNat]? = lits'[i'.a1.toNat]?
  | OpMinSizeFill | OpSetSizeFill =>
    i.a1 = i'.a1 ∧ (0 ≤ i.a2 ∧ i.a2 < lits.length) ∧ (0 ≤ i'.a2 ∧ i'.a2 < lits'.length) ∧
      lits[i.a2.toNat]? = lits'[i'.a2.toNat]?
  | _ => i.a1 = i'.a1 ∧ i.a2 = i'.a2

end VtArrayEdit

namespace VtArrayEditBuilder

variable {α : Type}

/-- The pool after one more use of the element `e`: unchanged when `e` is
already in it, `e` appended otherwise. -/
def addFirst [DecidableEq α] (pool : List α) (e : α) : List α :=
  if e ∈ pool then pool else pool ++ [e]

/-- The distinct elements of `es`, in the order of their first occurrence. -/
def firstUses [DecidableEq α] (es : List α) : List α := es.foldl addFirst []

/-- Every element of `_literals` is a key of `_literalToIndex`. -/
def MapFull [DecidableEq α] (b : VtArrayEditBuilder α) : Prop :=
  ∀ e ∈ b._literals, (b._literalToIndex.lookup e).isSome = true

end VtArrayEditBuilder

namespace Vt_ArrayEditOps

open Op

/-- The words of one run: the header holding the count of the instructions
`run` and the opcode `op`, then the argument words of the instructions. -/
def runWords (op : Op) (run : List Visit) : List Int :=
  _ToInt64 { count := run.length, op := op.toInt } :: flatArgs run

/-- The words of a stream made of the runs `rs`, in order. -/
def streamWords : List (Op × List Visit) → List Int
  | [] => []
  | r :: rs => runWords r.1 r.2 ++ streamWords rs

/-- The stored instructions of the runs `rs`, in order. -/
def runsIns : List (Op × List Visit) → List Visit
  | [] => []
  | r :: rs => r.2 ++ runsIns rs

/-- A well-formed run: its instructions carry the opcode of the run, with
`a2 = -1` when the opcode takes one argument, and their number fits the
56-bit count (a count of zero is allowed). -/
def RunOK (r : Op × List Visit) : Prop :=
  (∀ v ∈ r.2, v.op = r.1 ∧ (GetArity r.1 = 1 → v.a2 = -1)) ∧
  (r.2.length : Int) < 36028797018963968

/-- The size argument of a stored instruction is not negative (no condition
on instructions without a size argument). -/
def Visit.sizeArgOK (v : Visit) : Prop :=
  (v.op = OpMinSize ∨ v.op = OpMinSizeFill ∨ v.op = OpSetSize ∨ v.op = OpSetSizeFill ∨
    v.op = OpMaxSize) → 0 ≤ v.a1

end Vt_ArrayEditOps

namespace VtArrayEdit

open Vt_ArrayEditOps

/-- Every visitor call of `vs`, made in order on the live array `result` of
`_ApplyEdits`, has its arguments in range for the pool and for the array as
it is when the call is made. -/
def AllInRange {α : Type} [Inhabited α] (literals : List α) : List α → List Visit → Prop
  | _, [] => True
  | result, v :: vs =>
    v.InRange literals.length result.length ∧
      AllInRange literals (_ApplyEdits.fn literals result v) vs

end VtArrayEdit

namespace VtArrayEditBuilder

/-- The size argument of a call is not negative (no condition on calls
without a size argument). -/
def Call.sizeOK {α : Type} : Call α → Prop
  | Call.MinSize size => 0 ≤ size
  | Call.MinSizeFill size _ => 0 ≤ size
  | Call.MaxSize size => 0 ≤ size
  | Call.SetSize size => 0 ≤ size
  | Call.SetSizeFill size _ => 0 ≤ size
  | _ => True

end VtArrayEditBuilder

namespace VtArrayEdit

open Vt_ArrayEditOps Vt_ArrayEditOps.Op

variable {α : Type}

/-- The member `_ComposeEdits(VtArrayEdit &&weaker) &&`, which the `const &`
overload taking `VtArrayEdit &&` calls on a copy of `*this`: the literals and
the words of `*this` are appended to the storage of `weaker`, and `weaker` is
returned. -/
def _ComposeEdits_rvalue (self weaker : VtArrayEdit α) : VtArrayEdit α :=
  let result := self
  let numWeakerLiterals := weaker._denseOrLiterals.length
  let weaker := { weaker with
    _denseOrLiterals := weaker._denseOrLiterals ++ result._denseOrLiterals }
  let result := { result with
    _ops := (result._ops.ModifyEach (_ComposeEdits.fn numWeakerLiterals)).1 }
  { weaker with _ops := { _ins := weaker._ops._ins ++ result._ops._ins } }

/-- The member `ComposeOver(VtArrayEdit const &weaker) &&`. -/
def ComposeOver_rvalue [Inhabited α] (self weaker : VtArrayEdit α) : VtArrayEdit α :=
  if self.IsDenseArray then self
  else if self.IsIdentity then weaker
  else if weaker.IsDenseArray then ofArray (self._ApplyEdits weaker._denseOrLiterals)
  else self._ComposeEdits weaker

/-- The member `ComposeOver(VtArrayEdit &&weaker) &&`. -/
def ComposeOver_rvalue_rvalue [Inhabited α] (self weaker : VtArrayEdit α) : VtArrayEdit α :=
  if self.IsDenseArray then self
  else if self.IsIdentity then weaker
  else if weaker.IsDenseArray then ofArray (self._ApplyEdits weaker._denseOrLiterals)
  else self._ComposeEdits_rvalue weaker

/-- The member `ComposeOver(VtArrayEdit &&weaker) const &`. -/
def ComposeOver_const_rvalue [Inhabited α] (self weaker : VtArrayEdit α) : VtArrayEdit α :=
  if self.IsDenseArray then self
  else if self.IsIdentity then weaker
  else if weaker.IsDenseArray then ofArray (self._ApplyEdits weaker._denseOrLiterals)
  else self._ComposeEdits_rvalue weaker

/-- The dense invariant: an edit that represents a dense array has no
instruction words. -/
def DenseInv (E : VtArrayEdit α) : Prop := E._isDense = true → E._ops._ins = []

end VtArrayEdit

namespace Vt_ArrayEditOps

open Op

/-- The runs are the maximal runs of their instructions: no run is empty,
the instructions of a run carry its opcode (with `a2 = -1` when the opcode
takes one argument), and adjacent runs have different opcodes. -/
def MaxRuns (rs : List (Op × List Visit)) : Prop :=
  (∀ r ∈ rs, r.2 ≠ [] ∧ ∀ v ∈ r.2, v.op = r.1 ∧ (GetArity r.1 = 1 → v.a2 = -1)) ∧
  (rs.map Prod.fst).Chain' (fun o o' => o ≠ o')

/-- The runs after one more instruction: it joins the last run when that run
has its opcode, and is a new run of one instruction otherwise. -/
def addRun : List (Op × List Visit) → Visit → List (Op × List Visit)
  | [], v => [(v.op, [v])]
  | [r], v => if r.1 = v.op then [(r.1, r.2 ++ [v])] else [r, (v.op, [v])]
  | r :: r' :: rs, v => r :: addRun (r' :: rs) v

/-- The literal index an instruction stores: `a1` of the literal writes and
inserts, `a2` of the fill resizes. -/
def Visit.litIndex (v : Visit) : Option Int :=
  match v.op with
  | OpWriteLiteral => some v.a1
  | OpInsertLiteral => some v.a1
  | OpMinSizeFill => some v.a2
  | OpSetSizeFill => some v.a2
  | _ => none

/-- The number of words of the run-length layout of a sequence of opcodes:
the argument words of every instruction and one header for every maximal run
(counted at the last instruction of the run). -/
def encLen : List Op → Nat
  | [] => 0
  | o :: os => GetArity o + (if os.head? = some o then 0 else 1) + encLen os

end Vt_ArrayEditOps

namespace Vt_ArrayEditOpsBuilder

open Vt_ArrayEditOps Vt_ArrayEditOps.Op

/-- The state of a `Vt_ArrayEditOpsBuilder` whose words are the runs `rs`:
`_ins` is their layout, the runs are maximal, and `_lastOpIdx` is the
position of the header of the last run. -/
def Layout (b : Vt_ArrayEditOpsBuilder) (rs : List (Op × List Visit)) : Prop :=
  b._ins = streamWords rs ∧ MaxRuns rs ∧
  ∀ (pre : List (Op × List Visit)) (r : Op × List Visit), rs = pre ++ [r] →
    b._lastOpIdx = ((streamWords pre).length : Int)

end Vt_ArrayEditOpsBuilder

namespace VtArrayEditBuilder

open Vt_ArrayEditOps Vt_ArrayEditOps.Op

variable {α : Type}

/-- The call passes no element: it is one of `WriteRef`, `InsertRef`,
`PrependRef`, `AppendRef`, `EraseRef`, `MinSize(size)`, `MaxSize(size)` and
`SetSize(size)`. -/
def Call.noLiteral : Call α → Prop
  | Call.WriteRef _ _ => True
  | Call.InsertRef _ _ => True
  | Call.PrependRef _ => True
  | Call.AppendRef _ => True
  | Call.EraseRef _ => True
  | Call.MinSize _ => True
  | Call.MaxSize _ => True
  | Call.SetSize _ => True
  | _ => False

/-- The builder call the visitor lambda of `Optimize` makes for the visitor
call `v`; `none` when the lambda ignores it. -/
def Optimize.toCall [Inhabited α] (literals : List α) (v : Visit) : Option (Call α) :=
  match v.op with
  | OpWriteLiteral =>
    if 0 ≤ v.a1 ∧ v.a1.toNat < literals.length then
      some (Call.Write (VtArray.get literals v.a1) v.a2)
    else none
  | OpInsertLiteral =>
    if 0 ≤ v.a1 ∧ v.a1.toNat < literals.length then
      some (Call.Insert (VtArray.get literals v.a1) v.a2)
    else none
  | OpWriteRef => some (Call.WriteRef v.a1 v.a2)
  | OpInsertRef => some (Call.InsertRef v.a1 v.a2)
  | OpEraseRef => some (Call.EraseRef v.a1)
  | OpMinSize => some (Call.MinSize v.a1)
  | OpSetSize => some (Call.SetSize v.a1)
  | OpMaxSize => some (Call.MaxSize v.a1)
  | OpMinSizeFill =>
    if 0 ≤ v.a1 ∧ v.a1.toNat < literals.length then
      some (Call.MinSizeFill v.a1 (VtArray.get literals v.a2))
    else none
  | OpSetSizeFill =>
    if 0 ≤ v.a1 ∧ v.a1.toNat < literals.length then
      some (Call.SetSizeFill v.a1 (VtArray.get literals v.a2))
    else none

/-- The instruction is not a fill resize. -/
def noFill (v : Visit) : Prop := v.op ≠ OpMinSizeFill ∧ v.op ≠ OpSetSizeFill

end VtArrayEditBuilder

/-! ## Lemmas -/

section HeaderWords

open Vt_ArrayEditOps Vt_ArrayEditOps.Op

theorem wrap56_of_range (c : Int) (h0 : 0 ≤ c) (h1 : c < 36028797018963968) : wrap56 c = c := by
  unfold wrap56
  simp only
  split <;> omega

theorem toOpAndCount_toInt64 (op : Op) (c : Int) (h0 : 0 ≤ c) (h1 : c < 36028797018963968) :
    _ToOpAndCount (_ToInt64 ⟨c, op.toInt⟩) = ⟨c, op.toInt⟩ := by
  cases op <;> simp only [_ToOpAndCount, _ToInt64, Op.toInt, wrap56] <;> 
    (simp only [OpAndCount.mk.injEq]; constructor <;> (repeat' split) <;> omega)

theorem ofInt_toInt (op : Op) : Op.ofInt op.toInt = some op := by
  cases op <;> rfl

theorem isValidOp_toInt (op : Op) : IsValidOp op.toInt = true := by
  cases op <;> rfl

theorem toInt_injective {a b : Op} (h : a.toInt = b.toInt) : a = b := by
  cases a <;> cases b <;> first | rfl | (exact absurd h (by decide))

end HeaderWords

namespace Vt_ArrayEditOps

open Op

theorem Replay.prepend_nil (r : Replay) : Replay.prepend [] r = r := rfl

theorem Replay.prepend_append (xs ys : List Visit) (r : Replay) :
    Replay.prepend (xs ++ ys) r = Replay.prepend xs (Replay.prepend ys r) := by
  simp [Replay.prepend]

theorem Replay.push_some (v : Visit) (r : Replay) :
    Replay.push (some v) r = Replay.prepend [v] r := rfl

theorem loop_nil_zero (nl size : Option Nat) (op : Op) :
    _ForEachImpl.loop nl size op 0 [] = ⟨[], Status.completed, size⟩ := by
  simp [_ForEachImpl.loop]

theorem loop_cons_zero (nl size : Option Nat) (op : Op) (w : Int) (rest : List Int) :
    _ForEachImpl.loop nl size op 0 (w :: rest) =
      if (!IsValidOp (_ToOpAndCount w).op) = true then ⟨[], Status.invalidOp, size⟩
      else
        match Op.ofInt (_ToOpAndCount w).op with
        | none => ⟨[], Status.invalidOp, size⟩
        | some op' => _ForEachImpl.loop nl size op' (_ToOpAndCount w).count rest := by
  cases rest <;> simp [_ForEachImpl.loop]

theorem loop_cons_arity1 (nl size : Option Nat) (op : Op) (c w : Int) (rest : List Int)
    (hc : c ≠ 0) (har : GetArity op = 1) :
    _ForEachImpl.loop nl size op c (w :: rest) =
      match _CheckIns nl size op w (-1) with
      | none => _ForEachImpl.loop nl size op (wrap56 (c - 1)) rest
      | some (v, size') =>
        (_ForEachImpl.loop nl size' op (wrap56 (c - 1)) rest).push (some v) := by
  cases rest <;> simp [_ForEachImpl.loop, hc, har]

theorem loop_cons_arity2 (nl size : Option Nat) (op : Op) (c w a2 : Int) (rest : List Int)
    (hc : c ≠ 0) (har : GetArity op ≠ 1) :
    _ForEachImpl.loop nl size op c (w :: a2 :: rest) =
      match _CheckIns nl size op w a2 with
      | none => _ForEachImpl.loop nl size op (wrap56 (c - 1)) rest
      | some (v, size') =>
        (_ForEachImpl.loop nl size' op (wrap56 (c - 1)) rest).push (some v) := by
  simp [_ForEachImpl.loop, hc, har]

theorem loop_zero_op (nl size : Option Nat) (op op' : Op) (ws : List Int) :
    _ForEachImpl.loop nl size op 0 ws = _ForEachImpl.loop nl size op' 0 ws := by
  cases ws with
  | nil => simp [_ForEachImpl.loop]
  | cons w rest => rw [loop_cons_zero, loop_cons_zero]

theorem loop_header (nl size : Option Nat) (op0 op : Op) (c : Int) (rest : List Int)
    (h0 : 0 ≤ c) (h1 : c < 36028797018963968) :
    _ForEachImpl.loop nl size op0 0 (_ToInt64 ⟨c, op.toInt⟩ :: rest) =
      _ForEachImpl.loop nl size op c rest := by
  rw [loop_cons_zero]
  simp [toOpAndCount_toInt64 op c h0 h1, isValidOp_toInt, ofInt_toInt]

theorem loop_run (nl : Option Nat) (op : Op) (rest : List Int) :
    ∀ (run : List Visit) (size : Option Nat),
      (∀ v ∈ run, v.op = op ∧ (GetArity op = 1 → v.a2 = -1)) →
      (run.length : Int) < 36028797018963968 →
      _ForEachImpl.loop nl size op run.length (flatArgs run ++ rest) =
        Replay.prepend (replayIns nl size run).1
          (_ForEachImpl.loop nl (replayIns nl size run).2 op 0 rest) := by
  intro run
  induction run with
  | nil => intro size _ _; simp [flatArgs, replayIns, Replay.prepend]
  | cons v vs ih =>
    intro size hrun hlen
    have hv := hrun v (List.mem_cons_self _ _)
    have hvs : ∀ u ∈ vs, u.op = op ∧ (GetArity op = 1 → u.a2 = -1) :=
      fun u hu => hrun u (List.mem_cons_of_mem _ hu)
    have hlen' : (vs.length : Int) < 36028797018963968 := by
      simp only [List.length_cons, Nat.cast_add, Nat.cast_one] at hlen; omega
    have hw : wrap56 ((vs.length : Int) + 1 - 1) = vs.length := by
      rw [wrap56_of_range] <;> omega
    obtain ⟨hop, ha2⟩ := hv
    by_cases har : GetArity op = 1
    · have hfl : flatArgs (v :: vs) ++ rest = v.a1 :: (flatArgs vs ++ rest) := by
        simp [flatArgs, argWords, hop, har]
      have hne' : ((vs.length : Int) + 1) ≠ 0 := by omega
      rw [hfl, List.length_cons, Nat.cast_add, Nat.cast_one,
        loop_cons_arity1 nl size op _ _ _ hne' har, hw]
      rw [replayIns, hop, ha2 har]
      cases hc : _CheckIns nl size op v.a1 (-1) with
      | none => simp only []; exact ih size hvs hlen'
      | some p =>
        obtain ⟨v', size'⟩ := p
        simp only [Replay.push_some]
        rw [ih size' hvs hlen']
        simp [Replay.prepend]
    · have hfl : flatArgs (v :: vs) ++ rest = v.a1 :: v.a2 :: (flatArgs vs ++ rest) := by
        simp [flatArgs, argWords, hop, har]
      have hne' : ((vs.length : Int) + 1) ≠ 0 := by omega
      rw [hfl, List.length_cons, Nat.cast_add, Nat.cast_one,
        loop_cons_arity2 nl size op _ _ _ _ hne' har, hw]
      rw [replayIns, hop]
      cases hc : _CheckIns nl size op v.a1 v.a2 with
      | none => simp only []; exact ih size hvs hlen'
      | some p =>
        obtain ⟨v', size'⟩ := p
        simp only [Replay.push_some]
        rw [ih size' hvs hlen']
        simp [Replay.prepend]

theorem replayIns_append (nl : Option Nat) :
    ∀ (xs ys : List Visit) (size : Option Nat),
      replayIns nl size (xs ++ ys) =
        ((replayIns nl size xs).1 ++ (replayIns nl (replayIns nl size xs).2 ys).1,
          (replayIns nl (replayIns nl size xs).2 ys).2) := by
  intro xs
  induction xs with
  | nil => intro ys size; simp [replayIns]
  | cons x xs ih =>
    intro ys size
    simp only [List.cons_append, replayIns]
    cases hc : _CheckIns nl size x.op x.a1 x.a2 with
    | none => simp only []; exact ih ys size
    | some p =>
      obtain ⟨v', size'⟩ := p
      have := ih ys size'
      simp only [List.append_eq] at this ⊢
      rw [this]
      rfl

theorem Decodes.nil : Decodes [] [] := by
  intro nl size rest
  simp [replayIns, Replay.prepend]

theorem Decodes.append {w1 w2 : List Int} {i1 i2 : List Visit}
    (h1 : Decodes w1 i1) (h2 : Decodes w2 i2) : Decodes (w1 ++ w2) (i1 ++ i2) := by
  intro nl size rest
  rw [List.append_assoc, h1 nl size (w2 ++ rest), h2 nl _ rest, replayIns_append]
  simp [Replay.prepend]

theorem Decodes.run (op : Op) (run : List Visit)
    (hrun : ∀ v ∈ run, v.op = op ∧ (GetArity op = 1 → v.a2 = -1))
    (hlen : (run.length : Int) < 36028797018963968) :
    Decodes (_ToInt64 ⟨run.length, op.toInt⟩ :: flatArgs run) run := by
  intro nl size rest
  rw [List.cons_append, loop_header nl size _ op _ _ (by omega) hlen,
    loop_run nl op rest run size hrun hlen]
  rw [loop_zero_op nl _ op OpWriteLiteral]

theorem Decodes.visits {ws : List Int} {is : List Visit} (h : Decodes ws is)
    (nl size : Option Nat) :
    (_ForEachImpl nl size ws).visits = (replayIns nl size is).1 ∧
    (_ForEachImpl nl size ws).status = Status.completed ∧
    (_ForEachImpl nl size ws).size = (replayIns nl size is).2 := by
  have := h nl size []
  rw [List.append_nil, loop_nil_zero] at this
  unfold _ForEachImpl
  rw [this]
  simp [Replay.prepend]

end Vt_ArrayEditOps

namespace Vt_ArrayEditOps

theorem flatArgs_append (xs ys : List Visit) :
    flatArgs (xs ++ ys) = flatArgs xs ++ flatArgs ys := by
  induction xs with
  | nil => rfl
  | cons x xs ih => simp [flatArgs, ih]

theorem flatArgs_single (v : Visit) : flatArgs [v] = argWords v := by
  simp [flatArgs]

end Vt_ArrayEditOps

theorem List.getD_append_cons_length {β : Type} (pre : List β) (x : β) (post : List β) (d : β) :
    (pre ++ x :: post).getD pre.length d = x := by
  induction pre with
  | nil => rfl
  | cons p ps ih => simpa using ih

theorem List.set_append_cons_length {β : Type} (pre : List β) (x y : β) (post : List β) :
    (pre ++ x :: post).set pre.length y = pre ++ y :: post := by
  induction pre with
  | nil => rfl
  | cons p ps ih => simp [ih]

namespace Vt_ArrayEditOpsBuilder

open Vt_ArrayEditOps Vt_ArrayEditOps.Op

theorem Recorded.init : Recorded {} [] := Or.inl ⟨rfl, rfl⟩

theorem Recorded.decodes {b : Vt_ArrayEditOpsBuilder} {is : List Visit}
    (h : Recorded b is) (hlen : (is.length : Int) < 36028797018963968) :
    Decodes b._ins is := by
  rcases h with ⟨h1, h2⟩ | ⟨pre, isPre, op, run, hins, _, _, hrun, hpre, his⟩
  · rw [h1, h2]; exact Decodes.nil
  · rw [hins, his]
    have hl : (run.length : Int) < 36028797018963968 := by
      rw [his, List.length_append] at hlen
      push_cast at hlen
      omega
    exact hpre.append (Decodes.run op run hrun hl)

theorem Recorded.addIns {b : Vt_ArrayEditOpsBuilder} {is : List Visit}
    (h : Recorded b is) (v : Visit)
    (hlen : (is.length : Int) + 1 < 36028797018963968)
    (hv : GetArity v.op = 1 → v.a2 = -1) :
    Recorded (b.addIns v) (is ++ [v]) := by
  have hdec := h.decodes (by omega)
  rcases h with ⟨h1, h2⟩ | ⟨pre, isPre, op, run, hins, hidx, hne, hrun, hpre, his⟩
  · refine Or.inr ⟨[], [], v.op, [v], ?_, ?_, by simp, ?_, Decodes.nil, by simp [h2]⟩
    · simp [Vt_ArrayEditOpsBuilder.addIns, _AddOp, h1, flatArgs_single]
    · simp [Vt_ArrayEditOpsBuilder.addIns, _AddOp, h1]
    · intro u hu
      rw [List.mem_singleton] at hu
      subst hu
      exact ⟨rfl, hv⟩
  · have hl : (run.length : Int) + 1 < 36028797018963968 := by
      rw [his, List.length_append] at hlen
      push_cast at hlen
      omega
    have hget : b._ins.getD b._lastOpIdx.toNat 0 =
        _ToInt64 { count := run.length, op := op.toInt } := by
      rw [hins, hidx, Int.toNat_ofNat, List.getD_append_cons_length]
    have hoc := toOpAndCount_toInt64 op run.length (by omega) (by omega)
    have hnil : b._ins.isEmpty = false := by rw [hins]; cases pre <;> rfl
    have hadd : b._AddOp v.op =
        if op.toInt ≠ v.op.toInt then
          { _lastOpIdx := b._ins.length,
            _ins := b._ins ++ [_ToInt64 { count := 1, op := v.op.toInt }] }
        else
          { b with _ins := (b._ins.set b._lastOpIdx.toNat
              (_ToInt64 { count := wrap56 ((run.length : Int) + 1), op := op.toInt })) } := by
      unfold _AddOp
      rw [hget, hoc, hnil]
      simp
    by_cases hop' : op = v.op
    · have hw : wrap56 ((run.length : Int) + 1) = ((run ++ [v]).length : Int) := by
        rw [wrap56_of_range _ (by omega) hl]; simp
      have hadd' : b._AddOp v.op =
          ⟨pre ++ _ToInt64 ⟨((run ++ [v]).length : Int), op.toInt⟩ :: flatArgs run,
            b._lastOpIdx⟩ := by
        rw [hadd, if_neg (by rw [hop']; simp), hw, hins, hidx, Int.toNat_ofNat,
          List.set_append_cons_length]
      refine Or.inr ⟨pre, isPre, op, run ++ [v], ?_, ?_, by simp, ?_, hpre, by simp [his]⟩
      · simp [Vt_ArrayEditOpsBuilder.addIns, hadd', flatArgs_append, flatArgs_single]
      · simp [Vt_ArrayEditOpsBuilder.addIns, hadd', hidx]
      · intro u hu
        rcases List.mem_append.mp hu with hu | hu
        · exact hrun u hu
        · rw [List.mem_singleton] at hu
          subst hu
          exact ⟨hop'.symm, fun ha => hv (hop' ▸ ha)⟩
    · have hop : op.toInt ≠ v.op.toInt := fun h => hop' (toInt_injective h)
      have hadd' : b._AddOp v.op =
          { _lastOpIdx := b._ins.length,
            _ins := b._ins ++ [_ToInt64 { count := 1, op := v.op.toInt }] } := by
        rw [hadd, if_pos hop]
      refine Or.inr ⟨b._ins, is, v.op, [v], ?_, ?_, by simp, ?_, hdec, rfl⟩
      · simp [Vt_ArrayEditOpsBuilder.addIns, hadd', flatArgs_single]
      · simp [Vt_ArrayEditOpsBuilder.addIns, hadd']
      · intro u hu
        rw [List.mem_singleton] at hu
        subst hu
        exact ⟨rfl, hv⟩

theorem AddOp2_eq_addIns (b : Vt_ArrayEditOpsBuilder) (op : Op) (a1 a2 : Int)
    (h : GetArity op = 2) : b.AddOp2 op a1 a2 = b.addIns ⟨op, a1, a2⟩ := by
  simp [AddOp2, Vt_ArrayEditOpsBuilder.addIns, _CheckArity, h, argWords]

theorem AddOp1_eq_addIns (b : Vt_ArrayEditOpsBuilder) (op : Op) (a1 : Int)
    (h : GetArity op = 1) (hr : ¬ (a1 < 0 ∧ (op = OpMinSize ∨ op = OpMaxSize ∨ op = OpSetSize))) :
    b.AddOp1 op a1 = b.addIns ⟨op, a1, -1⟩ := by
  simp only [AddOp1, hr, if_false, Vt_ArrayEditOpsBuilder.addIns, _CheckArity, h, argWords]
  simp

end Vt_ArrayEditOpsBuilder

namespace Vt_ArrayEditOps

open Op

theorem checkLiteralIndex_some (idx : Int) (n : Nat) :
    _CheckLiteralIndex idx (some n) = decide (0 ≤ idx ∧ idx < n) := by
  rw [Bool.eq_iff_iff]
  simp only [_CheckLiteralIndex, Bool.and_eq_true, decide_eq_true_eq]
  omega

theorem refIndex_some (idx : Int) (n : Nat) :
    _NormalizeAndCheckRefIndex idx (some n) =
      (decide (0 ≤ normRef idx n ∧ normRef idx n < n), normRef idx n) := by
  simp only [_NormalizeAndCheckRefIndex, normRef, Prod.mk.injEq, and_true]
  rw [Bool.eq_iff_iff]
  simp only [Bool.and_eq_true, decide_eq_true_eq]
  omega

theorem insertIndex_some (idx : Int) (n : Nat) :
    _NormalizeAndCheckInsertIndex idx (some n) =
      (decide (0 ≤ normIns idx n ∧ normIns idx n ≤ n), normIns idx n) := by
  simp only [_NormalizeAndCheckInsertIndex, normIns]
  by_cases he : idx = EndIndex
  · have hn : ¬ ((n : Int) < 0) := by omega
    simp only [he, if_true, hn, if_false, Prod.mk.injEq, and_true]
    rw [Bool.eq_iff_iff]
    simp only [Bool.and_eq_true, decide_eq_true_eq]
    omega
  · simp only [he, if_false, Prod.mk.injEq, and_true]
    rw [Bool.eq_iff_iff]
    simp only [Bool.and_eq_true, decide_eq_true_eq]
    omega

theorem checkSizeArg_eq (op : Op) (a : Int) : _CheckSizeArg op a = decide (0 ≤ a) := by
  rw [Bool.eq_iff_iff]
  simp [_CheckSizeArg]

theorem checkIns_some (nl n : Nat) (op : Op) (a1 a2 : Int) (v : Visit) (sz : Option Nat)
    (h : _CheckIns (some nl) (some n) op a1 a2 = some (v, sz)) :
    v.op = op ∧ v.InRange nl n ∧ sz = some (v.sizeAfter n) := by
  cases op <;>
    simp only [_CheckIns, checkLiteralIndex_some, refIndex_some, insertIndex_some,
      checkSizeArg_eq, _UpdateWorkingSize, Option.getD_some, Bool.not_eq_true',
      decide_eq_false_iff_not] at h <;>
    (repeat' (split at h))
  all_goals cases h
  all_goals simp only [Visit.InRange, Visit.sizeAfter, true_and, and_true]
  all_goals simp_all

end Vt_ArrayEditOps

namespace VtArrayEdit

open Vt_ArrayEditOps Vt_ArrayEditOps.Op

variable {α : Type}

theorem VtArray_insert_length (a : List α) (i : Int) (x : α) (h0 : 0 ≤ i)
    (h : i ≤ a.length) : (VtArray.insert a i x).length = a.length + 1 := by
  simp only [VtArray.insert, List.length_append, List.length_take, List.length_cons,
    List.length_drop]
  omega

theorem VtArray_erase_length (a : List α) (i : Int) (h0 : 0 ≤ i) (h : i < a.length) :
    (VtArray.erase a i).length = a.length - 1 := by
  simp only [VtArray.erase]
  exact List.length_eraseIdx_of_lt (by omega)

theorem VtArray_resizeFill_length (a : List α) (n : Int) (x : α) :
    (VtArray.resizeFill a n x).length = n.toNat := by
  simp only [VtArray.resizeFill, List.length_append, List.length_take, List.length_replicate]
  omega

theorem VtArray_assign_length (a : List α) (i : Int) (x : α) :
    (VtArray.assign a i x).length = a.length := by
  simp [VtArray.assign]

theorem fn_length [Inhabited α] (lits D : List α) (nl : Nat) (v : Visit)
    (h : v.InRange nl D.length) :
    (_ApplyEdits.fn lits D v).length = v.sizeAfter D.length := by
  obtain ⟨op, a1, a2⟩ := v
  cases op <;> simp only [Visit.InRange] at h <;>
    simp only [_ApplyEdits.fn, Visit.sizeAfter, VtArray_assign_length, VtArray.resize]
  · exact VtArray_insert_length _ _ _ h.2.1 h.2.2
  · exact VtArray_insert_length _ _ _ h.2.1 h.2.2
  · exact VtArray_erase_length _ _ h.1 h.2
  · split
    · rw [VtArray_resizeFill_length]; omega
    · omega
  · split
    · rw [VtArray_resizeFill_length]; omega
    · omega
  · rw [VtArray_resizeFill_length]
  · rw [VtArray_resizeFill_length]
  · split
    · rw [VtArray_resizeFill_length]; omega
    · omega

theorem foldl_fn_replayIns [Inhabited α] (lits : List α) :
    ∀ (is : List Visit) (D : List α),
      (replayIns (some lits.length) (some D.length) is).1.foldl (_ApplyEdits.fn lits) D =
        is.foldl (applyIns lits) D := by
  intro is
  induction is with
  | nil => intro D; rfl
  | cons i is ih =>
    intro D
    rw [replayIns, List.foldl_cons, applyIns]
    cases hc : _CheckIns (some lits.length) (some D.length) i.op i.a1 i.a2 with
    | none => exact ih D
    | some p =>
      obtain ⟨v, sz⟩ := p
      obtain ⟨_, hr, hs⟩ := checkIns_some _ _ _ _ _ _ _ hc
      simp only [List.foldl_cons]
      rw [hs, ← fn_length lits D lits.length v hr]
      exact ih _

theorem VtArray_get_eq [Inhabited α] (lits lits' : List α) (k k' : Int)
    (h : lits[k.toNat]? = lits'[k'.toNat]?) : VtArray.get lits k = VtArray.get lits' k' := by
  simp only [VtArray.get, List.getD_eq_getElem?_getD, h]

theorem applyIns_congr [Inhabited α] (lits lits' D : List α) (i i' : Visit)
    (h : SameIns lits lits' i i') : applyIns lits D i = applyIns lits' D i' := by
  obtain ⟨op, a1, a2⟩ := i
  obtain ⟨op', b1, b2⟩ := i'
  obtain ⟨hop, h⟩ := h
  simp only at hop
  subst hop
  cases op <;> simp only at h
  case OpWriteLiteral | OpInsertLiteral | OpMinSizeFill | OpSetSizeFill =>
    obtain ⟨rfl, ha, hb, hg⟩ := h
    simp only [applyIns, _CheckIns, checkLiteralIndex_some, refIndex_some, insertIndex_some,
      checkSizeArg_eq, _UpdateWorkingSize, Option.getD_some, Bool.not_eq_true',
      decide_eq_false_iff_not, ha, hb, and_self, not_true_eq_false, if_false]
    split_ifs <;> simp only [_ApplyEdits.fn, VtArray_get_eq _ _ _ _ hg]
  all_goals
    obtain ⟨rfl, rfl⟩ := h
    simp only [applyIns, _CheckIns, refIndex_some, insertIndex_some,
      checkSizeArg_eq, _UpdateWorkingSize, Option.getD_some, Bool.not_eq_true',
      decide_eq_false_iff_not]
    split_ifs <;> simp only [_ApplyEdits.fn]

end VtArrayEdit

namespace VtArrayEditBuilder

open Vt_ArrayEditOps Vt_ArrayEditOps.Op VtArrayEdit

variable {α : Type}

theorem findOrAdd_spec [DecidableEq α] (b : VtArrayEditBuilder α) (e : α) (hb : MapOK b) :
    (b._FindOrAddLiteral e).2._opsBuilder = b._opsBuilder ∧
    (∃ ext, (b._FindOrAddLiteral e).2._literals = b._literals ++ ext) ∧
    MapOK (b._FindOrAddLiteral e).2 ∧
    0 ≤ (b._FindOrAddLiteral e).1 ∧
    (b._FindOrAddLiteral e).2._literals[(b._FindOrAddLiteral e).1.toNat]? = some e := by
  unfold _FindOrAddLiteral
  cases hl : b._literalToIndex.lookup e with
  | some idx =>
    exact ⟨rfl, ⟨[], by simp⟩, hb, (hb e idx hl).1, (hb e idx hl).2⟩
  | none =>
    refine ⟨rfl, ⟨[e], rfl⟩, ?_, by simp, by simp⟩
    intro e' idx' h'
    simp only [List.lookup_cons] at h'
    by_cases he : e' = e
    · subst he
      simp only [beq_self_eq_true, Option.some.injEq] at h'
      subst h'
      simp
    · have hne : (e' == e) = false := by simpa using he
      simp only [hne] at h'
      obtain ⟨h0, h1⟩ := hb e' idx' h'
      refine ⟨h0, ?_⟩
      have hlt : idx'.toNat < b._literals.length := by
        rcases Nat.lt_or_ge idx'.toNat b._literals.length with h | h
        · exact h
        · rw [List.getElem?_eq_none h] at h1; cases h1
      simp only
      rw [List.getElem?_append_left hlt]
      exact h1

theorem Call.toIns_facts [Inhabited α] (lits : List α) (c : Call α) (k : Int) (i : Visit)
    (hi : c.toIns k = some i)
    (hk : ∀ e, c.elem = some e → 0 ≤ k ∧ lits[k.toNat]? = some e) :
    (∃ i0, c.toIns 0 = some i0 ∧ SameIns lits c.elem.toList i i0) ∧
    LitOK lits.length i ∧ (GetArity i.op = 1 → i.a2 = -1) := by
  have hlt : ∀ e, lits[k.toNat]? = some e → k.toNat < lits.length := by
    intro e h
    rcases Nat.lt_or_ge k.toNat lits.length with h' | h'
    · exact h'
    · rw [List.getElem?_eq_none h'] at h; cases h
  cases c <;> simp only [Call.toIns] at hi ⊢
  all_goals try (split at hi)
  all_goals cases hi
  all_goals simp only [Call.elem, Option.some.injEq, forall_eq', reduceCtorEq, false_implies,
    implies_true] at hk
  all_goals try (rename_i hneg; simp only [hneg, if_false])
  all_goals refine ⟨⟨_, rfl, ?_⟩, ?_, ?_⟩
  all_goals simp only [SameIns, LitOK, GetArity, Call.elem, Option.toList, reduceCtorEq,
    or_false, false_or, or_self, or_true, true_or, if_true, if_false, false_implies,
    implies_true, and_self, true_and, and_true, List.length_singleton, true_implies,
    OfNat.ofNat_ne_one, Int.toNat_zero, List.getElem?_cons_zero, le_refl, Nat.cast_one,
    zero_lt_one, Nat.cast_ofNat]
  all_goals first
    | trivial
    | (have h1 := hlt _ hk.2
       refine ⟨?_, ?_⟩ <;> first | exact hk.2 | omega)

theorem call_shape [DecidableEq α] (b : VtArrayEditBuilder α) (c : Call α) (hb : MapOK b) :
    (∃ ext, (b.call c)._literals = b._literals ++ ext) ∧ MapOK (b.call c) ∧
    ((c.toIns 0 = none ∧ (b.call c)._opsBuilder = b._opsBuilder) ∨
      ∃ k i, c.toIns k = some i ∧ (GetArity i.op = 1 → i.a2 = -1) ∧
        (b.call c)._opsBuilder = b._opsBuilder.addIns i ∧
        ∀ e, c.elem = some e → 0 ≤ k ∧ (b.call c)._literals[k.toNat]? = some e) := by
  cases c
  case Write e x =>
    obtain ⟨h1, h2, h3, h4, h5⟩ := findOrAdd_spec b e hb
    refine ⟨h2, h3, Or.inr ⟨(b._FindOrAddLiteral e).1, _, rfl, by simp [GetArity], ?_, ?_⟩⟩
    · simp only [call, Write]
      rw [h1, Vt_ArrayEditOpsBuilder.AddOp2_eq_addIns _ _ _ _ (by rfl)]
    · intro e' he'
      cases he'
      exact ⟨h4, h5⟩
  case Insert e x =>
    obtain ⟨h1, h2, h3, h4, h5⟩ := findOrAdd_spec b e hb
    refine ⟨h2, h3, Or.inr ⟨(b._FindOrAddLiteral e).1, _, rfl, by simp [GetArity], ?_, ?_⟩⟩
    · simp only [call, Insert]
      rw [h1, Vt_ArrayEditOpsBuilder.AddOp2_eq_addIns _ _ _ _ (by rfl)]
    · intro e' he'
      cases he'
      exact ⟨h4, h5⟩
  case Prepend e =>
    obtain ⟨h1, h2, h3, h4, h5⟩ := findOrAdd_spec b e hb
    refine ⟨h2, h3, Or.inr ⟨(b._FindOrAddLiteral e).1, _, rfl, by simp [GetArity], ?_, ?_⟩⟩
    · simp only [call, Prepend]
      rw [h1, Vt_ArrayEditOpsBuilder.AddOp2_eq_addIns _ _ _ _ (by rfl)]
    · intro e' he'
      cases he'
      exact ⟨h4, h5⟩
  case Append e =>
    obtain ⟨h1, h2, h3, h4, h5⟩ := findOrAdd_spec b e hb
    refine ⟨h2, h3, Or.inr ⟨(b._FindOrAddLiteral e).1, _, rfl, by simp [GetArity], ?_, ?_⟩⟩
    · simp only [call, Append]
      rw [h1, Vt_ArrayEditOpsBuilder.AddOp2_eq_addIns _ _ _ _ (by rfl)]
    · intro e' he'
      cases he'
      exact ⟨h4, h5⟩
  case MinSizeFill x e =>
    obtain ⟨h1, h2, h3, h4, h5⟩ := findOrAdd_spec b e hb
    refine ⟨h2, h3, Or.inr ⟨(b._FindOrAddLiteral e).1, _, rfl, by simp [GetArity], ?_, ?_⟩⟩
    · simp only [call, MinSizeFill]
      rw [h1, Vt_ArrayEditOpsBuilder.AddOp2_eq_addIns _ _ _ _ (by rfl)]
    · intro e' he'
      cases he'
      exact ⟨h4, h5⟩
  case SetSizeFill x e =>
    obtain ⟨h1, h2, h3, h4, h5⟩ := findOrAdd_spec b e hb
    refine ⟨h2, h3, Or.inr ⟨(b._FindOrAddLiteral e).1, _, rfl, by simp [GetArity], ?_, ?_⟩⟩
    · simp only [call, SetSizeFill]
      rw [h1, Vt_ArrayEditOpsBuilder.AddOp2_eq_addIns _ _ _ _ (by rfl)]
    · intro e' he'
      cases he'
      exact ⟨h4, h5⟩
  case WriteRef x y =>
    refine ⟨⟨[], by simp [call, WriteRef]⟩, hb, Or.inr ⟨0, _, rfl, by simp [GetArity], ?_, ?_⟩⟩
    · simp only [call, WriteRef]
      rw [Vt_ArrayEditOpsBuilder.AddOp2_eq_addIns _ _ _ _ (by rfl)]
    · intro e' he'; cases he'
  case InsertRef x y =>
    refine ⟨⟨[], by simp [call, InsertRef]⟩, hb, Or.inr ⟨0, _, rfl, by simp [GetArity], ?_, ?_⟩⟩
    · simp only [call, InsertRef]
      rw [Vt_ArrayEditOpsBuilder.AddOp2_eq_addIns _ _ _ _ (by rfl)]
    · intro e' he'; cases he'
  case PrependRef x =>
    refine ⟨⟨[], by simp [call, PrependRef]⟩, hb, Or.inr ⟨0, _, rfl, by simp [GetArity], ?_, ?_⟩⟩
    · simp only [call, PrependRef]
      rw [Vt_ArrayEditOpsBuilder.AddOp2_eq_addIns _ _ _ _ (by rfl)]
    · intro e' he'; cases he'
  case AppendRef x =>
    refine ⟨⟨[], by simp [call, AppendRef]⟩, hb, Or.inr ⟨0, _, rfl, by simp [GetArity], ?_, ?_⟩⟩
    · simp only [call, AppendRef]
      rw [Vt_ArrayEditOpsBuilder.AddOp2_eq_addIns _ _ _ _ (by rfl)]
    · intro e' he'; cases he'
  case EraseRef x =>
    refine ⟨⟨[], by simp [call, EraseRef]⟩, hb, Or.inr ⟨0, _, rfl, fun _ => rfl, ?_, ?_⟩⟩
    · simp only [call, EraseRef]
      rw [Vt_ArrayEditOpsBuilder.AddOp1_eq_addIns _ _ _ (by rfl) (by simp)]
    · intro e' he'; cases he'
  case MinSize x =>
    refine ⟨⟨[], by simp [call, MinSize]⟩, hb, ?_⟩
    by_cases hx : x < 0
    · exact Or.inl ⟨by simp [Call.toIns, hx], by simp [call, MinSize,
        Vt_ArrayEditOpsBuilder.AddOp1, hx]⟩
    · refine Or.inr ⟨0, ⟨OpMinSize, x, -1⟩, by simp [Call.toIns, hx], fun _ => rfl, ?_, ?_⟩
      · simp only [call, MinSize]
        rw [Vt_ArrayEditOpsBuilder.AddOp1_eq_addIns _ _ _ (by rfl) (by simp [hx])]
      · intro e' he'; cases he'
  case MaxSize x =>
    refine ⟨⟨[], by simp [call, MaxSize]⟩, hb, ?_⟩
    by_cases hx : x < 0
    · exact Or.inl ⟨by simp [Call.toIns, hx], by simp [call, MaxSize,
        Vt_ArrayEditOpsBuilder.AddOp1, hx]⟩
    · refine Or.inr ⟨0, ⟨OpMaxSize, x, -1⟩, by simp [Call.toIns, hx], fun _ => rfl, ?_, ?_⟩
      · simp only [call, MaxSize]
        rw [Vt_ArrayEditOpsBuilder.AddOp1_eq_addIns _ _ _ (by rfl) (by simp [hx])]
      · intro e' he'; cases he'
  case SetSize x =>
    refine ⟨⟨[], by simp [call, SetSize]⟩, hb, ?_⟩
    by_cases hx : x < 0
    · exact Or.inl ⟨by simp [Call.toIns, hx], by simp [call, SetSize,
        Vt_ArrayEditOpsBuilder.AddOp1, hx]⟩
    · refine Or.inr ⟨0, ⟨OpSetSize, x, -1⟩, by simp [Call.toIns, hx], fun _ => rfl, ?_, ?_⟩
      · simp only [call, SetSize]
        rw [Vt_ArrayEditOpsBuilder.AddOp1_eq_addIns _ _ _ (by rfl) (by simp [hx])]
      · intro e' he'; cases he'

end VtArrayEditBuilder

namespace VtArrayEditBuilder

open Vt_ArrayEditOps Vt_ArrayEditOps.Op VtArrayEdit

variable {α : Type}

theorem sameIns_append_of_litOK (lits ext : List α) (i : Visit) (h : LitOK lits.length i) :
    SameIns (lits ++ ext) lits i i := by
  obtain ⟨op, a1, a2⟩ := i
  obtain ⟨h1, h2⟩ := h
  refine ⟨rfl, ?_⟩
  cases op <;> simp only [reduceCtorEq, or_false, false_or, or_self, true_or, or_true,
    true_implies, false_implies] at h1 h2 <;> simp only [and_self, List.length_append,
    Nat.cast_add]
  · exact ⟨trivial, ⟨h1.1, by omega⟩, ⟨h1.1, by omega⟩, List.getElem?_append_left h1.2⟩
  · exact ⟨trivial, ⟨h1.1, by omega⟩, ⟨h1.1, by omega⟩, List.getElem?_append_left h1.2⟩
  · exact ⟨trivial, ⟨h2.1, by omega⟩, ⟨h2.1, by omega⟩, List.getElem?_append_left h2.2⟩
  · exact ⟨trivial, ⟨h2.1, by omega⟩, ⟨h2.1, by omega⟩, List.getElem?_append_left h2.2⟩

theorem litOK_mono {n m : Nat} (hnm : n ≤ m) (i : Visit) (h : LitOK n i) : LitOK m i :=
  ⟨fun ho => ⟨(h.1 ho).1, by have := (h.1 ho).2; omega⟩,
   fun ho => ⟨(h.2 ho).1, by have := (h.2 ho).2; omega⟩⟩

theorem foldl_congr_mem {β γ : Type} (f g : β → γ → β) :
    ∀ (l : List γ) (x : β), (∀ i ∈ l, ∀ y, f y i = g y i) → l.foldl f x = l.foldl g x := by
  intro l
  induction l with
  | nil => intro x _; rfl
  | cons a l ih =>
    intro x h
    rw [List.foldl_cons, List.foldl_cons, h a (List.mem_cons_self _ _)]
    exact ih _ (fun i hi => h i (List.mem_cons_of_mem _ hi))

theorem After.fresh [DecidableEq α] [Inhabited α] : After ({} : VtArrayEditBuilder α) [] :=
  ⟨[], Vt_ArrayEditOpsBuilder.Recorded.init, le_refl _,
    fun e idx h => by simp [List.lookup] at h,
    fun i hi => absurd hi (List.not_mem_nil i), fun _ => rfl⟩

theorem After.step [DecidableEq α] [Inhabited α] {b : VtArrayEditBuilder α}
    {cs : List (Call α)} (h : After b cs) (c : Call α)
    (hlen : (cs.length : Int) + 1 < 36028797018963968) :
    After (b.call c) (cs ++ [c]) := by
  obtain ⟨is, hrec, hle, hmap, hlit, hsem⟩ := h
  obtain ⟨⟨ext, hext⟩, hmap', hshape⟩ := call_shape b c hmap
  have hold : ∀ D, is.foldl (applyIns (b.call c)._literals) D = cs.foldl Call.effect D := by
    intro D
    rw [hext, ← hsem D]
    exact foldl_congr_mem _ _ is D
      (fun i hi y => applyIns_congr _ _ _ _ _ (sameIns_append_of_litOK _ ext i (hlit i hi)))
  have hlit' : ∀ i ∈ is, LitOK (b.call c)._literals.length i := by
    intro i hi
    refine litOK_mono ?_ i (hlit i hi)
    rw [hext, List.length_append]
    omega
  rcases hshape with ⟨hnone, hops⟩ | ⟨k, i, hi, har, hops, hk⟩
  · refine ⟨is, hops ▸ hrec, ?_, hmap', hlit', fun D => ?_⟩
    · rw [List.length_append]; omega
    · rw [List.foldl_append, hold]
      simp [Call.effect, hnone]
  · obtain ⟨⟨i0, hi0, hsame⟩, hlitok, _⟩ := Call.toIns_facts (b.call c)._literals c k i hi hk
    refine ⟨is ++ [i], hops ▸ hrec.addIns i (by omega) har, ?_, hmap', ?_, fun D => ?_⟩
    · simp only [List.length_append, List.length_singleton]; omega
    · intro j hj
      rcases List.mem_append.mp hj with hj | hj
      · exact hlit' j hj
      · rw [List.mem_singleton] at hj
        subst hj
        exact hlitok
    · rw [List.foldl_append, List.foldl_append, hold]
      simp [Call.effect, hi0, applyIns_congr _ _ _ _ _ hsame]

theorem After.calls [DecidableEq α] [Inhabited α] :
    ∀ (cs' : List (Call α)) (b : VtArrayEditBuilder α) (cs : List (Call α)),
      After b cs → ((cs.length : Int) + cs'.length < 36028797018963968) →
      After (cs'.foldl call b) (cs ++ cs') := by
  intro cs'
  induction cs' with
  | nil => intro b cs h _; simpa using h
  | cons c cs' ih =>
    intro b cs h hlen
    simp only [List.length_cons, Nat.cast_add, Nat.cast_one] at hlen
    have := ih (b.call c) (cs ++ [c]) (h.step c (by omega))
      (by simp only [List.length_append, List.length_singleton, Nat.cast_add, Nat.cast_one]
          omega)
    simpa using this

/-- What a builder-made edit does to a dense array: the effects of the calls,
in order. -/
theorem build_composeOver [DecidableEq α] [Inhabited α] (cs : List (Call α)) (D : List α)
    (hlen : (cs.length : Int) < 36028797018963968) :
    (build cs).ComposeOver (ofArray D) = ofArray (cs.foldl Call.effect D) := by
  have h := After.calls cs ({} : VtArrayEditBuilder α) [] After.fresh (by simpa using hlen)
  simp only [List.nil_append] at h
  obtain ⟨is, hrec, hle, _, _, hsem⟩ := h
  have hdec := hrec.decodes (by omega)
  have hvis := (hdec.visits (some (cs.foldl call {})._literals.length) (some D.length)).1
  unfold build FinalizeAndReset ComposeOver
  simp only [IsDenseArray, IsIdentity, Vt_ArrayEditOps.IsEmpty, ofArray, Bool.false_eq_true,
    if_false, Bool.not_false, Bool.true_and, if_true]
  split
  · rename_i hemp
    have his : is = [] := by
      rcases hrec with ⟨_, h2⟩ | ⟨pre, isPre, op, run, hins, _⟩
      · exact h2
      · rw [hins] at hemp
        cases pre <;> simp at hemp
    rw [← hsem D, his]
    rfl
  · simp only [_ApplyEdits, ForEachValid]
    rw [hvis, foldl_fn_replayIns, hsem D]

end VtArrayEditBuilder

namespace VtArrayEditBuilder

open Vt_ArrayEditOps Vt_ArrayEditOps.Op VtArrayEdit

variable {α : Type}

theorem effect_write [Inhabited α] (D : List α) (x : α) (i : Int) :
    Call.effect D (Call.Write x i) =
      if 0 ≤ normRef i D.length ∧ normRef i D.length < D.length then
        D.set (normRef i D.length).toNat x
      else D := by
  simp only [Call.effect, Call.toIns, Call.elem, Option.toList, applyIns, _CheckIns,
    checkLiteralIndex_some, refIndex_some, List.length_singleton, Nat.cast_one, le_refl,
    zero_lt_one, and_self, decide_True, Bool.not_true, Bool.false_eq_true, if_false,
    Bool.not_eq_true', decide_eq_false_iff_not]
  split_ifs <;> simp [_ApplyEdits.fn, VtArray.assign, VtArray.get]

theorem effect_writeRef [Inhabited α] (D : List α) (s d : Int) :
    Call.effect D (Call.WriteRef s d) =
      if (0 ≤ normRef s D.length ∧ normRef s D.length < D.length) ∧
          (0 ≤ normRef d D.length ∧ normRef d D.length < D.length) then
        D.set (normRef d D.length).toNat (D.getD (normRef s D.length).toNat default)
      else D := by
  simp only [Call.effect, Call.toIns, applyIns, _CheckIns, refIndex_some,
    Bool.not_eq_true', decide_eq_false_iff_not]
  split_ifs <;> first | rfl | (exfalso; tauto)

theorem effect_insert [Inhabited α] (D : List α) (x : α) (i : Int) :
    Call.effect D (Call.Insert x i) =
      if 0 ≤ normIns i D.length ∧ normIns i D.length ≤ D.length then
        D.take (normIns i D.length).toNat ++ x :: D.drop (normIns i D.length).toNat
      else D := by
  simp only [Call.effect, Call.toIns, Call.elem, Option.toList, applyIns, _CheckIns,
    checkLiteralIndex_some, insertIndex_some, List.length_singleton, Nat.cast_one, le_refl,
    zero_lt_one, and_self, decide_True, Bool.not_true, Bool.false_eq_true, if_false,
    Bool.not_eq_true', decide_eq_false_iff_not]
  split_ifs <;> simp [_ApplyEdits.fn, VtArray.insert, VtArray.get]

theorem effect_prepend [Inhabited α] (D : List α) (x : α) :
    Call.effect D (Call.Prepend x) = x :: D :=
  (effect_insert D x 0).trans (by simp [normIns, EndIndex])

theorem effect_append [Inhabited α] (D : List α) (x : α) :
    Call.effect D (Call.Append x) = D ++ [x] :=
  (effect_insert D x EndIndex).trans (by simp [normIns])

theorem effect_eraseRef [Inhabited α] (D : List α) (i : Int) :
    Call.effect D (Call.EraseRef i) =
      if 0 ≤ normRef i D.length ∧ normRef i D.length < D.length then
        D.eraseIdx (normRef i D.length).toNat
      else D := by
  simp only [Call.effect, Call.toIns, applyIns, _CheckIns, refIndex_some,
    Bool.not_eq_true', decide_eq_false_iff_not]
  split_ifs <;> rfl

end VtArrayEditBuilder

namespace VtArrayEditBuilder

open Vt_ArrayEditOps Vt_ArrayEditOps.Op VtArrayEdit

variable {α : Type}

theorem build_skip [DecidableEq α] [Inhabited α] (P Q : List (Call α)) (c : Call α)
    (D : List α) (hlen : P.length + Q.length + 1 < 2 ^ 55)
    (hc : Call.effect (P.foldl Call.effect D) c = P.foldl Call.effect D) :
    (build (P ++ c :: Q)).ComposeOver (ofArray D) =
      (build (P ++ Q)).ComposeOver (ofArray D) := by
  have h2 : (2 : Nat) ^ 55 = 36028797018963968 := by norm_num
  rw [build_composeOver _ D (by simp only [List.length_append, List.length_cons]; omega),
    build_composeOver _ D (by simp only [List.length_append]; omega),
    List.foldl_append, List.foldl_cons, hc, List.foldl_append]

theorem build_single [DecidableEq α] [Inhabited α] (c : Call α) (D : List α) :
    (build [c]).ComposeOver (ofArray D) = ofArray (Call.effect D c) :=
  build_composeOver [c] D (by simp)

end VtArrayEditBuilder

/-! ## The claims -/

section Claims

open Vt_ArrayEditOps Vt_ArrayEditOps.Op VtArrayEdit VtArrayEditBuilder

variable {α : Type}

/-- C1 (the code at the failing input): with `W` built by `Append(1)` and `S`
built by `Append(2)`, the composed edit `S.ComposeOver(W)` applied to the
empty array gives `[1, 1]`, while applying `W` and then `S` gives `[1, 2]`:
the literal index of `S` is not moved past the literals of `W`. -/
theorem C1_composed_edit_reads_weaker_literal :
    ((build [Call.Append (2 : Int)]).ComposeOver (build [Call.Append 1])).ComposeOver
        (ofArray []) = ofArray [1, 1] ∧
    (build [Call.Append (2 : Int)]).ComposeOver
        ((build [Call.Append 1]).ComposeOver (ofArray [])) = ofArray [1, 2] := by
  decide

/-- C2 (the code at the failing input): for `A` built by `Write(7, 0)`, `B`
built by `Append(5)` and the dense empty array `C`, `A.ComposeOver(B)
.ComposeOver(C)` is the dense array `[5]` and `A.ComposeOver(B.ComposeOver(C))`
is the dense array `[7]`, so the two groupings are not `==`. -/
theorem C2_grouping_changes_result :
    ((build [Call.Write (7 : Int) 0]).ComposeOver (build [Call.Append 5])).ComposeOver
        (ofArray []) = ofArray [5] ∧
    (build [Call.Write (7 : Int) 0]).ComposeOver
        ((build [Call.Append 5]).ComposeOver (ofArray [])) = ofArray [7] := by
  decide

/-- C3: the default-constructed identity composed over any edit `E` is `E`;
composed over a dense array `a` it is a dense edit whose `GetDenseArray()` is
`a`. -/
theorem C3_left_identity [Inhabited α] (E : VtArrayEdit α) (a : List α) :
    (ident : VtArrayEdit α).ComposeOver E = E ∧
    ((ident : VtArrayEdit α).ComposeOver (ofArray a)).IsDenseArray = true ∧
    ((ident : VtArrayEdit α).ComposeOver (ofArray a)).GetDenseArray = a := by
  refine ⟨rfl, rfl, rfl⟩

/-- C5: a dense edit `D` composed over any edit `E` is `D`. -/
theorem C5_dense_wins [Inhabited α] (D E : VtArrayEdit α) (hD : D.IsDenseArray = true) :
    D.ComposeOver E = D := by
  simp [ComposeOver, hD]

/-- C5 at the dense array `[1, 2]` over the edit built by `Append(3)`. -/
theorem C5_dense_wins_witness :
    (ofArray [(1 : Int), 2]).ComposeOver (build [Call.Append 3]) = ofArray [1, 2] :=
  C5_dense_wins (ofArray [(1 : Int), 2]) (build [Call.Append 3]) (by decide)

/-- C6 (the code at the failing input): for `E` built by `MinSize(10, 9)`,
`Optimize(E)` has no instruction, so over the empty array it gives the empty
array, while `E` gives ten elements `9`. -/
theorem C6_optimize_drops_fill_instruction :
    Optimize (build [Call.MinSizeFill 10 (9 : Int)]) = ident ∧
    (Optimize (build [Call.MinSizeFill 10 (9 : Int)])).ComposeOver (ofArray []) = ofArray [] ∧
    (build [Call.MinSizeFill 10 (9 : Int)]).ComposeOver (ofArray []) =
      ofArray [9, 9, 9, 9, 9, 9, 9, 9, 9, 9] := by
  decide

/-- C7 (the code at the failing input): for `E` built by `MinSize(5, 10)`,
`MinSize(1, 20)`, `Optimize(E)` over the empty array gives `[20]` and
`Optimize(Optimize(E))` gives the empty array. -/
theorem C7_optimize_twice_differs :
    (Optimize (build [Call.MinSizeFill 5 (10 : Int), Call.MinSizeFill 1 20])).ComposeOver
        (ofArray []) = ofArray [20] ∧
    (Optimize (Optimize (build [Call.MinSizeFill 5 (10 : Int), Call.MinSizeFill 1 20]))).ComposeOver
        (ofArray []) = ofArray [] := by
  decide

end Claims

section Claims

open Vt_ArrayEditOps Vt_ArrayEditOps.Op VtArrayEdit VtArrayEditBuilder

variable {α : Type}

/-- C8: let `n` be the length of the array obtained by applying the edit
built by the calls `P` to `D`.  A `Write(x, i)` or `EraseRef(i)` with `i < -n`
or `i >= n`, a `WriteRef(i, j)` with `i` or `j` outside `[-n, n)`, and an
`Insert(x, i)` with `i != EndIndex` and `i < -n` or `i > n`, recorded between
the calls `P` and the calls `Q`, changes nothing: the edit applied to `D`
equals the edit built by `P`, `Q` applied to `D`.  (The call sequences are
shorter than `2^55`, the capacity of the 56-bit run count.) -/
theorem C8_out_of_bounds_instruction_ignored [DecidableEq α] [Inhabited α]
    (P Q : List (Call α)) (D : List α) (x : α) (i j : Int) (n : Nat)
    (hlen : P.length + Q.length + 1 < 2 ^ 55)
    (hn : n = ((build P).ComposeOver (ofArray D)).GetDenseArray.length) :
    ((i < -n ∨ n ≤ i) →
      (build (P ++ Call.Write x i :: Q)).ComposeOver (ofArray D) =
        (build (P ++ Q)).ComposeOver (ofArray D)) ∧
    ((i < -n ∨ n ≤ i) →
      (build (P ++ Call.EraseRef i :: Q)).ComposeOver (ofArray D) =
        (build (P ++ Q)).ComposeOver (ofArray D)) ∧
    ((i < -n ∨ n ≤ i ∨ j < -n ∨ n ≤ j) →
      (build (P ++ Call.WriteRef i j :: Q)).ComposeOver (ofArray D) =
        (build (P ++ Q)).ComposeOver (ofArray D)) ∧
    ((i ≠ EndIndex ∧ (i < -n ∨ n < i)) →
      (build (P ++ Call.Insert x i :: Q)).ComposeOver (ofArray D) =
        (build (P ++ Q)).ComposeOver (ofArray D)) := by
  have h2 : (2 : Nat) ^ 55 = 36028797018963968 := by norm_num
  rw [build_composeOver P D (by omega)] at hn
  have hn' : (P.foldl Call.effect D).length = n := hn.symm
  refine ⟨fun h => build_skip P Q _ D hlen ?_, fun h => build_skip P Q _ D hlen ?_,
    fun h => build_skip P Q _ D hlen ?_, fun h => build_skip P Q _ D hlen ?_⟩
  · rw [effect_write, hn', if_neg]
    simp only [normRef]
    split_ifs <;> omega
  · rw [effect_eraseRef, hn', if_neg]
    simp only [normRef]
    split_ifs <;> omega
  · rw [effect_writeRef, hn', if_neg]
    simp only [normRef]
    split_ifs <;> omega
  · rw [effect_insert, hn', if_neg]
    simp only [normIns, h.1, if_false]
    split_ifs <;> omega

/-- C8 at `P = Append(1)`, `Q = Prepend(0)`, `D = [2]` (so `n = 2`), with
`Write(5, 7)`. -/
theorem C8_out_of_bounds_instruction_ignored_witness :
    (build ([Call.Append (1 : Int)] ++ Call.Write 5 7 :: [Call.Prepend 0])).ComposeOver
        (ofArray [2]) =
      (build ([Call.Append (1 : Int)] ++ [Call.Prepend 0])).ComposeOver (ofArray [2]) :=
  (C8_out_of_bounds_instruction_ignored [Call.Append (1 : Int)] [Call.Prepend 0] [2] 5 7 7 2
    (by decide) (by decide)).1 (Or.inr (by decide))

/-- C9: on an array `D` of length `n` and for `-n <= i < 0`, `Write(x, i)` and
`Write(x, n + i)` both give `D` with element `n + i` replaced by `x`, and
`EraseRef(i)` and `EraseRef(n + i)` both give `D` without element `n + i`; on
every `D`, `Insert(x, EndIndex)` gives `D` followed by `x`. -/
theorem C9_negative_index_counts_from_end [DecidableEq α] [Inhabited α]
    (D : List α) (x : α) (i : Int) :
    (-(D.length : Int) ≤ i → i < 0 →
      (build [Call.Write x i]).ComposeOver (ofArray D) =
          ofArray (D.set (D.length + i).toNat x) ∧
      (build [Call.Write x (D.length + i)]).ComposeOver (ofArray D) =
          ofArray (D.set (D.length + i).toNat x) ∧
      (build [Call.EraseRef i]).ComposeOver (ofArray D) =
          ofArray (D.eraseIdx (D.length + i).toNat) ∧
      (build [Call.EraseRef (D.length + i)]).ComposeOver (ofArray D) =
          ofArray (D.eraseIdx (D.length + i).toNat)) ∧
    (build [Call.Insert x EndIndex]).ComposeOver (ofArray D) = ofArray (D ++ [x]) := by
  refine ⟨fun h1 h2 => ⟨?_, ?_, ?_, ?_⟩, ?_⟩
  · have hr : normRef i D.length = D.length + i := by simp only [normRef, h2, if_true]; omega
    rw [build_single, effect_write, hr, if_pos (by omega)]
  · have hr : normRef (D.length + i) D.length = D.length + i := by
      simp only [normRef]; split_ifs <;> omega
    rw [build_single, effect_write, hr, if_pos (by omega)]
  · have hr : normRef i D.length = D.length + i := by simp only [normRef, h2, if_true]; omega
    rw [build_single, effect_eraseRef, hr, if_pos (by omega)]
  · have hr : normRef (D.length + i) D.length = D.length + i := by
      simp only [normRef]; split_ifs <;> omega
    rw [build_single, effect_eraseRef, hr, if_pos (by omega)]
  · rw [build_single]
    exact congrArg ofArray (effect_append D x)

/-- C9 at `D = [1, 2, 3]`, `x = 9`, `i = -1`: the last element is written. -/
theorem C9_negative_index_counts_from_end_witness :
    (build [Call.Write (9 : Int) (-1)]).ComposeOver (ofArray [1, 2, 3]) = ofArray [1, 2, 9] :=
  ((C9_negative_index_counts_from_end [(1 : Int), 2, 3] 9 (-1)).1 (by decide) (by decide)).1

/-- C10: on an array `D` of length `n` and for `0 <= i <= n`, `Insert(x, i)`
gives `D[0..i) ++ [x] ++ D[i..n)`; on every `D`, `Prepend(x)` gives
`[x] ++ D`, `Append(x)` gives `D ++ [x]`, and the edit built by `Prepend(x)`,
`Append(y)` gives `[x] ++ D ++ [y]`. -/
theorem C10_insert_before_position [DecidableEq α] [Inhabited α]
    (D : List α) (x y : α) (i : Int) :
    (0 ≤ i → i ≤ D.length →
      (build [Call.Insert x i]).ComposeOver (ofArray D) =
        ofArray (D.take i.toNat ++ [x] ++ D.drop i.toNat)) ∧
    (build [Call.Prepend x]).ComposeOver (ofArray D) = ofArray ([x] ++ D) ∧
    (build [Call.Append x]).ComposeOver (ofArray D) = ofArray (D ++ [x]) ∧
    (build [Call.Prepend x, Call.Append y]).ComposeOver (ofArray D) =
      ofArray ([x] ++ D ++ [y]) := by
  refine ⟨fun h1 h2 => ?_, ?_, ?_, ?_⟩
  · have hr : normIns i D.length = i := by
      simp only [normIns, EndIndex]; split_ifs <;> omega
    rw [build_single, effect_insert, hr, if_pos ⟨h1, h2⟩]
    simp
  · rw [build_single, effect_prepend]; rfl
  · rw [build_single, effect_append]
  · rw [build_composeOver _ D (by simp)]
    simp only [List.foldl_cons, List.foldl_nil, effect_prepend, effect_append]
    rfl

/-- C10 at `D = [5, 6]`, `x = 7`, `i = 1`. -/
theorem C10_insert_before_position_witness :
    (build [Call.Insert (7 : Int) 1]).ComposeOver (ofArray [5, 6]) = ofArray [5, 7, 6] :=
  (C10_insert_before_position [(5 : Int), 6] 7 0 1).1 (by decide) (by decide)

end Claims

/-! ## Lemmas for the size calls and the literal pool -/

namespace VtArrayEditBuilder

open Vt_ArrayEditOps Vt_ArrayEditOps.Op VtArrayEdit

variable {α : Type}

theorem effect_minSize [Inhabited α] (D : List α) (s : Int) (hs : 0 ≤ s) :
    Call.effect D (Call.MinSize s) = D ++ List.replicate (s.toNat - D.length) default := by
  have hneg : ¬ s < 0 := by omega
  simp only [Call.effect, Call.toIns, hneg, if_false, applyIns, _CheckIns, checkSizeArg_eq, hs,
    decide_True, Bool.not_true, Bool.false_eq_true, _ApplyEdits.fn, VtArray.resize,
    VtArray.resizeFill]
  split_ifs with h
  · rw [List.take_of_length_le (by omega)]
  · rw [Nat.sub_eq_zero_of_le (by omega)]; simp

theorem effect_minSizeFill [Inhabited α] (D : List α) (s : Int) (f : α) (hs : 0 ≤ s) :
    Call.effect D (Call.MinSizeFill s f) = D ++ List.replicate (s.toNat - D.length) f := by
  simp only [Call.effect, Call.toIns, Call.elem, Option.toList, applyIns, _CheckIns,
    checkLiteralIndex_some, checkSizeArg_eq, hs, List.length_singleton, Nat.cast_one, le_refl,
    zero_lt_one, and_self, decide_True, Bool.not_true, Bool.false_eq_true, if_false,
    _ApplyEdits.fn, VtArray.resizeFill, VtArray.get]
  split_ifs with h
  · rw [List.take_of_length_le (by omega)]; simp
  · rw [Nat.sub_eq_zero_of_le (by omega)]; simp

theorem effect_setSize [Inhabited α] (D : List α) (s : Int) (hs : 0 ≤ s) :
    Call.effect D (Call.SetSize s) =
      D.take s.toNat ++ List.replicate (s.toNat - D.length) default := by
  have hneg : ¬ s < 0 := by omega
  simp only [Call.effect, Call.toIns, hneg, if_false, applyIns, _CheckIns, checkSizeArg_eq, hs,
    decide_True, Bool.not_true, Bool.false_eq_true, _ApplyEdits.fn, VtArray.resize,
    VtArray.resizeFill]

theorem effect_setSizeFill [Inhabited α] (D : List α) (s : Int) (f : α) (hs : 0 ≤ s) :
    Call.effect D (Call.SetSizeFill s f) =
      D.take s.toNat ++ List.replicate (s.toNat - D.length) f := by
  simp only [Call.effect, Call.toIns, Call.elem, Option.toList, applyIns, _CheckIns,
    checkLiteralIndex_some, checkSizeArg_eq, hs, List.length_singleton, Nat.cast_one, le_refl,
    zero_lt_one, and_self, decide_True, Bool.not_true, Bool.false_eq_true, if_false,
    _ApplyEdits.fn, VtArray.resizeFill, VtArray.get]
  simp

theorem effect_maxSize [Inhabited α] (D : List α) (s : Int) (hs : 0 ≤ s) :
    Call.effect D (Call.MaxSize s) = D.take s.toNat := by
  have hneg : ¬ s < 0 := by omega
  simp only [Call.effect, Call.toIns, hneg, if_false, applyIns, _CheckIns, checkSizeArg_eq, hs,
    decide_True, Bool.not_true, Bool.false_eq_true, _ApplyEdits.fn, VtArray.resize,
    VtArray.resizeFill]
  split_ifs with h
  · rw [Nat.sub_eq_zero_of_le (by omega)]; simp
  · rw [List.take_of_length_le (by omega)]

end VtArrayEditBuilder

namespace VtArrayEditBuilder

open Vt_ArrayEditOps Vt_ArrayEditOps.Op VtArrayEdit

variable {α : Type}

theorem build_minSize_words [DecidableEq α] (s : Int) (hs : 0 ≤ s) :
    (build [Call.MinSize s] : VtArrayEdit α) =
      { _denseOrLiterals := [], _ops := { _ins := [_ToInt64 ⟨1, OpMinSize.toInt⟩, s] },
        _isDense := false } := by
  have hneg : ¬ s < 0 := by omega
  simp [build, call, MinSize, Vt_ArrayEditOpsBuilder.AddOp1, Vt_ArrayEditOpsBuilder._AddOp,
    Vt_ArrayEditOpsBuilder._CheckArity, GetArity, FinalizeAndReset, hneg]

theorem build_maxSize_words [DecidableEq α] (s : Int) (hs : 0 ≤ s) :
    (build [Call.MaxSize s] : VtArrayEdit α) =
      { _denseOrLiterals := [], _ops := { _ins := [_ToInt64 ⟨1, OpMaxSize.toInt⟩, s] },
        _isDense := false } := by
  have hneg : ¬ s < 0 := by omega
  simp [build, call, MaxSize, Vt_ArrayEditOpsBuilder.AddOp1, Vt_ArrayEditOpsBuilder._AddOp,
    Vt_ArrayEditOpsBuilder._CheckArity, GetArity, FinalizeAndReset, hneg]

theorem build_minSize_maxSize_words [DecidableEq α] (lo hi : Int) (h0 : 0 ≤ lo) (h1 : 0 ≤ hi) :
    (build [Call.MinSize lo, Call.MaxSize hi] : VtArrayEdit α) =
      { _denseOrLiterals := [],
        _ops := { _ins := [_ToInt64 ⟨1, OpMinSize.toInt⟩, lo, _ToInt64 ⟨1, OpMaxSize.toInt⟩, hi] },
        _isDense := false } := by
  have hneg : ¬ lo < 0 := by omega
  have hneg' : ¬ hi < 0 := by omega
  have hd : (_ToOpAndCount (_ToInt64 ⟨1, OpMinSize.toInt⟩)).op ≠ OpMaxSize.toInt := by decide
  simp [build, call, MinSize, MaxSize, Vt_ArrayEditOpsBuilder.AddOp1,
    Vt_ArrayEditOpsBuilder._AddOp, Vt_ArrayEditOpsBuilder._CheckArity, GetArity,
    FinalizeAndReset, hneg, hneg', hd]

theorem maxSize_over_minSize [DecidableEq α] [Inhabited α] (lo hi : Int) (h0 : 0 ≤ lo)
    (h1 : 0 ≤ hi) :
    (build [Call.MaxSize hi] : VtArrayEdit α).ComposeOver (build [Call.MinSize lo]) =
      build [Call.MinSize lo, Call.MaxSize hi] := by
  rw [build_minSize_words lo h0, build_maxSize_words hi h1,
    build_minSize_maxSize_words lo hi h0 h1]
  simp [ComposeOver, IsDenseArray, IsIdentity, Vt_ArrayEditOps.IsEmpty, _ComposeEdits,
    ModifyEach]

end VtArrayEditBuilder

namespace VtArrayEditBuilder

open Vt_ArrayEditOps Vt_ArrayEditOps.Op VtArrayEdit

variable {α : Type}

theorem findOrAdd_pool [DecidableEq α] (b : VtArrayEditBuilder α) (e : α) (hb : MapOK b)
    (hf : MapFull b) :
    (b._FindOrAddLiteral e).2._literals = addFirst b._literals e ∧
    MapFull (b._FindOrAddLiteral e).2 := by
  unfold _FindOrAddLiteral
  cases hl : b._literalToIndex.lookup e with
  | some idx =>
    have hmem : e ∈ b._literals := List.getElem?_mem (hb e idx hl).2
    exact ⟨by simp [addFirst, hmem], hf⟩
  | none =>
    have hnot : e ∉ b._literals := by
      intro hmem
      have := hf e hmem
      rw [hl] at this
      cases this
    refine ⟨by simp [addFirst, hnot], ?_⟩
    intro e' he'
    simp only [List.lookup_cons]
    by_cases he : e' = e
    · subst he
      simp
    · have hne : (e' == e) = false := by simpa using he
      simp only [hne]
      simp only [List.mem_append, List.mem_singleton] at he'
      rcases he' with h | h
      · exact hf e' h
      · exact absurd h he

theorem call_pool [DecidableEq α] (b : VtArrayEditBuilder α) (c : Call α) (hb : MapOK b)
    (hf : MapFull b) :
    (b.call c)._literals = c.elem.toList.foldl addFirst b._literals ∧ MapFull (b.call c) := by
  cases c
  case Write e x => exact findOrAdd_pool b e hb hf
  case Insert e x => exact findOrAdd_pool b e hb hf
  case Prepend e => exact findOrAdd_pool b e hb hf
  case Append e => exact findOrAdd_pool b e hb hf
  case MinSizeFill x e => exact findOrAdd_pool b e hb hf
  case SetSizeFill x e => exact findOrAdd_pool b e hb hf
  all_goals exact ⟨rfl, hf⟩

theorem calls_literals_append [DecidableEq α] :
    ∀ (cs : List (Call α)) (b : VtArrayEditBuilder α), MapOK b →
      (∃ ext, (cs.foldl call b)._literals = b._literals ++ ext) ∧
      MapOK (cs.foldl call b) := by
  intro cs
  induction cs with
  | nil => intro b hb; exact ⟨⟨[], by simp⟩, hb⟩
  | cons c cs ih =>
    intro b hb
    obtain ⟨⟨ext, hext⟩, hb', _⟩ := call_shape b c hb
    obtain ⟨⟨ext', h2⟩, h3⟩ := ih (b.call c) hb'
    exact ⟨⟨ext ++ ext', by rw [List.foldl_cons, h2, hext, List.append_assoc]⟩, h3⟩

theorem calls_pool [DecidableEq α] :
    ∀ (cs : List (Call α)) (b : VtArrayEditBuilder α), MapOK b → MapFull b →
      (cs.foldl call b)._literals = (cs.filterMap Call.elem).foldl addFirst b._literals := by
  intro cs
  induction cs with
  | nil => intro b _ _; rfl
  | cons c cs ih =>
    intro b hb hf
    obtain ⟨_, hb', _⟩ := call_shape b c hb
    obtain ⟨hp, hf'⟩ := call_pool b c hb hf
    rw [List.foldl_cons, ih (b.call c) hb' hf', hp]
    cases he : c.elem with
    | none => simp [List.filterMap_cons, he]
    | some e => simp [List.filterMap_cons, he]

theorem addFirst_nodup [DecidableEq α] (pool : List α) (e : α) (h : pool.Nodup) :
    (addFirst pool e).Nodup := by
  unfold addFirst
  split_ifs with hm
  · exact h
  · rw [List.nodup_append]
    exact ⟨h, List.nodup_singleton e, by
      intro a ha hb
      rw [List.mem_singleton] at hb
      subst hb
      exact hm ha⟩

theorem foldl_addFirst_nodup [DecidableEq α] :
    ∀ (es pool : List α), pool.Nodup → (es.foldl addFirst pool).Nodup := by
  intro es
  induction es with
  | nil => intro pool h; exact h
  | cons e es ih => intro pool h; exact ih _ (addFirst_nodup pool e h)

theorem Call.elem_none_of_toIns_none (c : Call α) (h : c.toIns 0 = none) : c.elem = none := by
  cases c <;> first | rfl | (simp [Call.toIns] at h)

theorem calls_recorded [DecidableEq α] :
    ∀ (cs : List (Call α)) (b : VtArrayEditBuilder α) (is : List Visit),
      b._opsBuilder.Recorded is → MapOK b →
      (is.length : Int) + cs.length < 36028797018963968 →
      ∃ ks : List Int, ks.length = cs.length ∧
        (cs.foldl call b)._opsBuilder.Recorded
          (is ++ (cs.zip ks).filterMap (fun p => p.1.toIns p.2)) ∧
        ∀ p ∈ cs.zip ks, ∀ e, p.1.elem = some e →
          0 ≤ p.2 ∧ (cs.foldl call b)._literals[p.2.toNat]? = some e := by
  intro cs
  induction cs with
  | nil =>
    intro b is hrec _ _
    exact ⟨[], rfl, by simpa using hrec, fun p hp => by simp at hp⟩
  | cons c cs ih =>
    intro b is hrec hb hlen
    simp only [List.length_cons, Nat.cast_add, Nat.cast_one] at hlen
    obtain ⟨_, hb', hshape⟩ := call_shape b c hb
    rcases hshape with ⟨hnone, hops⟩ | ⟨k, i, hi, har, hops, hk⟩
    · obtain ⟨ks, hks, hrec', hval⟩ := ih (b.call c) is (hops ▸ hrec) hb' (by omega)
      refine ⟨0 :: ks, by simp [hks], ?_, ?_⟩
      · simpa [List.zip_cons_cons, List.filterMap_cons, hnone] using hrec'
      · intro p hp e he
        simp only [List.zip_cons_cons, List.mem_cons] at hp
        rcases hp with rfl | hp
        · rw [Call.elem_none_of_toIns_none c hnone] at he
          cases he
        · exact hval p hp e he
    · have hrec1 : (b.call c)._opsBuilder.Recorded (is ++ [i]) :=
        hops ▸ hrec.addIns i (by omega) har
      obtain ⟨ks, hks, hrec', hval⟩ := ih (b.call c) (is ++ [i]) hrec1 hb'
        (by simp only [List.length_append, List.length_singleton, Nat.cast_add, Nat.cast_one]
            omega)
      obtain ⟨⟨ext, hext⟩, _⟩ := calls_literals_append cs (b.call c) hb'
      refine ⟨k :: ks, by simp [hks], ?_, ?_⟩
      · simpa [List.zip_cons_cons, List.filterMap_cons, hi] using hrec'
      · intro p hp e he
        simp only [List.zip_cons_cons, List.mem_cons] at hp
        rcases hp with rfl | hp
        · obtain ⟨h0, h1⟩ := hk e he
          refine ⟨h0, ?_⟩
          have hlt : k.toNat < (b.call c)._literals.length := by
            rcases Nat.lt_or_ge k.toNat (b.call c)._literals.length with h | h
            · exact h
            · rw [List.getElem?_eq_none h] at h1; cases h1
          rw [List.foldl_cons, hext, List.getElem?_append_left hlt]
          exact h1
        · exact hval p hp e he

end VtArrayEditBuilder

/-! ## The claims, continued -/

section Claims

open Vt_ArrayEditOps Vt_ArrayEditOps.Op VtArrayEdit VtArrayEditBuilder

variable {α : Type}

/-- C11: on an array `D` of length `n >= 5`, the edit built by
`WriteRef(-1, 2)`, `WriteRef(0, 4)`, `EraseRef(-1)`, `EraseRef(0)` gives the
`n - 2` elements obtained by setting element 2 to `D[n-1]`, then element 4 to
element 0 of that array, then erasing the last element and then the first. -/
theorem C11_write_refs_then_trim [DecidableEq α] [Inhabited α] (D : List α)
    (hD : 5 ≤ D.length) :
    (build [Call.WriteRef (-1) 2, Call.WriteRef 0 4, Call.EraseRef (-1),
        Call.EraseRef 0]).ComposeOver (ofArray D) =
      ofArray ((((D.set 2 (D.getD (D.length - 1) default)).set 4
        ((D.set 2 (D.getD (D.length - 1) default)).getD 0 default)).eraseIdx
          (D.length - 1)).eraseIdx 0) ∧
    ((((D.set 2 (D.getD (D.length - 1) default)).set 4
        ((D.set 2 (D.getD (D.length - 1) default)).getD 0 default)).eraseIdx
          (D.length - 1)).eraseIdx 0).length = D.length - 2 := by
  have e1 : Call.effect D (Call.WriteRef (-1) 2) =
      D.set 2 (D.getD (D.length - 1) default) := by
    have h1 : normRef (-1) D.length = (D.length : Int) - 1 := by simp only [normRef]; omega
    have h2 : normRef 2 D.length = 2 := by simp [normRef]
    rw [effect_writeRef, h1, h2, if_pos (by omega)]
    congr 2
    omega
  have e2 : ∀ D1 : List α, D1.length = D.length →
      Call.effect D1 (Call.WriteRef 0 4) = D1.set 4 (D1.getD 0 default) := by
    intro D1 hl
    have h1 : normRef 0 D1.length = 0 := by simp [normRef]
    have h2 : normRef 4 D1.length = 4 := by simp [normRef]
    rw [effect_writeRef, h1, h2, if_pos (by omega)]
    rfl
  have e3 : ∀ D2 : List α, D2.length = D.length →
      Call.effect D2 (Call.EraseRef (-1)) = D2.eraseIdx (D.length - 1) := by
    intro D2 hl
    have h1 : normRef (-1) D2.length = (D.length : Int) - 1 := by
      simp only [normRef, hl]; omega
    rw [effect_eraseRef, h1, hl, if_pos (by omega)]
    congr 1
    omega
  have e4 : ∀ D3 : List α, D3.length = D.length - 1 →
      Call.effect D3 (Call.EraseRef 0) = D3.eraseIdx 0 := by
    intro D3 hl
    have h1 : normRef 0 D3.length = 0 := by simp [normRef]
    rw [effect_eraseRef, h1, if_pos (by omega)]
    rfl
  have l2 : ((D.set 2 (D.getD (D.length - 1) default)).set 4
      ((D.set 2 (D.getD (D.length - 1) default)).getD 0 default)).length = D.length := by
    simp
  have l3 : (((D.set 2 (D.getD (D.length - 1) default)).set 4
      ((D.set 2 (D.getD (D.length - 1) default)).getD 0 default)).eraseIdx
        (D.length - 1)).length = D.length - 1 := by
    rw [List.length_eraseIdx_of_lt (by rw [l2]; omega), l2]
  constructor
  · rw [build_composeOver _ D (by simp)]
    simp only [List.foldl_cons, List.foldl_nil]
    rw [e1, e2 _ (by simp), e3 _ l2, e4 _ l3]
  · rw [List.length_eraseIdx_of_lt (by rw [l3]; omega), l3]
    omega

/-- C11 at `D = [0, 0, 3, 4, 5, 9, 9]`, the array of the repository's test. -/
theorem C11_write_refs_then_trim_witness :
    (build [Call.WriteRef (-1) 2, Call.WriteRef 0 4, Call.EraseRef (-1),
        Call.EraseRef 0]).ComposeOver (ofArray [(0 : Int), 0, 3, 4, 5, 9, 9]) =
      ofArray [0, 9, 4, 0, 9] :=
  (C11_write_refs_then_trim [(0 : Int), 0, 3, 4, 5, 9, 9] (by decide)).1

/-- C12: for a size `s >= 0`, `MinSize(s)` applied to an array `D` of length
`n` is `D` when `n >= s` and otherwise `D` followed by `s - n`
value-initialised elements; `MinSize(s, f)` is `D` when `n >= s` and otherwise
`D` followed by `s - n` copies of `f`. -/
theorem C12_minSize_only_grows [DecidableEq α] [Inhabited α] (D : List α) (s : Int) (f : α)
    (hs : 0 ≤ s) :
    (s ≤ D.length →
      (build [Call.MinSize s]).ComposeOver (ofArray D) = ofArray D ∧
      (build [Call.MinSizeFill s f]).ComposeOver (ofArray D) = ofArray D) ∧
    ((D.length : Int) < s →
      (build [Call.MinSize s]).ComposeOver (ofArray D) =
        ofArray (D ++ List.replicate (s.toNat - D.length) default) ∧
      (build [Call.MinSizeFill s f]).ComposeOver (ofArray D) =
        ofArray (D ++ List.replicate (s.toNat - D.length) f)) := by
  rw [build_single, build_single, effect_minSize D s hs, effect_minSizeFill D s f hs]
  refine ⟨fun h => ?_, fun _ => ⟨rfl, rfl⟩⟩
  rw [Nat.sub_eq_zero_of_le (by omega)]
  simp

/-- C12 at `s = 3`, `f = 9`, `D = [1]`. -/
theorem C12_minSize_only_grows_witness :
    (build [Call.MinSize 3]).ComposeOver (ofArray [(1 : Int)]) = ofArray [1, 0, 0] ∧
    (build [Call.MinSizeFill 3 (9 : Int)]).ComposeOver (ofArray [1]) = ofArray [1, 9, 9] :=
  (C12_minSize_only_grows [(1 : Int)] 3 9 (by decide)).2 (by decide)

/-- C13: for a size `s >= 0`, `SetSize(s)` and `SetSize(s, f)` applied to an
array `D` of length `n` give arrays of length `s`: the first `s` elements of
`D` when `n >= s`, and `D` followed by `s - n` value-initialised elements,
respectively `s - n` copies of `f`, when `n < s`. -/
theorem C13_setSize_sets_length [DecidableEq α] [Inhabited α] (D : List α) (s : Int) (f : α)
    (hs : 0 ≤ s) :
    (((build [Call.SetSize s]).ComposeOver (ofArray D)).GetDenseArray.length = s.toNat ∧
      ((build [Call.SetSizeFill s f]).ComposeOver (ofArray D)).GetDenseArray.length =
        s.toNat) ∧
    (s ≤ D.length →
      (build [Call.SetSize s]).ComposeOver (ofArray D) = ofArray (D.take s.toNat) ∧
      (build [Call.SetSizeFill s f]).ComposeOver (ofArray D) = ofArray (D.take s.toNat)) ∧
    ((D.length : Int) < s →
      (build [Call.SetSize s]).ComposeOver (ofArray D) =
        ofArray (D ++ List.replicate (s.toNat - D.length) default) ∧
      (build [Call.SetSizeFill s f]).ComposeOver (ofArray D) =
        ofArray (D ++ List.replicate (s.toNat - D.length) f)) := by
  rw [build_single, build_single, effect_setSize D s hs, effect_setSizeFill D s f hs]
  refine ⟨⟨?_, ?_⟩, fun h => ?_, fun h => ?_⟩
  · simp only [GetDenseArray, IsDenseArray, ofArray, Bool.not_true, Bool.false_eq_true,
      if_false, List.length_append, List.length_take, List.length_replicate]
    omega
  · simp only [GetDenseArray, IsDenseArray, ofArray, Bool.not_true, Bool.false_eq_true,
      if_false, List.length_append, List.length_take, List.length_replicate]
    omega
  · rw [Nat.sub_eq_zero_of_le (by omega)]
    simp
  · rw [List.take_of_length_le (by omega)]
    exact ⟨rfl, rfl⟩

/-- C13 at `s = 2`, `f = 3`, `D = [7, 8, 9]`. -/
theorem C13_setSize_sets_length_witness :
    (build [Call.SetSize 2]).ComposeOver (ofArray [(7 : Int), 8, 9]) = ofArray [7, 8] ∧
    (build [Call.SetSizeFill 2 (3 : Int)]).ComposeOver (ofArray [7, 8, 9]) = ofArray [7, 8] :=
  (C13_setSize_sets_length [(7 : Int), 8, 9] 2 3 (by decide)).2.1 (by decide)

/-- C14: for a size `s >= 0`, `MaxSize(s)` applied to an array `D` of length
`n` is `D` when `n <= s` and otherwise the first `s` elements of `D`. -/
theorem C14_maxSize_only_truncates [DecidableEq α] [Inhabited α] (D : List α) (s : Int)
    (hs : 0 ≤ s) :
    ((D.length : Int) ≤ s → (build [Call.MaxSize s]).ComposeOver (ofArray D) = ofArray D) ∧
    (s < D.length →
      (build [Call.MaxSize s]).ComposeOver (ofArray D) = ofArray (D.take s.toNat)) := by
  rw [build_single, effect_maxSize D s hs]
  refine ⟨fun h => ?_, fun _ => rfl⟩
  rw [List.take_of_length_le (by omega)]

/-- C14 at `s = 2`, `D = [7, 8, 9]`. -/
theorem C14_maxSize_only_truncates_witness :
    (build [Call.MaxSize 2]).ComposeOver (ofArray [(7 : Int), 8, 9]) = ofArray [7, 8] :=
  (C14_maxSize_only_truncates [(7 : Int), 8, 9] 2 (by decide)).2 (by decide)

end Claims

section Claims

open Vt_ArrayEditOps Vt_ArrayEditOps.Op VtArrayEdit VtArrayEditBuilder

variable {α : Type}

/-- C15: for sizes `0 <= lo <= hi`, `MaxSize(hi).ComposeOver(MinSize(lo))` is a
non-dense edit; applied to an array `D` of length `n` it gives the first
`min(n, hi)` elements of `D` followed by value-initialised elements up to the
length `min(max(n, lo), hi)`, and it gives `D` when `lo <= n <= hi`. -/
theorem C15_composed_bounds_clamp [DecidableEq α] [Inhabited α] (D : List α) (lo hi : Int)
    (h0 : 0 ≤ lo) (h1 : lo ≤ hi) :
    ((build [Call.MaxSize hi] : VtArrayEdit α).ComposeOver
        (build [Call.MinSize lo])).IsDenseArray = false ∧
    ((build [Call.MaxSize hi]).ComposeOver (build [Call.MinSize lo])).ComposeOver (ofArray D) =
      ofArray (D.take (min D.length hi.toNat) ++
        List.replicate (min (max D.length lo.toNat) hi.toNat - min D.length hi.toNat)
          default) ∧
    (((build [Call.MaxSize hi]).ComposeOver (build [Call.MinSize lo])).ComposeOver
        (ofArray D)).GetDenseArray.length = min (max D.length lo.toNat) hi.toNat ∧
    (lo ≤ D.length → (D.length : Int) ≤ hi →
      ((build [Call.MaxSize hi]).ComposeOver (build [Call.MinSize lo])).ComposeOver
        (ofArray D) = ofArray D) := by
  have hhi : 0 ≤ hi := le_trans h0 h1
  have hres : ((build [Call.MaxSize hi]).ComposeOver (build [Call.MinSize lo])).ComposeOver
      (ofArray D) = ofArray (D.take (min D.length hi.toNat) ++
        List.replicate (min (max D.length lo.toNat) hi.toNat - min D.length hi.toNat)
          default) := by
    rw [maxSize_over_minSize lo hi h0 hhi, build_composeOver _ D (by simp)]
    simp only [List.foldl_cons, List.foldl_nil]
    rw [effect_minSize D lo h0, effect_maxSize _ hi hhi, List.take_append_eq_append_take,
      List.take_replicate]
    congr 2
    · rcases Nat.le_total D.length hi.toNat with h | h
      · rw [min_eq_left h, List.take_of_length_le h, List.take_of_length_le (le_refl _)]
      · rw [min_eq_right h]
    · congr 1; omega
  refine ⟨?_, hres, ?_, fun ha hb => ?_⟩
  · rw [maxSize_over_minSize lo hi h0 hhi]
    rfl
  · rw [hres]
    simp only [GetDenseArray, IsDenseArray, ofArray, Bool.not_true, Bool.false_eq_true,
      if_false, List.length_append, List.length_take, List.length_replicate]
    omega
  · rw [hres, min_eq_left (by omega), List.take_of_length_le (le_refl _),
      Nat.sub_eq_zero_of_le (by omega)]
    simp

/-- C15 at `lo = 3`, `hi = 5`, `D = [1]`. -/
theorem C15_composed_bounds_clamp_witness :
    ((build [Call.MaxSize 5]).ComposeOver (build [Call.MinSize 3])).ComposeOver
      (ofArray [(1 : Int)]) = ofArray [1, 0, 0] :=
  (C15_composed_bounds_clamp [(1 : Int)] 3 5 (by decide) (by decide)).2.1

end Claims

section Claims

open Vt_ArrayEditOps Vt_ArrayEditOps.Op VtArrayEdit VtArrayEditBuilder

variable {α : Type}

/-- C16 (the code at the failing input): on a default-constructed builder,
`MinSize(-1, 9)` and `SetSize(-1, 9)` each append a run header and the two
argument words `-1`, `0`, while `MinSize(-1)`, `MaxSize(-1)` and `SetSize(-1)`
append nothing. -/
theorem C16_fill_size_calls_record_negative_size :
    (({} : VtArrayEditBuilder Int).MinSizeFill (-1) 9)._opsBuilder._ins =
      [_ToInt64 ⟨1, OpMinSizeFill.toInt⟩, -1, 0] ∧
    (({} : VtArrayEditBuilder Int).SetSizeFill (-1) 9)._opsBuilder._ins =
      [_ToInt64 ⟨1, OpSetSizeFill.toInt⟩, -1, 0] ∧
    (({} : VtArrayEditBuilder Int).MinSize (-1))._opsBuilder._ins = [] ∧
    (({} : VtArrayEditBuilder Int).MaxSize (-1))._opsBuilder._ins = [] ∧
    (({} : VtArrayEditBuilder Int).SetSize (-1))._opsBuilder._ins = [] := by
  decide

/-- C17 (the code at the failing input): on a default-constructed
`Vt_ArrayEditOpsBuilder`, `AddOp(OpEraseRef, 0, 0)` and `AddOp(OpWriteRef, 3)`
each leave a run header of count 1 in `_ins`; after the well-formed
`AddOp(OpEraseRef, 5)`, `AddOp(OpEraseRef, 0, 0)` raises the count of the run
to 2 although the run holds one argument word. -/
theorem C17_wrong_arity_call_changes_header :
    (({} : Vt_ArrayEditOpsBuilder).AddOp2 OpEraseRef 0 0)._ins =
      [_ToInt64 ⟨1, OpEraseRef.toInt⟩] ∧
    (({} : Vt_ArrayEditOpsBuilder).AddOp1 OpWriteRef 3)._ins =
      [_ToInt64 ⟨1, OpWriteRef.toInt⟩] ∧
    (({} : Vt_ArrayEditOpsBuilder).AddOp1 OpEraseRef 5)._ins =
      [_ToInt64 ⟨1, OpEraseRef.toInt⟩, 5] ∧
    ((({} : Vt_ArrayEditOpsBuilder).AddOp1 OpEraseRef 5).AddOp2 OpEraseRef 0 0)._ins =
      [_ToInt64 ⟨2, OpEraseRef.toInt⟩, 5] := by
  decide

/-- C18: `CreateFromSerializationData` applied to the values and indexes of
`GetSerializationData(E)` and to `E.IsDenseArray()` is `E`; and for every
triple `(values, indexes, isDense)` the created edit gives back `values` and
`indexes` through `GetSerializationData` and `isDense` through
`IsDenseArray`. -/
theorem C18_serialization_round_trip (E : VtArrayEdit α) (values : List α)
    (indexes : List Int) (isDense : Bool) :
    CreateFromSerializationData (GetSerializationData E).1 (GetSerializationData E).2
      E.IsDenseArray = E ∧
    GetSerializationData (CreateFromSerializationData values indexes isDense) =
      (values, indexes) ∧
    (CreateFromSerializationData values indexes isDense).IsDenseArray = isDense :=
  ⟨rfl, rfl, rfl⟩

end Claims

/-! ## Lemmas for streams of runs and the checked pass -/

namespace Vt_ArrayEditOps

open Op

theorem streamWords_decodes :
    ∀ rs : List (Op × List Visit), (∀ r ∈ rs, RunOK r) →
      Decodes (streamWords rs) (runsIns rs) := by
  intro rs
  induction rs with
  | nil => intro _; exact Decodes.nil
  | cons r rs ih =>
    intro h
    have hr := h r (List.mem_cons_self _ _)
    exact (Decodes.run r.1 r.2 hr.1 hr.2).append
      (ih (fun x hx => h x (List.mem_cons_of_mem _ hx)))

theorem checkIns_none_of_sizeArgOK (v : Visit) (h : v.sizeArgOK) :
    _CheckIns none none v.op v.a1 v.a2 = some (v, none) := by
  obtain ⟨op, a1, a2⟩ := v
  cases op <;>
    simp only [Visit.sizeArgOK, reduceCtorEq, or_false, false_or, or_self, or_true, true_or,
      true_implies, false_implies] at h <;>
    simp [_CheckIns, _CheckLiteralIndex, _NormalizeAndCheckRefIndex,
      _NormalizeAndCheckInsertIndex, _CheckSizeArg, _UpdateWorkingSize, h]

theorem replayIns_none :
    ∀ is : List Visit, (∀ v ∈ is, v.sizeArgOK) → replayIns none none is = (is, none) := by
  intro is
  induction is with
  | nil => intro _; rfl
  | cons v vs ih =>
    intro h
    rw [replayIns, checkIns_none_of_sizeArgOK v (h v (List.mem_cons_self _ _))]
    simp only [ih (fun x hx => h x (List.mem_cons_of_mem _ hx))]

end Vt_ArrayEditOps

theorem List.map_some_filterMap {β γ : Type} (f : β → Option γ) :
    ∀ l : List β, (∀ x ∈ l, ∃ y, f x = some y) → (l.filterMap f).map some = l.map f := by
  intro l
  induction l with
  | nil => intro _; rfl
  | cons x xs ih =>
    intro h
    obtain ⟨y, hy⟩ := h x (List.mem_cons_self _ _)
    rw [List.filterMap_cons, hy, List.map_cons, List.map_cons,
      ih (fun z hz => h z (List.mem_cons_of_mem _ hz)), hy]

namespace VtArrayEdit

open Vt_ArrayEditOps Vt_ArrayEditOps.Op

variable {α : Type}

theorem replayIns_allInRange [Inhabited α] (lits : List α) :
    ∀ (is : List Visit) (D : List α),
      AllInRange lits D (replayIns (some lits.length) (some D.length) is).1 ∧
      (replayIns (some lits.length) (some D.length) is).2 =
        some ((replayIns (some lits.length) (some D.length) is).1.foldl
          (_ApplyEdits.fn lits) D).length := by
  intro is
  induction is with
  | nil => intro D; exact ⟨trivial, rfl⟩
  | cons i is ih =>
    intro D
    rw [replayIns]
    cases hc : _CheckIns (some lits.length) (some D.length) i.op i.a1 i.a2 with
    | none => exact ih D
    | some p =>
      obtain ⟨v, sz⟩ := p
      obtain ⟨_, hr, hs⟩ := checkIns_some _ _ _ _ _ _ _ hc
      simp only [List.foldl_cons]
      rw [hs, ← fn_length lits D lits.length v hr]
      exact ⟨⟨hr, (ih _).1⟩, (ih _).2⟩

end VtArrayEdit

namespace VtArrayEditBuilder

open Vt_ArrayEditOps Vt_ArrayEditOps.Op VtArrayEdit

variable {α : Type}

theorem Call.toIns_of_sizeOK (c : Call α) (k : Int) (h : c.sizeOK) :
    ∃ v, c.toIns k = some v ∧ v.sizeArgOK := by
  cases c <;> simp only [Call.sizeOK] at h <;>
    simp [Call.toIns, Visit.sizeArgOK, not_lt.mpr, h]

end VtArrayEditBuilder

/-! ## The claims, third part -/

section Claims

open Vt_ArrayEditOps Vt_ArrayEditOps.Op VtArrayEdit VtArrayEditBuilder

variable {α : Type}

/-- C21: for calls `cs` whose size arguments are not negative, `ForEach` over
the stream of the finalized edit runs to the end and makes one visitor call
per builder call, in call order: the instruction of that call, with opcode
and arguments as passed (`a2 = -1` for a one-argument opcode) and the
element replaced by a pool index `k` with `pool[k]` equal to the element.
(The call sequence is shorter than `2^55`, the capacity of the 56-bit run
count.) -/
theorem C21_forEach_decodes_calls [DecidableEq α] (cs : List (Call α))
    (hs : ∀ c ∈ cs, c.sizeOK) (hlen : cs.length < 2 ^ 55) :
    ∃ ks : List Int, ks.length = cs.length ∧
      (build cs)._ops.ForEach.visits.map some = (cs.zip ks).map (fun p => p.1.toIns p.2) ∧
      (build cs)._ops.ForEach.status = Status.completed ∧
      ∀ p ∈ cs.zip ks, ∀ e, p.1.elem = some e →
        0 ≤ p.2 ∧ (build cs)._denseOrLiterals[p.2.toNat]? = some e := by
  have h2 : (2 : Nat) ^ 55 = 36028797018963968 := by norm_num
  have hb : MapOK ({} : VtArrayEditBuilder α) := fun e idx h => by simp [List.lookup] at h
  obtain ⟨ks, hks, hrec, hval⟩ := calls_recorded cs {} []
    Vt_ArrayEditOpsBuilder.Recorded.init hb (by simp only [List.length_nil]; omega)
  rw [List.nil_append] at hrec
  have hle : ((cs.zip ks).filterMap (fun p => p.1.toIns p.2)).length ≤ cs.length :=
    le_trans (List.length_filterMap_le _ _) (by simp [List.length_zip, hks])
  have hdec := hrec.decodes (by omega)
  obtain ⟨hvis, hst, _⟩ := hdec.visits none none
  have hok : ∀ v ∈ (cs.zip ks).filterMap (fun p => p.1.toIns p.2), v.sizeArgOK := by
    intro v hv
    obtain ⟨p, hp, hpv⟩ := List.mem_filterMap.mp hv
    obtain ⟨v', hv', hvok⟩ := Call.toIns_of_sizeOK p.1 p.2 (hs p.1 (List.of_mem_zip hp).1)
    rw [hv'] at hpv
    cases hpv
    exact hvok
  refine ⟨ks, hks, ?_, hst, hval⟩
  have hfe : (build cs)._ops.ForEach.visits =
      (cs.zip ks).filterMap (fun p => p.1.toIns p.2) := by
    rw [replayIns_none _ hok] at hvis
    exact hvis
  rw [hfe]
  exact List.map_some_filterMap _ _ (fun p hp => by
    obtain ⟨v', hv', _⟩ := Call.toIns_of_sizeOK p.1 p.2 (hs p.1 (List.of_mem_zip hp).1)
    exact ⟨v', hv'⟩)

/-- C21 at the calls `SetSize(3)`, `Write(7, 0)`, `EraseRef(-1)`. -/
theorem C21_forEach_decodes_calls_witness :
    ∃ ks : List Int,
      ks.length = [Call.SetSize 3, Call.Write (7 : Int) 0, Call.EraseRef (-1)].length ∧
      (build [Call.SetSize 3, Call.Write (7 : Int) 0, Call.EraseRef (-1)])._ops.ForEach.visits.map
          some =
        ([Call.SetSize 3, Call.Write (7 : Int) 0, Call.EraseRef (-1)].zip ks).map
          (fun p => p.1.toIns p.2) ∧
      (build [Call.SetSize 3, Call.Write (7 : Int) 0, Call.EraseRef (-1)])._ops.ForEach.status =
        Status.completed ∧
      ∀ p ∈ [Call.SetSize 3, Call.Write (7 : Int) 0, Call.EraseRef (-1)].zip ks, ∀ e,
        p.1.elem = some e →
          0 ≤ p.2 ∧ (build [Call.SetSize 3, Call.Write (7 : Int) 0,
            Call.EraseRef (-1)])._denseOrLiterals[p.2.toNat]? = some e :=
  C21_forEach_decodes_calls [Call.SetSize 3, Call.Write (7 : Int) 0, Call.EraseRef (-1)]
    (by simp [Call.sizeOK]) (by decide)

/-- C22: after the calls `P` and `FinalizeAndReset()`, the calls `Q` and
`FinalizeAndReset()` return the edit a default-constructed builder returns
for `Q`; `FinalizeAndReset()` leaves any builder default-constructed and
returns a non-dense edit, and on a default-constructed builder it returns
the identity `VtArrayEdit()`. -/
theorem C22_finalize_resets_builder [DecidableEq α] (P Q : List (Call α))
    (b : VtArrayEditBuilder α) :
    (Q.foldl call
        (P.foldl call ({} : VtArrayEditBuilder α)).FinalizeAndReset.2).FinalizeAndReset.1 =
      build Q ∧
    b.FinalizeAndReset.2 = ({} : VtArrayEditBuilder α) ∧
    b.FinalizeAndReset.1.IsDenseArray = false ∧
    (build P).IsDenseArray = false ∧
    ({} : VtArrayEditBuilder α).FinalizeAndReset.1 = ident :=
  ⟨rfl, rfl, rfl, rfl, rfl⟩

/-- C23: the edit converted from an array `a` is dense, is not the identity
and gives `a` back from `GetDenseArray()`, also for the empty array; the
default-constructed edit is the identity and is not dense; and an edit `E` is
the identity exactly when it is not dense and has no instruction words. -/
theorem C23_dense_and_identity_tests (a : List α) (E : VtArrayEdit α) :
    ((ofArray a).IsDenseArray = true ∧ (ofArray a).IsIdentity = false ∧
      (ofArray a).GetDenseArray = a) ∧
    ((ofArray ([] : List α)).IsDenseArray = true ∧
      (ofArray ([] : List α)).IsIdentity = false ∧
      (ofArray ([] : List α)).GetDenseArray = []) ∧
    ((ident : VtArrayEdit α).IsIdentity = true ∧
      (ident : VtArrayEdit α).IsDenseArray = false) ∧
    (E.IsIdentity = true ↔ (E.IsDenseArray = false ∧ E._ops._ins = [])) := by
  refine ⟨⟨rfl, rfl, rfl⟩, ⟨rfl, rfl, rfl⟩, ⟨rfl, rfl⟩, ?_⟩
  simp [IsIdentity, IsDenseArray, Vt_ArrayEditOps.IsEmpty]

/-- C24: `GetDenseArray()` of a non-dense edit is the empty array, whatever
its pool and instruction words; of a dense edit it is the stored array. -/
theorem C24_getDenseArray_fails_safely (E : VtArrayEdit α) :
    (E.IsDenseArray = false → E.GetDenseArray = []) ∧
    (E.IsDenseArray = true → E.GetDenseArray = E._denseOrLiterals) := by
  constructor <;> intro h <;> simp [GetDenseArray, h]

/-- C24 at the edit built by `Append(1)`, whose pool is `[1]`. -/
theorem C24_getDenseArray_fails_safely_witness :
    (build [Call.Append (1 : Int)]).GetDenseArray = [] :=
  (C24_getDenseArray_fails_safely (build [Call.Append (1 : Int)])).1 (by decide)

/-- C25: `Optimize(E)` is `E` for every edit `E` that is dense or is the
identity. -/
theorem C25_optimize_keeps_dense_and_identity [DecidableEq α] [Inhabited α]
    (E : VtArrayEdit α) (h : E.IsDenseArray = true ∨ E.IsIdentity = true) :
    Optimize E = E := by
  simp [Optimize, h]

/-- C25 at the dense array `[1, 2]`. -/
theorem C25_optimize_keeps_dense_and_identity_witness :
    Optimize (ofArray [(1 : Int), 2]) = ofArray [1, 2] :=
  C25_optimize_keeps_dense_and_identity (ofArray [(1 : Int), 2]) (Or.inl (by decide))

end Claims

section Claims

open Vt_ArrayEditOps Vt_ArrayEditOps.Op VtArrayEdit VtArrayEditBuilder

variable {α : Type}

/-- C26 (the code at the failing input): with `W` built by `Append(1)` and `S`
built by `Append(2)`, `S.ComposeOver(W)` is non-dense with the pool `[1, 2]`,
and `ForEach` over its stream yields `InsertLiteral` with literal index `0`
twice: the literal index of the instruction of `S` is `0` as stored in `S`,
not `0 + 1`. -/
theorem C26_composed_stream_keeps_literal_index :
    ((build [Call.Append (2 : Int)]).ComposeOver (build [Call.Append 1])).IsDenseArray =
      false ∧
    ((build [Call.Append (2 : Int)]).ComposeOver (build [Call.Append 1]))._denseOrLiterals =
      [1, 2] ∧
    (build [Call.Append (2 : Int)])._ops.ForEach.visits =
      [⟨OpInsertLiteral, 0, EndIndex⟩] ∧
    ((build [Call.Append (2 : Int)]).ComposeOver (build [Call.Append 1]))._ops.ForEach.visits =
      [⟨OpInsertLiteral, 0, EndIndex⟩, ⟨OpInsertLiteral, 0, EndIndex⟩] := by
  decide

/-- C27 (the code at the failing input): on the stream of one `EraseRef`
instruction with argument `5`, after `ModifyEach` with a visitor that adds `1`
to `a1`, `ForEach` still yields `a1 = 5`; the visitor was called once and
left `6` in the local it was given. -/
theorem C27_modifyEach_leaves_stream :
    (({ _ins := [_ToInt64 ⟨1, OpEraseRef.toInt⟩, 5] } : Vt_ArrayEditOps).ModifyEach
        (fun _ a1 a2 => (a1 + 1, a2))).1.ForEach.visits = [⟨OpEraseRef, 5, -1⟩] ∧
    (({ _ins := [_ToInt64 ⟨1, OpEraseRef.toInt⟩, 5] } : Vt_ArrayEditOps).ModifyEach
        (fun _ a1 a2 => (a1 + 1, a2))).2 = [(6, -1)] := by
  decide

/-- C28: for a pool `lits` and a live array `R`, an instruction that the
switch of the checked pass lets through has its arguments in range for
`lits` and `R`, and the working size the switch leaves is the length of `R`
after the visitor call.  Hence on a stream of well-formed runs `rs`,
`ForEachValid` started with the length of `D` runs to the end, every visitor
call is in range for the live array of `_ApplyEdits` when it is made, and the
final working size is the length of the array `_ApplyEdits` returns. -/
theorem C28_checked_replay_in_range [Inhabited α] (rs : List (Op × List Visit))
    (lits D : List α) (hrs : ∀ r ∈ rs, RunOK r) :
    (∀ (op : Op) (a1 a2 : Int) (v : Visit) (sz : Option Nat) (R : List α),
      _CheckIns (some lits.length) (some R.length) op a1 a2 = some (v, sz) →
        v.InRange lits.length R.length ∧ sz = some (_ApplyEdits.fn lits R v).length) ∧
    (({ _ins := streamWords rs } : Vt_ArrayEditOps).ForEachValid lits.length D.length).status =
      Status.completed ∧
    AllInRange lits D
      (({ _ins := streamWords rs } : Vt_ArrayEditOps).ForEachValid lits.length
        D.length).visits ∧
    (({ _ins := streamWords rs } : Vt_ArrayEditOps).ForEachValid lits.length D.length).size =
      some ((CreateFromSerializationData lits (streamWords rs) false)._ApplyEdits D).length := by
  obtain ⟨hvis, hst, hsz⟩ :=
    (streamWords_decodes rs hrs).visits (some lits.length) (some D.length)
  obtain ⟨hall, hfin⟩ := replayIns_allInRange lits (runsIns rs) D
  refine ⟨fun op a1 a2 v sz R hc => ?_, hst, ?_, ?_⟩
  · obtain ⟨_, hr, hs⟩ := checkIns_some _ _ _ _ _ _ _ hc
    exact ⟨hr, by rw [hs, fn_length lits R lits.length v hr]⟩
  · simp only [ForEachValid]
    rw [hvis]
    exact hall
  · simp only [ForEachValid, _ApplyEdits, CreateFromSerializationData]
    rw [hsz, hvis]
    exact hfin

/-- C28 at the stream of the run `EraseRef(-1)`, `EraseRef(5)`, the empty
pool and `D = [1, 2]`: the pass ends with working size 1. -/
theorem C28_checked_replay_in_range_witness :
    (({ _ins := streamWords [(OpEraseRef, [⟨OpEraseRef, -1, -1⟩, ⟨OpEraseRef, 5, -1⟩])] } :
        Vt_ArrayEditOps).ForEachValid ([] : List Int).length [(1 : Int), 2].length).size =
      some ((CreateFromSerializationData ([] : List Int)
        (streamWords [(OpEraseRef, [⟨OpEraseRef, -1, -1⟩, ⟨OpEraseRef, 5, -1⟩])])
        false)._ApplyEdits [1, 2]).length :=
  (C28_checked_replay_in_range [(OpEraseRef, [⟨OpEraseRef, -1, -1⟩, ⟨OpEraseRef, 5, -1⟩])]
    ([] : List Int) [1, 2] (by simp [RunOK, GetArity])).2.2.2

/-- C29 (the code at the failing input): `ForEach` over the stream of the one
instruction `MinSize` with argument `-1` makes no visitor call, and over the
run `SetSize(-1)`, `SetSize(3)` it makes the call for `SetSize(3)` only; the
edit built by `MinSize(-1, 9)` stores one instruction and `ForEach` over it
makes no call either. -/
theorem C29_forEach_skips_negative_size :
    ({ _ins := [_ToInt64 ⟨1, OpMinSize.toInt⟩, -1] } : Vt_ArrayEditOps).ForEach.visits = [] ∧
    ({ _ins := [_ToInt64 ⟨2, OpSetSize.toInt⟩, -1, 3] } : Vt_ArrayEditOps).ForEach.visits =
      [⟨OpSetSize, 3, -1⟩] ∧
    (build [Call.MinSizeFill (-1) (9 : Int)])._ops._ins =
      [_ToInt64 ⟨1, OpMinSizeFill.toInt⟩, -1, 0] ∧
    (build [Call.MinSizeFill (-1) (9 : Int)])._ops.ForEach.visits = [] ∧
    (build [Call.MinSizeFill (-1) (9 : Int)])._ops.ForEach.status = Status.completed := by
  decide

/-- C30 (the code at the failing input): on the stream of a header declaring
two `EraseRef` instructions followed by the single argument word `0`,
`ForEachValid` and `ForEach` make the visitor call for the first instruction
of the run and then index the stream past its end; `_ApplyEdits` on
`[1, 2, 3]` has erased element 0 by then. -/
theorem C30_truncated_run_is_replayed :
    (({ _ins := [_ToInt64 ⟨2, OpEraseRef.toInt⟩, 0] } : Vt_ArrayEditOps).ForEachValid 0
        3).visits = [⟨OpEraseRef, 0, -1⟩] ∧
    (({ _ins := [_ToInt64 ⟨2, OpEraseRef.toInt⟩, 0] } : Vt_ArrayEditOps).ForEachValid 0
        3).status = Status.pastEnd ∧
    ({ _ins := [_ToInt64 ⟨2, OpEraseRef.toInt⟩, 0] } : Vt_ArrayEditOps).ForEach.visits =
      [⟨OpEraseRef, 0, -1⟩] ∧
    ({ _ins := [_ToInt64 ⟨2, OpEraseRef.toInt⟩, 0] } : Vt_ArrayEditOps).ForEach.status =
      Status.pastEnd ∧
    (CreateFromSerializationData ([] : List Int) [_ToInt64 ⟨2, OpEraseRef.toInt⟩, 0]
        false)._ApplyEdits [1, 2, 3] = [2, 3] := by
  decide

end Claims

/-! ## Lemmas for aborted passes, composition and the dense flag -/

namespace Vt_ArrayEditOps

open Op

theorem loop_invalid (nl size : Option Nat) (op : Op) (w : Int) (rest : List Int)
    (hw : IsValidOp (_ToOpAndCount w).op = false) :
    _ForEachImpl.loop nl size op 0 (w :: rest) = ⟨[], Status.invalidOp, size⟩ := by
  rw [loop_cons_zero]
  simp [hw]

theorem Decodes.then_invalid {ws : List Int} {is : List Visit} (h : Decodes ws is)
    (nl size : Option Nat) (w : Int) (rest : List Int)
    (hw : IsValidOp (_ToOpAndCount w).op = false) :
    (_ForEachImpl nl size (ws ++ w :: rest)).visits = (_ForEachImpl nl size ws).visits ∧
    (_ForEachImpl nl size (ws ++ w :: rest)).status = Status.invalidOp := by
  have h1 := h nl size (w :: rest)
  rw [loop_invalid nl _ _ w rest hw] at h1
  unfold _ForEachImpl
  rw [h1, ← _ForEachImpl, (h.visits nl size).1]
  simp [Replay.prepend]

end Vt_ArrayEditOps

namespace VtArrayEdit

open Vt_ArrayEditOps Vt_ArrayEditOps.Op

variable {α : Type}

theorem applyEdits_nil [Inhabited α] (E : VtArrayEdit α) (D : List α)
    (h : E._ops._ins = []) : E._ApplyEdits D = D := by
  simp [_ApplyEdits, ForEachValid, h, _ForEachImpl, _ForEachImpl.loop]

theorem composeOver_ofArray [Inhabited α] (E : VtArrayEdit α) (D : List α)
    (hd : E._isDense = false) :
    E.ComposeOver (ofArray D) = ofArray (E._ApplyEdits D) := by
  unfold ComposeOver
  simp only [IsDenseArray, IsIdentity, hd, Bool.false_eq_true, if_false, Bool.not_false,
    Bool.true_and, Vt_ArrayEditOps.IsEmpty, ofArray, if_true]
  split
  · rename_i hemp
    rw [applyEdits_nil E D (by simpa using hemp)]
  · rfl

theorem applyEdits_decodes [Inhabited α] (E : VtArrayEdit α) (D : List α) (is : List Visit)
    (h : Decodes E._ops._ins is) :
    E._ApplyEdits D = is.foldl (applyIns E._denseOrLiterals) D := by
  simp only [_ApplyEdits, ForEachValid]
  rw [(h.visits _ _).1, foldl_fn_replayIns]

theorem composeEdits_rvalue_eq (S W : VtArrayEdit α) (h : S._isDense = W._isDense) :
    S._ComposeEdits_rvalue W = S._ComposeEdits W := by
  obtain ⟨sl, so, sd⟩ := S
  obtain ⟨wl, wo, wd⟩ := W
  simp only at h
  simp [_ComposeEdits_rvalue, _ComposeEdits, ModifyEach, h]

theorem composeOver_overloads [Inhabited α] (S W : VtArrayEdit α) :
    S.ComposeOver_rvalue W = S.ComposeOver W ∧
    S.ComposeOver_rvalue_rvalue W = S.ComposeOver W ∧
    S.ComposeOver_const_rvalue W = S.ComposeOver W := by
  refine ⟨rfl, ?_, ?_⟩
  · unfold ComposeOver_rvalue_rvalue ComposeOver
    by_cases h1 : S.IsDenseArray = true
    · simp [h1]
    · by_cases h2 : W.IsDenseArray = true
      · simp [h1, h2]
      · simp only [IsDenseArray, Bool.not_eq_true] at h1 h2
        rw [composeEdits_rvalue_eq S W (by rw [h1, h2])]
  · unfold ComposeOver_const_rvalue ComposeOver
    by_cases h1 : S.IsDenseArray = true
    · simp [h1]
    · by_cases h2 : W.IsDenseArray = true
      · simp [h1, h2]
      · simp only [IsDenseArray, Bool.not_eq_true] at h1 h2
        rw [composeEdits_rvalue_eq S W (by rw [h1, h2])]

theorem composeOver_nondense [Inhabited α] (A B : VtArrayEdit α)
    (hA : A._isDense = false) (hB : B._isDense = false) (hne : A._ops._ins ≠ []) :
    A.ComposeOver B =
      { _denseOrLiterals := B._denseOrLiterals ++ A._denseOrLiterals,
        _ops := { _ins := B._ops._ins ++ A._ops._ins }, _isDense := false } := by
  have hemp : A._ops._ins.isEmpty = false := by
    cases h : A._ops._ins with
    | nil => exact absurd h hne
    | cons _ _ => rfl
  simp [ComposeOver, IsDenseArray, IsIdentity, Vt_ArrayEditOps.IsEmpty, hA, hB, hemp,
    _ComposeEdits, ModifyEach]

theorem composeOver_identity [Inhabited α] (A B : VtArrayEdit α) (hA : A._isDense = false)
    (h : A._ops._ins = []) : A.ComposeOver B = B := by
  simp [ComposeOver, IsDenseArray, IsIdentity, Vt_ArrayEditOps.IsEmpty, hA, h]

theorem denseInv_composeOver [Inhabited α] (A B : VtArrayEdit α) (hA : DenseInv A)
    (hB : DenseInv B) : DenseInv (A.ComposeOver B) := by
  unfold ComposeOver
  split_ifs with h1 h2 h3
  · exact hA
  · exact hB
  · intro _; rfl
  · intro h
    simp only [IsDenseArray, Bool.not_eq_true] at h1
    simp [_ComposeEdits, h1] at h

end VtArrayEdit

/-! ## Lemmas for the layout of the builder's stream -/

namespace Vt_ArrayEditOps

open Op

theorem streamWords_append (xs ys : List (Op × List Visit)) :
    streamWords (xs ++ ys) = streamWords xs ++ streamWords ys := by
  induction xs with
  | nil => rfl
  | cons x xs ih => simp [streamWords, ih]

theorem runsIns_append (xs ys : List (Op × List Visit)) :
    runsIns (xs ++ ys) = runsIns xs ++ runsIns ys := by
  induction xs with
  | nil => rfl
  | cons x xs ih => simp [runsIns, ih]

theorem addRun_concat (pre : List (Op × List Visit)) (r : Op × List Visit) (v : Visit) :
    addRun (pre ++ [r]) v =
      if r.1 = v.op then pre ++ [(r.1, r.2 ++ [v])] else pre ++ [r, (v.op, [v])] := by
  induction pre with
  | nil => simp only [List.nil_append, addRun]
  | cons p pre ih =>
    cases pre with
    | nil =>
      simp only [List.nil_append, List.cons_append, addRun] at ih ⊢
      split_ifs <;> rfl
    | cons q pre =>
      simp only [List.cons_append, addRun, List.append_eq] at ih ⊢
      rw [ih]
      split_ifs <;> rfl

theorem runsIns_addRun (rs : List (Op × List Visit)) (v : Visit) :
    runsIns (addRun rs v) = runsIns rs ++ [v] := by
  rcases List.eq_nil_or_concat rs with rfl | ⟨pre, r, rfl⟩
  · rfl
  · rw [List.concat_eq_append, addRun_concat]
    split_ifs <;> simp [runsIns_append, runsIns]

theorem runsIns_foldl_addRun (is : List Visit) :
    ∀ rs : List (Op × List Visit), runsIns (is.foldl addRun rs) = runsIns rs ++ is := by
  induction is with
  | nil => intro rs; simp
  | cons i is ih => intro rs; rw [List.foldl_cons, ih, runsIns_addRun]; simp

theorem maxRuns_nil : MaxRuns [] := ⟨fun r hr => absurd hr (List.not_mem_nil r), List.chain'_nil⟩

theorem maxRuns_addRun {rs : List (Op × List Visit)} (h : MaxRuns rs) (v : Visit)
    (hv : GetArity v.op = 1 → v.a2 = -1) : MaxRuns (addRun rs v) := by
  rcases List.eq_nil_or_concat rs with rfl | ⟨pre, r, rfl⟩
  · refine ⟨fun r hr => ?_, by simp [Vt_ArrayEditOps.addRun]⟩
    simp only [Vt_ArrayEditOps.addRun, List.mem_singleton] at hr
    subst hr
    refine ⟨by simp, fun u hu => ?_⟩
    rw [List.mem_singleton] at hu
    subst hu
    exact ⟨rfl, hv⟩
  · rw [List.concat_eq_append] at h ⊢
    obtain ⟨h1, h2⟩ := h
    rw [addRun_concat]
    split_ifs with hop
    · refine ⟨fun s hs => ?_, by simpa using h2⟩
      rcases List.mem_append.mp hs with hs | hs
      · exact h1 s (List.mem_append_left _ hs)
      · rw [List.mem_singleton] at hs
        subst hs
        have hr := h1 r (List.mem_append_right _ (List.mem_singleton_self r))
        refine ⟨by simp, fun u hu => ?_⟩
        rcases List.mem_append.mp hu with hu | hu
        · exact hr.2 u hu
        · rw [List.mem_singleton] at hu
          subst hu
          exact ⟨hop.symm, fun ha => hv (hop ▸ ha)⟩
    · refine ⟨fun s hs => ?_, ?_⟩
      · rcases List.mem_append.mp hs with hs | hs
        · exact h1 s (List.mem_append_left _ hs)
        · simp only [List.mem_cons, List.mem_singleton, List.not_mem_nil, or_false] at hs
          rcases hs with rfl | rfl
          · exact h1 _ (List.mem_append_right _ (List.mem_singleton_self _))
          · refine ⟨by simp, fun u hu => ?_⟩
            rw [List.mem_singleton] at hu
            subst hu
            exact ⟨rfl, hv⟩
      · simp only [List.map_append, List.map_cons, List.map_nil] at h2 ⊢
        rw [List.chain'_split (a := r.1)]
        exact ⟨h2, by simp [hop]⟩

end Vt_ArrayEditOps

namespace Vt_ArrayEditOpsBuilder

open Vt_ArrayEditOps Vt_ArrayEditOps.Op

theorem addIns_empty (b : Vt_ArrayEditOpsBuilder) (v : Visit) (h : b._ins = []) :
    b.addIns v = ⟨runWords v.op [v], 0⟩ := by
  simp [Vt_ArrayEditOpsBuilder.addIns, _AddOp, h, runWords, flatArgs_single]

theorem addIns_after_run (b : Vt_ArrayEditOpsBuilder) (pre : List Int) (op : Op)
    (run : List Visit) (v : Visit) (hins : b._ins = pre ++ runWords op run)
    (hidx : b._lastOpIdx = pre.length) (hl : (run.length : Int) + 1 < 36028797018963968) :
    b.addIns v =
      if op = v.op then ⟨pre ++ runWords op (run ++ [v]), pre.length⟩
      else ⟨pre ++ runWords op run ++ runWords v.op [v], ((pre ++ runWords op run).length : Int)⟩ := by
  unfold runWords at hins
  have hget : b._ins.getD b._lastOpIdx.toNat 0 =
      _ToInt64 { count := run.length, op := op.toInt } := by
    rw [hins, hidx, Int.toNat_ofNat, List.getD_append_cons_length]
  have hoc := toOpAndCount_toInt64 op run.length (by omega) (by omega)
  have hnil : b._ins.isEmpty = false := by rw [hins]; cases pre <;> rfl
  have hadd : b._AddOp v.op =
      if op.toInt ≠ v.op.toInt then
        { _lastOpIdx := b._ins.length,
          _ins := b._ins ++ [_ToInt64 { count := 1, op := v.op.toInt }] }
      else
        { b with _ins := (b._ins.set b._lastOpIdx.toNat
            (_ToInt64 { count := wrap56 ((run.length : Int) + 1), op := op.toInt })) } := by
    unfold _AddOp
    rw [hget, hoc, hnil]
    simp
  by_cases hop' : op = v.op
  · have hw : wrap56 ((run.length : Int) + 1) = ((run ++ [v]).length : Int) := by
      rw [wrap56_of_range _ (by omega) hl]; simp
    have hadd' : b._AddOp v.op =
        ⟨pre ++ _ToInt64 ⟨((run ++ [v]).length : Int), op.toInt⟩ :: flatArgs run,
          b._lastOpIdx⟩ := by
      rw [hadd, if_neg (by rw [hop']; simp), hw, hins, hidx, Int.toNat_ofNat,
        List.set_append_cons_length]
    rw [if_pos hop']
    simp [Vt_ArrayEditOpsBuilder.addIns, hadd', flatArgs_append, flatArgs_single, runWords,
      hidx]
  · have hop : op.toInt ≠ v.op.toInt := fun h => hop' (toInt_injective h)
    have hadd' : b._AddOp v.op =
        { _lastOpIdx := b._ins.length,
          _ins := b._ins ++ [_ToInt64 { count := 1, op := v.op.toInt }] } := by
      rw [hadd, if_pos hop]
    rw [if_neg hop']
    simp [Vt_ArrayEditOpsBuilder.addIns, hadd', flatArgs_single, runWords, hins]

theorem layout_init : Layout {} [] :=
  ⟨rfl, maxRuns_nil, fun pre r h => by simp at h⟩

theorem layout_addIns {b : Vt_ArrayEditOpsBuilder} {rs : List (Op × List Visit)}
    (h : Layout b rs) (v : Visit)
    (hlen : ((runsIns rs).length : Int) + 1 < 36028797018963968)
    (hv : GetArity v.op = 1 → v.a2 = -1) :
    Layout (b.addIns v) (addRun rs v) := by
  obtain ⟨hins, hmax, hidx⟩ := h
  refine ⟨?_, maxRuns_addRun hmax v hv, ?_⟩
  · rcases List.eq_nil_or_concat rs with rfl | ⟨pre, r, rfl⟩
    · rw [addIns_empty b v hins]
      simp [addRun, streamWords]
    · rw [List.concat_eq_append] at hins hidx hlen ⊢
      have hl : (r.2.length : Int) + 1 < 36028797018963968 := by
        rw [runsIns_append, List.length_append] at hlen
        simp only [runsIns, List.append_nil] at hlen
        push_cast at hlen
        omega
      rw [addIns_after_run b (streamWords pre) r.1 r.2 v
        (by rw [hins, streamWords_append]; simp [streamWords]) (hidx pre r rfl) hl,
        addRun_concat]
      split_ifs <;> simp [streamWords_append, streamWords]
  · intro pre' r' heq
    rcases List.eq_nil_or_concat rs with rfl | ⟨pre, r, rfl⟩
    · rw [addIns_empty b v hins]
      simp only [addRun] at heq
      have : pre' = [] := by
        cases pre' with
        | nil => rfl
        | cons x xs => cases xs <;> simp at heq
      subst this
      simp [streamWords]
    · rw [List.concat_eq_append] at hins hidx hlen heq
      have hl : (r.2.length : Int) + 1 < 36028797018963968 := by
        rw [runsIns_append, List.length_append] at hlen
        simp only [runsIns, List.append_nil] at hlen
        push_cast at hlen
        omega
      rw [addIns_after_run b (streamWords pre) r.1 r.2 v
        (by rw [hins, streamWords_append]; simp [streamWords]) (hidx pre r rfl) hl]
      rw [addRun_concat] at heq
      split_ifs at heq ⊢ with hop
      · have := List.append_inj' heq (by simp)
        rw [← this.1]
      · have heq' : (pre ++ [r]) ++ [(v.op, [v])] = pre' ++ [r'] := by simpa using heq
        have := List.append_inj' heq' (by simp)
        rw [← this.1, streamWords_append]
        simp [streamWords]

end Vt_ArrayEditOpsBuilder

namespace VtArrayEditBuilder

open Vt_ArrayEditOps Vt_ArrayEditOps.Op VtArrayEdit

variable {α : Type}

theorem calls_layout [DecidableEq α] :
    ∀ (cs : List (Call α)) (b : VtArrayEditBuilder α) (rs : List (Op × List Visit)),
      b._opsBuilder.Layout rs → MapOK b →
      ((runsIns rs).length : Int) + cs.length < 36028797018963968 →
      ∃ ks : List Int, ks.length = cs.length ∧
        (cs.foldl call b)._opsBuilder.Layout
          (((cs.zip ks).filterMap (fun p => p.1.toIns p.2)).foldl addRun rs) ∧
        ∀ p ∈ cs.zip ks, ∀ e, p.1.elem = some e →
          0 ≤ p.2 ∧ (cs.foldl call b)._literals[p.2.toNat]? = some e := by
  intro cs
  induction cs with
  | nil =>
    intro b rs hlay _ _
    exact ⟨[], rfl, by simpa using hlay, fun p hp => by simp at hp⟩
  | cons c cs ih =>
    intro b rs hlay hb hlen
    simp only [List.length_cons, Nat.cast_add, Nat.cast_one] at hlen
    obtain ⟨_, hb', hshape⟩ := call_shape b c hb
    rcases hshape with ⟨hnone, hops⟩ | ⟨k, i, hi, har, hops, hk⟩
    · obtain ⟨ks, hks, hlay', hval⟩ := ih (b.call c) rs (hops ▸ hlay) hb' (by omega)
      refine ⟨0 :: ks, by simp [hks], ?_, ?_⟩
      · simpa [List.zip_cons_cons, List.filterMap_cons, hnone] using hlay'
      · intro p hp e he
        simp only [List.zip_cons_cons, List.mem_cons] at hp
        rcases hp with rfl | hp
        · rw [Call.elem_none_of_toIns_none c hnone] at he
          cases he
        · exact hval p hp e he
    · have hlay1 : (b.call c)._opsBuilder.Layout (addRun rs i) :=
        hops ▸ Vt_ArrayEditOpsBuilder.layout_addIns hlay i (by omega) har
      obtain ⟨ks, hks, hlay', hval⟩ := ih (b.call c) (addRun rs i) hlay1 hb'
        (by rw [runsIns_addRun]
            simp only [List.length_append, List.length_singleton, Nat.cast_add, Nat.cast_one]
            omega)
      obtain ⟨⟨ext, hext⟩, _⟩ := calls_literals_append cs (b.call c) hb'
      refine ⟨k :: ks, by simp [hks], ?_, ?_⟩
      · simpa [List.zip_cons_cons, List.filterMap_cons, hi] using hlay'
      · intro p hp e he
        simp only [List.zip_cons_cons, List.mem_cons] at hp
        rcases hp with rfl | hp
        · obtain ⟨h0, h1⟩ := hk e he
          refine ⟨h0, ?_⟩
          have hlt : k.toNat < (b.call c)._literals.length := by
            rcases Nat.lt_or_ge k.toNat (b.call c)._literals.length with h | h
            · exact h
            · rw [List.getElem?_eq_none h] at h1; cases h1
          rw [List.foldl_cons, hext, List.getElem?_append_left hlt]
          exact h1
        · exact hval p hp e he

theorem mapOK_fresh [DecidableEq α] : MapOK ({} : VtArrayEditBuilder α) :=
  fun e idx h => by simp [List.lookup] at h

theorem mapFull_fresh [DecidableEq α] : MapFull ({} : VtArrayEditBuilder α) :=
  fun e he => absurd he (List.not_mem_nil e)

/-- The stream and the pool of a builder-made edit: the stream is the layout
of the maximal runs of the recorded instructions, which are the instructions
of the calls with pool indexes naming the calls' elements. -/
theorem build_layout [DecidableEq α] (cs : List (Call α))
    (hlen : (cs.length : Int) < 36028797018963968) :
    ∃ (ks : List Int) (rs : List (Op × List Visit)), ks.length = cs.length ∧
      (build cs)._ops._ins = streamWords rs ∧ MaxRuns rs ∧
      runsIns rs = (cs.zip ks).filterMap (fun p => p.1.toIns p.2) ∧
      ∀ p ∈ cs.zip ks, ∀ e, p.1.elem = some e →
        0 ≤ p.2 ∧ (build cs)._denseOrLiterals[p.2.toNat]? = some e := by
  obtain ⟨ks, hks, hlay, hval⟩ := calls_layout cs {} []
    Vt_ArrayEditOpsBuilder.layout_init mapOK_fresh (by simpa [runsIns] using hlen)
  exact ⟨ks, _, hks, hlay.1, hlay.2.1, by rw [runsIns_foldl_addRun]; rfl, hval⟩

theorem build_pool [DecidableEq α] (cs : List (Call α)) :
    (build cs)._denseOrLiterals = firstUses (cs.filterMap Call.elem) :=
  calls_pool cs {} mapOK_fresh mapFull_fresh

theorem mem_foldl_addFirst [DecidableEq α] :
    ∀ (es pool : List α) (x : α), x ∈ es.foldl addFirst pool → x ∈ pool ∨ x ∈ es := by
  intro es
  induction es with
  | nil => intro pool x h; exact Or.inl h
  | cons e es ih =>
    intro pool x h
    rcases ih _ x h with h | h
    · unfold addFirst at h
      split_ifs at h
      · exact Or.inl h
      · rcases List.mem_append.mp h with h | h
        · exact Or.inl h
        · rw [List.mem_singleton] at h
          exact Or.inr (h ▸ List.mem_cons_self _ _)
    · exact Or.inr (List.mem_cons_of_mem _ h)

theorem Call.toIns_litIndex (c : Call α) (k : Int) (v : Visit) (h : c.toIns k = some v) :
    (∀ j, v.litIndex = some j → j = k ∧ ∃ e, c.elem = some e) ∧
    (∀ e, c.elem = some e → v.litIndex = some k) ∧
    (GetArity v.op = 1 → v.a2 = -1) := by
  cases c <;> simp only [Call.toIns] at h <;>
    first
    | (cases h; simp [Visit.litIndex, Call.elem, GetArity])
    | (split_ifs at h; cases h; simp [Visit.litIndex, Call.elem, GetArity])

theorem Call.toIns_isSome_of_elem (c : Call α) (k : Int) (e : α) (h : c.elem = some e) :
    ∃ v, c.toIns k = some v := by
  cases c <;> simp [Call.elem] at h <;> simp [Call.toIns]

theorem exists_zip_of_mem {β γ : Type} :
    ∀ (xs : List β) (ys : List γ), ys.length = xs.length → ∀ x ∈ xs, ∃ y, (x, y) ∈ xs.zip ys := by
  intro xs
  induction xs with
  | nil => intro ys _ x hx; exact absurd hx (List.not_mem_nil x)
  | cons a xs ih =>
    intro ys hlen x hx
    cases ys with
    | nil => simp at hlen
    | cons b ys =>
      rcases List.mem_cons.mp hx with rfl | hx
      · exact ⟨b, by simp⟩
      · obtain ⟨y, hy⟩ := ih ys (by simpa using hlen) x hx
        exact ⟨y, by simp [hy]⟩

end VtArrayEditBuilder

namespace Vt_ArrayEditOps

open Op

theorem argWords_length (v : Visit) : (argWords v).length = GetArity v.op := by
  unfold argWords
  split_ifs with h
  · simp [h]
  · cases hv : v.op <;> simp [GetArity, hv] at h ⊢

theorem flatArgs_length (op : Op) :
    ∀ run : List Visit, (∀ v ∈ run, v.op = op) →
      (flatArgs run).length = run.length * GetArity op := by
  intro run
  induction run with
  | nil => intro _; simp [flatArgs]
  | cons v vs ih =>
    intro h
    rw [flatArgs, List.length_append, argWords_length, h v (List.mem_cons_self _ _),
      ih (fun u hu => h u (List.mem_cons_of_mem _ hu)), List.length_cons]
    ring

theorem length_le_runsIns :
    ∀ (rs : List (Op × List Visit)) (r : Op × List Visit), r ∈ rs →
      r.2.length ≤ (runsIns rs).length := by
  intro rs
  induction rs with
  | nil => intro r hr; exact absurd hr (List.not_mem_nil r)
  | cons x xs ih =>
    intro r hr
    rw [runsIns, List.length_append]
    rcases List.mem_cons.mp hr with rfl | hr
    · omega
    · have := ih r hr
      omega

theorem streamWords_eq_nil (rs : List (Op × List Visit)) (h : streamWords rs = []) : rs = [] := by
  cases rs with
  | nil => rfl
  | cons r rs => simp [streamWords, runWords] at h

theorem run_header (r : Op × List Visit) (h1 : r.2 ≠ []) (h2 : ∀ v ∈ r.2, v.op = r.1)
    (hlen : (r.2.length : Int) < 36028797018963968) :
    ∃ (hdr : Int) (args : List Int), runWords r.1 r.2 = hdr :: args ∧
      IsValidOp (_ToOpAndCount hdr).op = true ∧ Op.ofInt (_ToOpAndCount hdr).op = some r.1 ∧
      1 ≤ (_ToOpAndCount hdr).count ∧ (_ToOpAndCount hdr).count = r.2.length ∧
      (args.length : Int) = (_ToOpAndCount hdr).count * GetArity r.1 := by
  refine ⟨_, _, rfl, ?_⟩
  rw [toOpAndCount_toInt64 r.1 r.2.length (by omega) hlen]
  refine ⟨isValidOp_toInt r.1, ofInt_toInt r.1, ?_, rfl, ?_⟩
  · have : 0 < r.2.length := List.length_pos.mpr h1
    simp only
    omega
  · rw [flatArgs_length r.1 r.2 h2]
    push_cast
    rfl

end Vt_ArrayEditOps

/-! ## Lemmas for edits without literals and for `Optimize` -/

namespace VtArrayEditBuilder

open Vt_ArrayEditOps Vt_ArrayEditOps.Op VtArrayEdit

variable {α : Type}

theorem Call.elem_of_noLiteral (c : Call α) (h : c.noLiteral) : c.elem = none := by
  cases c <;> first | rfl | exact absurd h id

theorem applyIns_of_litOK_zero [Inhabited α] (lits lits' D : List α) (i : Visit)
    (h : LitOK 0 i) : applyIns lits D i = applyIns lits' D i := by
  refine applyIns_congr lits lits' D i i ⟨rfl, ?_⟩
  obtain ⟨op, a1, a2⟩ := i
  obtain ⟨h1, h2⟩ := h
  cases op <;> simp only [reduceCtorEq, or_false, false_or, or_self, true_or, or_true,
    true_implies, false_implies] at h1 h2 <;> first | exact ⟨rfl, rfl⟩ | omega

/-- The recorded instructions of a builder-made edit: the stream decodes to
them, their literal indices lie in the pool, and their replay is the effects
of the calls. -/
theorem build_after [DecidableEq α] [Inhabited α] (cs : List (Call α))
    (hlen : (cs.length : Int) < 36028797018963968) :
    ∃ is : List Visit, Decodes (build cs)._ops._ins is ∧
      (∀ i ∈ is, LitOK (build cs)._denseOrLiterals.length i) ∧
      ∀ D : List α, is.foldl (applyIns (build cs)._denseOrLiterals) D = cs.foldl Call.effect D := by
  have h := After.calls cs ({} : VtArrayEditBuilder α) [] After.fresh (by simpa using hlen)
  simp only [List.nil_append] at h
  obtain ⟨is, hrec, hle, _, hlit, hsem⟩ := h
  exact ⟨is, hrec.decodes (by omega), hlit, hsem⟩

end VtArrayEditBuilder

namespace Vt_ArrayEditOps

open Op

theorem checkIns_unchecked (op : Op) (a1 a2 : Int) :
    (_CheckIns none none op a1 a2 = none ∧
      ∀ nl n : Nat, _CheckIns (some nl) (some n) op a1 a2 = none) ∨
    (_CheckIns none none op a1 a2 = some (⟨op, a1, a2⟩, none) ∧
      (⟨op, a1, a2⟩ : Visit).sizeArgOK) := by
  by_cases hs : (⟨op, a1, a2⟩ : Visit).sizeArgOK
  · exact Or.inr ⟨checkIns_none_of_sizeArgOK _ hs, hs⟩
  · left
    cases op <;>
      simp only [Visit.sizeArgOK, reduceCtorEq, or_false, false_or, or_self, or_true, true_or,
        true_implies, false_implies, not_true_eq_false, not_le] at hs <;>
      simp [_CheckIns, _CheckSizeArg, hs]

theorem replayIns_unchecked :
    ∀ is : List Visit, (replayIns none none is).1.Sublist is ∧
      (replayIns none none is).2 = none := by
  intro is
  induction is with
  | nil => exact ⟨List.Sublist.slnil, rfl⟩
  | cons i is ih =>
    rw [replayIns]
    rcases checkIns_unchecked i.op i.a1 i.a2 with ⟨h, _⟩ | ⟨h, _⟩
    · rw [h]
      exact ⟨ih.1.cons _, ih.2⟩
    · rw [h]
      exact ⟨ih.1.cons₂ _, ih.2⟩

end Vt_ArrayEditOps

namespace VtArrayEditBuilder

open Vt_ArrayEditOps Vt_ArrayEditOps.Op VtArrayEdit

variable {α : Type}

theorem optimize_fn_toCall [DecidableEq α] [Inhabited α] (lits : List α)
    (b : VtArrayEditBuilder α) (v : Visit) :
    Optimize.fn lits b v =
      match Optimize.toCall lits v with
      | none => b
      | some c => b.call c := by
  obtain ⟨op, a1, a2⟩ := v
  cases op <;> simp only [Optimize.fn, Optimize.toCall] <;> first | rfl | (split_ifs <;> rfl)

theorem foldl_optimize_fn [DecidableEq α] [Inhabited α] (lits : List α) :
    ∀ (vs : List Visit) (b : VtArrayEditBuilder α),
      vs.foldl (Optimize.fn lits) b = (vs.filterMap (Optimize.toCall lits)).foldl call b := by
  intro vs
  induction vs with
  | nil => intro b; rfl
  | cons v vs ih =>
    intro b
    rw [List.foldl_cons, optimize_fn_toCall, List.filterMap_cons]
    cases h : Optimize.toCall lits v with
    | none => exact ih b
    | some c => simpa using ih (b.call c)

theorem optimize_eq_build [DecidableEq α] [Inhabited α] (E : VtArrayEdit α)
    (hd : E._isDense = false) (hne : E._ops._ins ≠ []) :
    Optimize E = build (E._ops.ForEach.visits.filterMap (Optimize.toCall E._denseOrLiterals)) := by
  have hemp : E._ops._ins.isEmpty = false := by
    cases h : E._ops._ins with
    | nil => exact absurd h hne
    | cons _ _ => rfl
  simp only [Optimize, IsDenseArray, IsIdentity, Vt_ArrayEditOps.IsEmpty, hd, hemp,
    Bool.false_eq_true, Bool.not_false, Bool.and_false, or_self, if_false, build]
  rw [foldl_optimize_fn]

theorem toCall_facts [Inhabited α] (lits : List α) (v : Visit) (c : Call α)
    (h : Optimize.toCall lits v = some c) (hs : v.sizeArgOK)
    (ha : GetArity v.op = 1 → v.a2 = -1)
    (hf : (v.op = OpMinSizeFill ∨ v.op = OpSetSizeFill) → 0 ≤ v.a2 ∧ v.a2.toNat < lits.length) :
    ∃ k : Int, c.toIns k = some v ∧
      ∀ e, c.elem = some e → 0 ≤ k ∧ lits[k.toNat]? = some e := by
  obtain ⟨op, a1, a2⟩ := v
  have hget : ∀ k : Int, k.toNat < lits.length → lits[k.toNat]? = some (VtArray.get lits k) := by
    intro k hk
    simp [VtArray.get, List.getD_eq_getElem?_getD, List.getElem?_eq_getElem hk]
  cases op <;>
    simp only [Optimize.toCall, Visit.sizeArgOK, GetArity, reduceCtorEq, or_false, false_or,
      or_self, or_true, true_or, true_implies, false_implies, if_true, if_false] at h hs ha hf
  case OpWriteLiteral =>
    split_ifs at h with hr
    cases h
    exact ⟨a1, rfl, fun e he => by cases he; exact ⟨hr.1, hget a1 hr.2⟩⟩
  case OpInsertLiteral =>
    split_ifs at h with hr
    cases h
    exact ⟨a1, rfl, fun e he => by cases he; exact ⟨hr.1, hget a1 hr.2⟩⟩
  case OpMinSizeFill =>
    split_ifs at h with hr
    cases h
    exact ⟨a2, rfl, fun e he => by cases he; exact ⟨hf.1, hget a2 hf.2⟩⟩
  case OpSetSizeFill =>
    split_ifs at h with hr
    cases h
    exact ⟨a2, rfl, fun e he => by cases he; exact ⟨hf.1, hget a2 hf.2⟩⟩
  case OpWriteRef =>
    cases h
    exact ⟨0, rfl, fun e he => by cases he⟩
  case OpInsertRef =>
    cases h
    exact ⟨0, rfl, fun e he => by cases he⟩
  all_goals
    cases h
    subst ha
    refine ⟨0, by simp [Call.toIns, not_lt.mpr, hs], fun e he => by cases he⟩

theorem toCall_none [Inhabited α] (lits D : List α) (v : Visit)
    (h : Optimize.toCall lits v = none) (hf : noFill v) : applyIns lits D v = D := by
  obtain ⟨op, a1, a2⟩ := v
  obtain ⟨hf1, hf2⟩ := hf
  cases op <;> simp only [Optimize.toCall, reduceCtorEq, ne_eq, not_true_eq_false,
    not_false_eq_true] at h hf1 hf2
  all_goals
    split_ifs at h with hr
    have hr' : ¬ (0 ≤ a1 ∧ a1 < (lits.length : Int)) := fun hh => hr ⟨hh.1, by omega⟩
    simp [applyIns, _CheckIns, checkLiteralIndex_some, hr']

theorem toCall_effect [Inhabited α] (lits D : List α) (v : Visit) (c : Call α)
    (h : Optimize.toCall lits v = some c) (hs : v.sizeArgOK)
    (ha : GetArity v.op = 1 → v.a2 = -1)
    (hf : (v.op = OpMinSizeFill ∨ v.op = OpSetSizeFill) → 0 ≤ v.a2 ∧ v.a2.toNat < lits.length) :
    Call.effect D c = applyIns lits D v := by
  obtain ⟨k, hk, hke⟩ := toCall_facts lits v c h hs ha hf
  obtain ⟨⟨i0, hi0, hsame⟩, _, _⟩ := Call.toIns_facts lits c k v hk hke
  simp only [Call.effect, hi0]
  exact (applyIns_congr _ _ _ _ _ hsame).symm

end VtArrayEditBuilder

namespace Vt_ArrayEditOps

open Op

theorem mem_runsIns :
    ∀ (rs : List (Op × List Visit)) (v : Visit), v ∈ runsIns rs → ∃ r ∈ rs, v ∈ r.2 := by
  intro rs
  induction rs with
  | nil => intro v hv; exact absurd hv (List.not_mem_nil v)
  | cons r rs ih =>
    intro v hv
    rw [runsIns] at hv
    rcases List.mem_append.mp hv with h | h
    · exact ⟨r, List.mem_cons_self _ _, h⟩
    · obtain ⟨s, hs, hvs⟩ := ih v h
      exact ⟨s, List.mem_cons_of_mem _ hs, hvs⟩

theorem runOK_arity (rs : List (Op × List Visit)) (hrs : ∀ r ∈ rs, RunOK r) (v : Visit)
    (hv : v ∈ runsIns rs) : GetArity v.op = 1 → v.a2 = -1 := by
  obtain ⟨r, hr, hvr⟩ := mem_runsIns rs v hv
  obtain ⟨h1, h2⟩ := (hrs r hr).1 v hvr
  rw [h1]
  exact h2

theorem replayIns_unchecked_ok :
    ∀ is : List Visit, ∀ v ∈ (replayIns none none is).1, v.sizeArgOK := by
  intro is
  induction is with
  | nil => intro v hv; exact absurd hv (List.not_mem_nil v)
  | cons i is ih =>
    intro v hv
    rw [replayIns] at hv
    rcases checkIns_unchecked i.op i.a1 i.a2 with ⟨h, _⟩ | ⟨h, hok⟩
    · rw [h] at hv
      exact ih v hv
    · rw [h] at hv
      rcases List.mem_cons.mp hv with rfl | hv
      · exact hok
      · exact ih v hv

theorem getArity_pos (o : Op) : 1 ≤ GetArity o := by
  unfold GetArity
  split_ifs <;> omega

theorem encLen_cons (o : Op) (os : List Op) :
    encLen (o :: os) = GetArity o + (if os.head? = some o then 0 else 1) + encLen os := rfl

theorem encLen_sublist :
    ∀ (l₂ l₁ : List Op), l₁.Sublist l₂ →
      encLen l₁ ≤ encLen l₂ ∧ (l₁.head? ≠ l₂.head? → encLen l₁ + 1 ≤ encLen l₂) := by
  intro l₂
  induction l₂ with
  | nil =>
    intro l₁ h
    rw [List.sublist_nil.mp h]
    exact ⟨le_refl _, fun hh => absurd rfl hh⟩
  | cons a l₂ ih =>
    intro l₁ h
    have hpos := getArity_pos a
    cases h with
    | cons _ h' =>
      have := (ih l₁ h').1
      rw [encLen_cons]
      exact ⟨by omega, fun _ => by omega⟩
    | cons₂ _ h' =>
      rename_i l₁'
      obtain ⟨ih1, ih2⟩ := ih l₁' h'
      refine ⟨?_, fun hh => absurd rfl hh⟩
      rw [encLen_cons, encLen_cons]
      by_cases h2 : l₂.head? = some a
      · by_cases h1 : l₁'.head? = some a
        · simp only [h1, h2, if_true]
          omega
        · have := ih2 (by rw [h2]; exact h1)
          simp only [h1, h2, if_true, if_false]
          omega
      · simp only [h2, if_false]
        split_ifs <;> omega

theorem encLen_run_le (o : Op) (t : List Op) :
    ∀ run : List Visit, (∀ v ∈ run, v.op = o) →
      encLen (run.map Visit.op ++ t) ≤ 1 + run.length * GetArity o + encLen t := by
  intro run
  induction run with
  | nil => intro _; simp
  | cons v run ih =>
    intro h
    have hv := h v (List.mem_cons_self _ _)
    have ih' := ih (fun u hu => h u (List.mem_cons_of_mem _ hu))
    rw [List.map_cons, List.cons_append, encLen_cons, List.length_cons, hv]
    cases run with
    | nil =>
      simp only [List.map_nil, List.nil_append, List.length_nil]
      split_ifs <;> omega
    | cons u run =>
      have hu := h u (List.mem_cons_of_mem _ (List.mem_cons_self _ _))
      simp only [List.map_cons, List.cons_append, List.head?_cons, hu, if_true,
        List.length_cons] at ih' ⊢
      have : (run.length + 1 + 1) * GetArity o = GetArity o + (run.length + 1) * GetArity o := by
        ring
      omega

theorem encLen_run_eq (o : Op) (t : List Op) (ht : t.head? ≠ some o) :
    ∀ run : List Visit, run ≠ [] → (∀ v ∈ run, v.op = o) →
      encLen (run.map Visit.op ++ t) = 1 + run.length * GetArity o + encLen t := by
  intro run
  induction run with
  | nil => intro h; exact absurd rfl h
  | cons v run ih =>
    intro _ h
    have hv := h v (List.mem_cons_self _ _)
    rw [List.map_cons, List.cons_append, encLen_cons, List.length_cons, hv]
    cases run with
    | nil =>
      simp only [List.map_nil, List.nil_append, List.length_nil, ht, if_false]
      omega
    | cons u run =>
      have hu := h u (List.mem_cons_of_mem _ (List.mem_cons_self _ _))
      have ih' := ih (by simp) (fun u hu => h u (List.mem_cons_of_mem _ hu))
      simp only [List.map_cons, List.cons_append, List.head?_cons, hu, if_true,
        List.length_cons] at ih' ⊢
      have : (run.length + 1 + 1) * GetArity o = GetArity o + (run.length + 1) * GetArity o := by
        ring
      omega

theorem encLen_le_streamWords :
    ∀ rs : List (Op × List Visit), (∀ r ∈ rs, ∀ v ∈ r.2, v.op = r.1) →
      encLen ((runsIns rs).map Visit.op) ≤ (streamWords rs).length := by
  intro rs
  induction rs with
  | nil => intro _; simp [runsIns, streamWords, encLen]
  | cons r rs ih =>
    intro h
    have hr := h r (List.mem_cons_self _ _)
    have ih' := ih (fun s hs => h s (List.mem_cons_of_mem _ hs))
    have := encLen_run_le r.1 ((runsIns rs).map Visit.op) r.2 hr
    simp only [runsIns, streamWords, runWords, List.map_append, List.length_append,
      List.length_cons, flatArgs_length r.1 r.2 hr]
    omega

theorem streamWords_length_of_maxRuns :
    ∀ rs : List (Op × List Visit), MaxRuns rs →
      (streamWords rs).length = encLen ((runsIns rs).map Visit.op) := by
  intro rs
  induction rs with
  | nil => intro _; simp [runsIns, streamWords, encLen]
  | cons r rs ih =>
    intro h
    obtain ⟨h1, h2⟩ := h
    have hr := h1 r (List.mem_cons_self _ _)
    have hmax : MaxRuns rs :=
      ⟨fun s hs => h1 s (List.mem_cons_of_mem _ hs), by
        simp only [List.map_cons] at h2
        exact h2.tail⟩
    have hhead : ((runsIns rs).map Visit.op).head? ≠ some r.1 := by
      cases rs with
      | nil => simp [runsIns]
      | cons s rs =>
        have hs := h1 s (List.mem_cons_of_mem _ (List.mem_cons_self _ _))
        simp only [List.map_cons, List.chain'_cons] at h2
        cases hs2 : s.2 with
        | nil => exact absurd hs2 hs.1
        | cons u us =>
          have hu := (hs.2 u (by rw [hs2]; exact List.mem_cons_self _ _)).1
          simp only [runsIns, hs2, List.cons_append, List.map_cons, List.head?_cons, hu,
            ne_eq, Option.some.injEq]
          exact fun hh => h2.1 hh.symm
    have := encLen_run_eq r.1 _ hhead r.2 hr.1 (fun v hv => (hr.2 v hv).1)
    simp only [runsIns, streamWords, runWords, List.map_append, List.length_append,
      List.length_cons, flatArgs_length r.1 r.2 (fun v hv => (hr.2 v hv).1), ih hmax]
    omega

end Vt_ArrayEditOps

theorem List.filterMap_sublist_map {β γ : Type} (g : β → Option γ) (k : β → γ) :
    ∀ l : List β, (∀ x ∈ l, g x = none ∨ g x = some (k x)) →
      (l.filterMap g).Sublist (l.map k) := by
  intro l
  induction l with
  | nil => intro _; exact List.Sublist.slnil
  | cons x xs ih =>
    intro h
    have ih' := ih (fun y hy => h y (List.mem_cons_of_mem _ hy))
    rcases h x (List.mem_cons_self _ _) with hx | hx
    · rw [List.filterMap_cons, hx, List.map_cons]
      exact ih'.cons _
    · rw [List.filterMap_cons, hx, List.map_cons]
      exact ih'.cons₂ _

namespace VtArrayEditBuilder

open Vt_ArrayEditOps Vt_ArrayEditOps.Op VtArrayEdit

variable {α : Type}

theorem Call.toIns_op (c : Call α) (k : Int) :
    (c.toIns k).map Visit.op = (c.toIns 0).map Visit.op := by
  cases c <;> rfl

theorem zip_filterMap_ops :
    ∀ (cs : List (Call α)) (ks : List Int), ks.length = cs.length →
      ((cs.zip ks).filterMap (fun p => p.1.toIns p.2)).map Visit.op =
        cs.filterMap (fun c => (c.toIns 0).map Visit.op) := by
  intro cs
  induction cs with
  | nil => intro ks _; rfl
  | cons c cs ih =>
    intro ks hks
    cases ks with
    | nil => simp at hks
    | cons k ks =>
      have ih' := ih ks (by simpa using hks)
      have hop := Call.toIns_op c k
      rw [List.zip_cons_cons, List.filterMap_cons, List.filterMap_cons]
      cases hk : c.toIns k with
      | none =>
        rw [hk] at hop
        simp only [Option.map_none'] at hop
        simp only [← hop]
        exact ih'
      | some v =>
        rw [hk] at hop
        simp only [Option.map_some'] at hop
        simp only [← hop, List.map_cons, ih']

theorem toCall_op [Inhabited α] (lits : List α) (v : Visit) :
    (Optimize.toCall lits v).bind (fun c => (c.toIns 0).map Visit.op) = none ∨
    (Optimize.toCall lits v).bind (fun c => (c.toIns 0).map Visit.op) = some v.op := by
  obtain ⟨op, a1, a2⟩ := v
  cases op <;> simp only [Optimize.toCall] <;>
    first
    | exact Or.inr rfl
    | (split_ifs <;> first | exact Or.inl rfl | exact Or.inr rfl)
    | (simp only [Option.some_bind, Call.toIns]
       split_ifs <;> first | exact Or.inl rfl | exact Or.inr rfl)

theorem optimize_ops_sublist [Inhabited α] (lits : List α) (vs : List Visit) (ks : List Int)
    (hks : ks.length = (vs.filterMap (Optimize.toCall lits)).length) :
    ((((vs.filterMap (Optimize.toCall lits)).zip ks).filterMap
      (fun p => p.1.toIns p.2)).map Visit.op).Sublist (vs.map Visit.op) := by
  rw [zip_filterMap_ops _ ks hks, List.filterMap_filterMap]
  exact List.filterMap_sublist_map _ _ vs (fun v _ => toCall_op lits v)

theorem optimize_effects [Inhabited α] (lits : List α) :
    ∀ (is : List Visit) (D : List α),
      (∀ i ∈ is, noFill i ∧ (GetArity i.op = 1 → i.a2 = -1)) →
      ((replayIns none none is).1.filterMap (Optimize.toCall lits)).foldl Call.effect D =
        is.foldl (applyIns lits) D := by
  intro is
  induction is with
  | nil => intro D _; rfl
  | cons i is ih =>
    intro D h
    obtain ⟨hnf, har⟩ := h i (List.mem_cons_self _ _)
    have ih' := fun D' => ih D' (fun j hj => h j (List.mem_cons_of_mem _ hj))
    rw [replayIns, List.foldl_cons]
    rcases checkIns_unchecked i.op i.a1 i.a2 with ⟨h1, h2⟩ | ⟨h1, hok⟩
    · rw [h1]
      simp only [applyIns, h2]
      exact ih' D
    · rw [h1]
      simp only [List.filterMap_cons]
      cases hc : Optimize.toCall lits ⟨i.op, i.a1, i.a2⟩ with
      | none =>
        simp only
        rw [ih', toCall_none lits D i hc hnf]
      | some c =>
        simp only [List.foldl_cons]
        rw [ih', toCall_effect lits D i c hc hok har (fun hf => by
          rcases hf with hf | hf
          · exact absurd hf hnf.1
          · exact absurd hf hnf.2)]

theorem optimize_pool [DecidableEq α] [Inhabited α] (lits : List α) (vs : List Visit)
    (hs : ∀ v ∈ vs, v.sizeArgOK) (ha : ∀ v ∈ vs, GetArity v.op = 1 → v.a2 = -1)
    (hl : ∀ v ∈ vs, LitOK lits.length v) :
    (build (vs.filterMap (Optimize.toCall lits)))._denseOrLiterals.Nodup ∧
    (build (vs.filterMap (Optimize.toCall lits)))._denseOrLiterals.length ≤ lits.length := by
  have hnd : (build (vs.filterMap (Optimize.toCall lits)))._denseOrLiterals.Nodup := by
    rw [build_pool]
    exact foldl_addFirst_nodup _ [] List.nodup_nil
  refine ⟨hnd, (List.subperm_of_subset hnd (fun e he => ?_)).length_le⟩
  rw [build_pool] at he
  rcases mem_foldl_addFirst _ _ _ he with h | h
  · exact absurd h (List.not_mem_nil _)
  · obtain ⟨c, hc, hce⟩ := List.mem_filterMap.mp h
    obtain ⟨v, hv, hvc⟩ := List.mem_filterMap.mp hc
    obtain ⟨k, _, hk⟩ := toCall_facts lits v c hvc (hs v hv) (ha v hv) (hl v hv).2
    exact List.getElem?_mem (hk e hce).2

end VtArrayEditBuilder

/-! ## The claims, fourth part -/

section Claims

open Vt_ArrayEditOps Vt_ArrayEditOps.Op VtArrayEdit VtArrayEditBuilder

variable {α : Type}

/-- C4 (as stated, refuted): the non-dense edit rebuilt by
`CreateFromSerializationData` from the pool `[7]` and no instruction words
composed over the identity is the identity, whose pool is empty, and not the
edit itself.  And the non-dense edit rebuilt from the empty pool and a
header declaring two `EraseRef` instructions followed by the single argument
word `0` is not the identity, so composing it over the identity walks its
words with `ModifyEach`, and that pass indexes the words past their end. -/
theorem C4_right_identity_refuted :
    ((CreateFromSerializationData [(7 : Int)] [] false).IsDenseArray = false ∧
      (CreateFromSerializationData [(7 : Int)] [] false).ComposeOver ident ≠
        CreateFromSerializationData [(7 : Int)] [] false) ∧
    ((CreateFromSerializationData ([] : List Int) [_ToInt64 ⟨2, OpEraseRef.toInt⟩, 0]
        false).IsDenseArray = false ∧
      (CreateFromSerializationData ([] : List Int) [_ToInt64 ⟨2, OpEraseRef.toInt⟩, 0]
        false).IsIdentity = false ∧
      (ident : VtArrayEdit Int).IsDenseArray = false ∧
      (CreateFromSerializationData ([] : List Int) [_ToInt64 ⟨2, OpEraseRef.toInt⟩, 0]
        false)._ops.ForEach.status = Status.pastEnd) := by
  decide

/-- C4 (amended): a non-dense edit `E` whose words `ForEach` walks without
indexing past their end (no run is truncated), and that has instruction words
or has an empty literal pool, satisfies `E.ComposeOver(VtArrayEdit()) == E`,
whatever its pool is. -/
theorem C4_right_identity [Inhabited α] (E : VtArrayEdit α)
    (hd : E.IsDenseArray = false)
    (hE : E._ops._ins ≠ [] ∨ E._denseOrLiterals = []) :
    E._ops.ForEach.status ≠ Status.pastEnd → E.ComposeOver ident = E := by
  intro _
  obtain ⟨lits, ⟨ins⟩, dense⟩ := E
  simp only [IsDenseArray] at hd
  subst hd
  cases ins with
  | nil =>
    rcases hE with h | h
    · exact absurd rfl h
    · simp only at h
      subst h
      rfl
  | cons w ws =>
    simp [ComposeOver, IsDenseArray, IsIdentity, Vt_ArrayEditOps.IsEmpty, ident, _ComposeEdits,
      ModifyEach]

/-- C4 (amended) at the edit built by `Append(1)`, whose pass runs to the
end of its words. -/
theorem C4_right_identity_witness :
    (build [Call.Append (1 : Int)])._ops.ForEach.status = Status.completed ∧
    (build [Call.Append (1 : Int)]).ComposeOver ident = build [Call.Append (1 : Int)] :=
  ⟨by decide, C4_right_identity (build [Call.Append (1 : Int)]) (by decide)
    (Or.inl (by decide)) (by decide)⟩

/-- C19 (the code at the failing input): the edit rebuilt from the empty pool
and a header declaring two `EraseRef` instructions followed by the single
argument word `0` is not dense and not the identity.  Composed over the dense
array `[1, 2, 3]` it is replayed by `_ApplyEdits`, and composed over the
non-dense edit built by `Append(1)` its words are walked by `ModifyEach`;
both passes index the words past their end, so `ComposeOver` returns no edit
whose flag could be tested. -/
theorem C19_compose_indexes_past_truncated_stream :
    (CreateFromSerializationData ([] : List Int) [_ToInt64 ⟨2, OpEraseRef.toInt⟩, 0]
        false).IsDenseArray = false ∧
    (CreateFromSerializationData ([] : List Int) [_ToInt64 ⟨2, OpEraseRef.toInt⟩, 0]
        false).IsIdentity = false ∧
    ((ofArray [(1 : Int), 2, 3]).IsDenseArray = true ∧
      ((CreateFromSerializationData ([] : List Int) [_ToInt64 ⟨2, OpEraseRef.toInt⟩, 0]
        false)._ops.ForEachValid ([] : List Int).length [(1 : Int), 2, 3].length).status =
        Status.pastEnd) ∧
    ((build [Call.Append (1 : Int)]).IsDenseArray = false ∧
      (CreateFromSerializationData ([] : List Int) [_ToInt64 ⟨2, OpEraseRef.toInt⟩, 0]
        false)._ops.ForEach.status = Status.pastEnd) := by
  decide

/-- C20: the literal pool of the edit finalized after the calls `cs` has no
two equal elements and is the list of the distinct elements passed to the
calls, in order of first use; and the word stream is the layout
`streamWords rs` of the maximal runs `rs` of the instructions of the calls in
order (less the size calls rejected for a negative size), where the
instruction of a call that passes an element stores, in its literal-index
word, a pool index `k` such that `pool[k]` is that element; the pass of
`_ForEachImpl` decodes these instructions.  (For the stream the call sequence
is shorter than `2^55`, the capacity of the 56-bit run count.) -/
theorem C20_literal_deduplication [DecidableEq α] (cs : List (Call α)) :
    (build cs)._denseOrLiterals.Nodup ∧
    (build cs)._denseOrLiterals = firstUses (cs.filterMap Call.elem) ∧
    (cs.length < 2 ^ 55 →
      ∃ (ks : List Int) (rs : List (Op × List Visit)), ks.length = cs.length ∧
        (build cs)._ops._ins = streamWords rs ∧ MaxRuns rs ∧
        runsIns rs = (cs.zip ks).filterMap (fun p => p.1.toIns p.2) ∧
        Decodes (build cs)._ops._ins ((cs.zip ks).filterMap (fun p => p.1.toIns p.2)) ∧
        (∀ p ∈ cs.zip ks, ∀ v, p.1.toIns p.2 = some v →
          ∀ e, p.1.elem = some e → v.litIndex = some p.2) ∧
        ∀ p ∈ cs.zip ks, ∀ e, p.1.elem = some e →
          (∃ v, p.1.toIns p.2 = some v) ∧
          0 ≤ p.2 ∧ (build cs)._denseOrLiterals[p.2.toNat]? = some e) := by
  have hpool : (build cs)._denseOrLiterals = firstUses (cs.filterMap Call.elem) :=
    build_pool cs
  refine ⟨?_, hpool, fun hlen => ?_⟩
  · rw [hpool]
    exact foldl_addFirst_nodup _ [] List.nodup_nil
  · have h2 : (2 : Nat) ^ 55 = 36028797018963968 := by norm_num
    obtain ⟨ks, rs, hks, hins, hmax, hruns, hval⟩ := build_layout cs (by omega)
    have hle : (runsIns rs).length ≤ cs.length := by
      rw [hruns]
      exact le_trans (List.length_filterMap_le _ _) (by simp [List.length_zip, hks])
    have hok : ∀ r ∈ rs, RunOK r := fun r hr =>
      ⟨(hmax.1 r hr).2, by have := length_le_runsIns rs r hr; omega⟩
    refine ⟨ks, rs, hks, hins, hmax, hruns, ?_, fun p _ v hv e he => ?_, fun p hp e he => ?_⟩
    · rw [hins, ← hruns]
      exact streamWords_decodes rs hok
    · exact (Call.toIns_litIndex p.1 p.2 v hv).2.1 e he
    · exact ⟨Call.toIns_isSome_of_elem p.1 p.2 e he, hval p hp e he⟩

/-- C20 at the calls `Write(7, 0)`, `MinSize(-1, 8)`, `Append(7)`: the pool
is `[7, 8]` and the stored indices are `0`, `1`, `0`. -/
theorem C20_literal_deduplication_witness :
    ∃ (ks : List Int) (rs : List (Op × List Visit)),
      ks.length = [Call.Write (7 : Int) 0, Call.MinSizeFill (-1) 8, Call.Append 7].length ∧
      (build [Call.Write (7 : Int) 0, Call.MinSizeFill (-1) 8, Call.Append 7])._ops._ins =
        streamWords rs ∧ MaxRuns rs ∧
      runsIns rs =
        ([Call.Write (7 : Int) 0, Call.MinSizeFill (-1) 8, Call.Append 7].zip ks).filterMap
          (fun p => p.1.toIns p.2) ∧
      Decodes (build [Call.Write (7 : Int) 0, Call.MinSizeFill (-1) 8, Call.Append 7])._ops._ins
        (([Call.Write (7 : Int) 0, Call.MinSizeFill (-1) 8, Call.Append 7].zip ks).filterMap
          (fun p => p.1.toIns p.2)) ∧
      (∀ p ∈ [Call.Write (7 : Int) 0, Call.MinSizeFill (-1) 8, Call.Append 7].zip ks, ∀ v,
        p.1.toIns p.2 = some v → ∀ e, p.1.elem = some e → v.litIndex = some p.2) ∧
      ∀ p ∈ [Call.Write (7 : Int) 0, Call.MinSizeFill (-1) 8, Call.Append 7].zip ks, ∀ e,
        p.1.elem = some e →
          (∃ v, p.1.toIns p.2 = some v) ∧
          0 ≤ p.2 ∧ (build [Call.Write (7 : Int) 0, Call.MinSizeFill (-1) 8,
            Call.Append 7])._denseOrLiterals[p.2.toNat]? = some e :=
  (C20_literal_deduplication [Call.Write (7 : Int) 0, Call.MinSizeFill (-1) 8,
    Call.Append 7]).2.2 (by decide)

/-- C31: on a stream made of the well-formed runs `rs` followed by a word `w`
whose opcode field is not one of the ten opcodes, and by any words `rest`,
`ForEach` and `ForEachValid` make exactly the visitor calls they make on the
stream of `rs` alone and end with the invalid-opcode error; applying the edit
to an array `D` gives what the edit of `rs` alone gives. -/
theorem C31_invalid_opcode_aborts_replay [Inhabited α] (rs : List (Op × List Visit))
    (w : Int) (rest : List Int) (lits D : List α) (nl n : Nat)
    (hrs : ∀ r ∈ rs, RunOK r) (hw : IsValidOp (_ToOpAndCount w).op = false) :
    (({ _ins := streamWords rs ++ w :: rest } : Vt_ArrayEditOps).ForEach.visits =
        ({ _ins := streamWords rs } : Vt_ArrayEditOps).ForEach.visits ∧
      ({ _ins := streamWords rs ++ w :: rest } : Vt_ArrayEditOps).ForEach.status =
        Status.invalidOp) ∧
    ((({ _ins := streamWords rs ++ w :: rest } : Vt_ArrayEditOps).ForEachValid nl n).visits =
        (({ _ins := streamWords rs } : Vt_ArrayEditOps).ForEachValid nl n).visits ∧
      (({ _ins := streamWords rs ++ w :: rest } : Vt_ArrayEditOps).ForEachValid nl n).status =
        Status.invalidOp) ∧
    (CreateFromSerializationData lits (streamWords rs ++ w :: rest) false).ComposeOver
        (ofArray D) =
      (CreateFromSerializationData lits (streamWords rs) false).ComposeOver (ofArray D) := by
  have hdec := streamWords_decodes rs hrs
  refine ⟨hdec.then_invalid none none w rest hw, hdec.then_invalid (some nl) (some n) w rest hw,
    ?_⟩
  rw [composeOver_ofArray _ D rfl, composeOver_ofArray _ D rfl]
  simp only [_ApplyEdits, ForEachValid, CreateFromSerializationData]
  rw [(hdec.then_invalid (some lits.length) (some D.length) w rest hw).1]

/-- C31 at the run `EraseRef(0)` followed by the word `-1` (opcode field
`-1`) and the word `5`, applied to `[1, 2, 3]`. -/
theorem C31_invalid_opcode_aborts_replay_witness :
    (CreateFromSerializationData ([] : List Int)
        (streamWords [(OpEraseRef, [⟨OpEraseRef, 0, -1⟩])] ++ (-1) :: [5]) false).ComposeOver
        (ofArray [1, 2, 3]) =
      (CreateFromSerializationData ([] : List Int)
        (streamWords [(OpEraseRef, [⟨OpEraseRef, 0, -1⟩])]) false).ComposeOver
        (ofArray [1, 2, 3]) :=
  (C31_invalid_opcode_aborts_replay [(OpEraseRef, [⟨OpEraseRef, 0, -1⟩])] (-1) [5]
    ([] : List Int) [1, 2, 3] 0 3 (by simp [RunOK, GetArity]) (by decide)).2.2

/-- C32: for calls `cs` whose size arguments are not negative, the word
stream of the finalized edit is the layout `streamWords rs` of runs `rs` that
are the maximal runs of the calls' instructions: the instructions of the runs,
in order, are the instructions of the calls in call order (with a pool index
`k` naming the call's element), no run is empty, the instructions of a run
have its opcode, and adjacent runs have different opcodes; each run is stored
as one header word holding its length and opcode, followed by the argument
words of its instructions.  The example of six calls gives the 13 words
listed.  (The call sequence is shorter than `2^55`, the capacity of the
56-bit run count.) -/
theorem C32_run_length_layout [DecidableEq α] (cs : List (Call α))
    (hs : ∀ c ∈ cs, c.sizeOK) (hlen : cs.length < 2 ^ 55) :
    (∃ (ks : List Int) (rs : List (Op × List Visit)), ks.length = cs.length ∧
      (build cs)._ops._ins = streamWords rs ∧ MaxRuns rs ∧
      (runsIns rs).map some = (cs.zip ks).map (fun p => p.1.toIns p.2) ∧
      (∀ r ∈ rs, ∃ (hdr : Int) (args : List Int), runWords r.1 r.2 = hdr :: args ∧
        args = flatArgs r.2 ∧
        _ToOpAndCount hdr = ⟨r.2.length, r.1.toInt⟩) ∧
      ∀ p ∈ cs.zip ks, ∀ e, p.1.elem = some e →
        0 ≤ p.2 ∧ (build cs)._denseOrLiterals[p.2.toNat]? = some e) ∧
    (build [Call.SetSize 1024, Call.Write (10 : Int) 2, Call.Write 20 4, Call.WriteRef 5 6,
        Call.EraseRef 9, Call.EraseRef 9])._ops._ins =
      [_ToInt64 ⟨1, OpSetSize.toInt⟩, 1024, _ToInt64 ⟨2, OpWriteLiteral.toInt⟩, 0, 2, 1, 4,
        _ToInt64 ⟨1, OpWriteRef.toInt⟩, 5, 6, _ToInt64 ⟨2, OpEraseRef.toInt⟩, 9, 9] := by
  have h2 : (2 : Nat) ^ 55 = 36028797018963968 := by norm_num
  refine ⟨?_, by decide⟩
  obtain ⟨ks, rs, hks, hins, hmax, hruns, hval⟩ := build_layout cs (by omega)
  have hle : (runsIns rs).length ≤ cs.length := by
    rw [hruns]
    exact le_trans (List.length_filterMap_le _ _) (by simp [List.length_zip, hks])
  refine ⟨ks, rs, hks, hins, hmax, ?_, fun r hr => ⟨_, _, rfl, rfl, ?_⟩, hval⟩
  · rw [hruns]
    refine List.map_some_filterMap _ _ (fun p hp => ?_)
    obtain ⟨v, hv, _⟩ := Call.toIns_of_sizeOK p.1 p.2 (hs p.1 (List.of_mem_zip hp).1)
    exact ⟨v, hv⟩
  · have := length_le_runsIns rs r hr
    exact toOpAndCount_toInt64 r.1 r.2.length (by omega) (by omega)

/-- C32 at the calls `Append(7)`, `Append(8)`, `EraseRef(0)`. -/
theorem C32_run_length_layout_witness :
    ∃ (ks : List Int) (rs : List (Op × List Visit)),
      ks.length = [Call.Append (7 : Int), Call.Append 8, Call.EraseRef 0].length ∧
      (build [Call.Append (7 : Int), Call.Append 8, Call.EraseRef 0])._ops._ins =
        streamWords rs ∧ MaxRuns rs ∧
      (runsIns rs).map some =
        ([Call.Append (7 : Int), Call.Append 8, Call.EraseRef 0].zip ks).map
          (fun p => p.1.toIns p.2) ∧
      (∀ r ∈ rs, ∃ (hdr : Int) (args : List Int), runWords r.1 r.2 = hdr :: args ∧
        args = flatArgs r.2 ∧
        _ToOpAndCount hdr = ⟨r.2.length, r.1.toInt⟩) ∧
      ∀ p ∈ [Call.Append (7 : Int), Call.Append 8, Call.EraseRef 0].zip ks, ∀ e,
        p.1.elem = some e →
          0 ≤ p.2 ∧ (build [Call.Append (7 : Int), Call.Append 8,
            Call.EraseRef 0])._denseOrLiterals[p.2.toNat]? = some e :=
  (C32_run_length_layout [Call.Append (7 : Int), Call.Append 8, Call.EraseRef 0]
    (by simp [Call.sizeOK]) (by norm_num)).1

/-- C34 (the code at the failing input): with `S` the edit rebuilt from the
empty pool and a header declaring two `EraseRef` instructions followed by the
single argument word `0`, and `W` the edit built by `Append(1)`, neither
operand is dense and `S` is not the identity, so each of the four overloads
of `ComposeOver` calls `_ComposeEdits`; both overloads of `_ComposeEdits`
walk the words of `S` with `ModifyEach`, and that pass indexes the words past
their end: no overload returns a result to compare. -/
theorem C34_compose_overloads_index_past_truncated_stream :
    (CreateFromSerializationData ([] : List Int) [_ToInt64 ⟨2, OpEraseRef.toInt⟩, 0]
        false).IsDenseArray = false ∧
    (CreateFromSerializationData ([] : List Int) [_ToInt64 ⟨2, OpEraseRef.toInt⟩, 0]
        false).IsIdentity = false ∧
    (build [Call.Append (1 : Int)]).IsDenseArray = false ∧
    (∀ fn : Op → Int → Int → Int × Int,
      ((CreateFromSerializationData ([] : List Int) [_ToInt64 ⟨2, OpEraseRef.toInt⟩, 0]
        false)._ops.ModifyEach fn).2.length = 1) ∧
    (CreateFromSerializationData ([] : List Int) [_ToInt64 ⟨2, OpEraseRef.toInt⟩, 0]
        false)._ops.ForEach.status = Status.pastEnd := by
  refine ⟨by decide, by decide, by decide, fun fn => ?_, by decide⟩
  have hv : (CreateFromSerializationData ([] : List Int) [_ToInt64 ⟨2, OpEraseRef.toInt⟩, 0]
      false)._ops.ForEach.visits = [⟨OpEraseRef, 0, -1⟩] := by decide
  simp only [ModifyEach, List.length_map]
  exact congrArg List.length hv

/-- C35 (the code at the failing input): the edit `E` rebuilt from the empty
pool and a header declaring two `EraseRef` instructions followed by the
single argument word `0` is not dense, hence satisfies the dense invariant,
as does the identity; `E` is not the identity, so `E.ComposeOver(VtArrayEdit())`
walks its words with `ModifyEach`, `E.ComposeOver` of the dense array
`[1, 2, 3]` replays them with `_ApplyEdits` and `Optimize(E)` with `ForEach`;
each of these passes indexes the words past their end, so none returns an
edit that could satisfy the invariant. -/
theorem C35_dense_invariant_truncated_stream :
    DenseInv (CreateFromSerializationData ([] : List Int)
      [_ToInt64 ⟨2, OpEraseRef.toInt⟩, 0] false) ∧
    DenseInv (ident : VtArrayEdit Int) ∧ DenseInv (ofArray [(1 : Int), 2, 3]) ∧
    (CreateFromSerializationData ([] : List Int) [_ToInt64 ⟨2, OpEraseRef.toInt⟩, 0]
        false).IsDenseArray = false ∧
    (CreateFromSerializationData ([] : List Int) [_ToInt64 ⟨2, OpEraseRef.toInt⟩, 0]
        false).IsIdentity = false ∧
    (CreateFromSerializationData ([] : List Int) [_ToInt64 ⟨2, OpEraseRef.toInt⟩, 0]
        false)._ops.ForEach.status = Status.pastEnd ∧
    ((CreateFromSerializationData ([] : List Int) [_ToInt64 ⟨2, OpEraseRef.toInt⟩, 0]
        false)._ops.ForEachValid ([] : List Int).length [(1 : Int), 2, 3].length).status =
      Status.pastEnd := by
  refine ⟨fun h => absurd h (by decide), fun _ => rfl, fun _ => rfl, by decide, by decide,
    by decide, by decide⟩

/-- C36 (the code at the failing input): with `A` the edit rebuilt from the
empty pool and a header declaring two `EraseRef` instructions followed by the
single argument word `0`, and `B`, `C` the edits built by `Append(2)` and
`Append(1)`, the three edits are not dense and have instruction words, and so
has `B.ComposeOver(C)`; both `A.ComposeOver(B)` and
`A.ComposeOver(B.ComposeOver(C))` therefore walk the words of `A` with
`ModifyEach`, and that pass indexes the words past their end: neither side of
the equation is returned. -/
theorem C36_composition_indexes_past_truncated_stream :
    ((CreateFromSerializationData ([] : List Int) [_ToInt64 ⟨2, OpEraseRef.toInt⟩, 0]
        false).IsDenseArray = false ∧
      (CreateFromSerializationData ([] : List Int) [_ToInt64 ⟨2, OpEraseRef.toInt⟩, 0]
        false)._ops._ins ≠ []) ∧
    ((build [Call.Append (2 : Int)]).IsDenseArray = false ∧
      (build [Call.Append (2 : Int)])._ops._ins ≠ []) ∧
    ((build [Call.Append (1 : Int)]).IsDenseArray = false ∧
      (build [Call.Append (1 : Int)])._ops._ins ≠ []) ∧
    ((build [Call.Append (2 : Int)]).ComposeOver (build [Call.Append 1])).IsDenseArray =
      false ∧
    (CreateFromSerializationData ([] : List Int) [_ToInt64 ⟨2, OpEraseRef.toInt⟩, 0]
        false)._ops.ForEach.status = Status.pastEnd := by
  decide

/-- C37: for builder calls `cw` and calls `cs` that are all among `WriteRef`,
`InsertRef`, `PrependRef`, `AppendRef`, `EraseRef`, `MinSize(size)`,
`MaxSize(size)` and `SetSize(size)`, and every array `D`,
`S.ComposeOver(W).ComposeOver(D)` equals `S.ComposeOver(W.ComposeOver(D))`
for the finalized edits `S` of `cs` and `W` of `cw` (also when `S` is the
identity).  (Each call sequence is shorter than `2^55`, the capacity of the
56-bit run count.) -/
theorem C37_composition_exact_without_literals [DecidableEq α] [Inhabited α]
    (cw cs : List (Call α)) (D : List α) (hS : ∀ c ∈ cs, c.noLiteral)
    (hw : cw.length < 2 ^ 55) (hs : cs.length < 2 ^ 55) :
    ((build cs).ComposeOver (build cw)).ComposeOver (ofArray D) =
      (build cs).ComposeOver ((build cw).ComposeOver (ofArray D)) := by
  have h2 : (2 : Nat) ^ 55 = 36028797018963968 := by norm_num
  obtain ⟨isW, hdecW, _, _⟩ := build_after cw (by omega)
  obtain ⟨isS, hdecS, hlitS, _⟩ := build_after cs (by omega)
  have hpool : (build cs)._denseOrLiterals = [] := by
    rw [build_pool cs]
    have : cs.filterMap Call.elem = [] := by
      rw [List.filterMap_eq_nil_iff]
      exact fun c hc => Call.elem_of_noLiteral c (hS c hc)
    rw [this]
    rfl
  rw [hpool] at hlitS
  rw [composeOver_ofArray (build cw) D rfl, composeOver_ofArray (build cs) _ rfl]
  by_cases hemp : (build cs)._ops._ins = []
  · rw [composeOver_identity (build cs) (build cw) rfl hemp,
      composeOver_ofArray (build cw) D rfl, applyEdits_nil (build cs) _ hemp]
  · rw [composeOver_nondense (build cs) (build cw) rfl rfl hemp, composeOver_ofArray _ D rfl,
      applyEdits_decodes _ _ (isW ++ isS) (hdecW.append hdecS), List.foldl_append,
      applyEdits_decodes _ _ isW hdecW, applyEdits_decodes _ _ isS hdecS, hpool]
    simp only [List.append_nil]
    congr 1
    exact foldl_congr_mem _ _ isS _
      (fun i hi y => applyIns_of_litOK_zero _ _ _ i (hlitS i hi))

/-- C37 at `W` built by `Prepend(0)`, `Append(9)` and `S` built by
`WriteRef(-1, 2)`, `EraseRef(0)`, on the array `[1, 2, 3]`. -/
theorem C37_composition_exact_without_literals_witness :
    ((build [Call.WriteRef (-1) 2, Call.EraseRef 0]).ComposeOver
        (build [Call.Prepend (0 : Int), Call.Append 9])).ComposeOver (ofArray [1, 2, 3]) =
      (build [Call.WriteRef (-1) 2, Call.EraseRef 0]).ComposeOver
        ((build [Call.Prepend (0 : Int), Call.Append 9]).ComposeOver (ofArray [1, 2, 3])) :=
  C37_composition_exact_without_literals [Call.Prepend (0 : Int), Call.Append 9]
    [Call.WriteRef (-1) 2, Call.EraseRef 0] [1, 2, 3] (by simp [Call.noLiteral])
    (by norm_num) (by norm_num)

/-- C38: for calls `cs` of the instruction-recording members of the builder,
the stream of the finalized edit is the layout of runs `rs` such that no run
is empty, the instructions of a run have its opcode, adjacent runs have
different opcodes, and each run is a header word with a valid opcode and a
count of at least one, equal to the number of its instructions, followed by
exactly count times arity argument words; every literal index stored in an
instruction lies in the pool; every index of the pool is stored in some
instruction; and an empty stream comes with an empty pool.  (The call
sequence is shorter than `2^55`, the capacity of the 56-bit run count.) -/
theorem C38_builder_output_well_formed [DecidableEq α] (cs : List (Call α))
    (hlen : cs.length < 2 ^ 55) :
    ∃ rs : List (Op × List Visit),
      (build cs)._ops._ins = streamWords rs ∧ MaxRuns rs ∧
      (∀ r ∈ rs, ∃ (hdr : Int) (args : List Int), runWords r.1 r.2 = hdr :: args ∧
        IsValidOp (_ToOpAndCount hdr).op = true ∧ Op.ofInt (_ToOpAndCount hdr).op = some r.1 ∧
        1 ≤ (_ToOpAndCount hdr).count ∧ (_ToOpAndCount hdr).count = r.2.length ∧
        (args.length : Int) = (_ToOpAndCount hdr).count * GetArity r.1) ∧
      (∀ v ∈ runsIns rs, ∀ j, v.litIndex = some j →
        0 ≤ j ∧ j < (build cs)._denseOrLiterals.length) ∧
      (∀ j : Nat, j < (build cs)._denseOrLiterals.length →
        ∃ v ∈ runsIns rs, v.litIndex = some (j : Int)) ∧
      ((build cs)._ops._ins = [] → (build cs)._denseOrLiterals = []) := by
  have h2 : (2 : Nat) ^ 55 = 36028797018963968 := by norm_num
  obtain ⟨ks, rs, hks, hins, hmax, hruns, hval⟩ := build_layout cs (by omega)
  have hle : (runsIns rs).length ≤ cs.length := by
    rw [hruns]
    exact le_trans (List.length_filterMap_le _ _) (by simp [List.length_zip, hks])
  have hlt : ∀ (k : Int) (e : α), 0 ≤ k → (build cs)._denseOrLiterals[k.toNat]? = some e →
      k < (build cs)._denseOrLiterals.length := by
    intro k e h0 h1
    rcases Nat.lt_or_ge k.toNat (build cs)._denseOrLiterals.length with h | h
    · omega
    · rw [List.getElem?_eq_none h] at h1; cases h1
  have href : ∀ j : Nat, j < (build cs)._denseOrLiterals.length →
      ∃ v ∈ runsIns rs, v.litIndex = some (j : Int) := by
    intro j hj
    have hmem : (build cs)._denseOrLiterals[j] ∈ firstUses (cs.filterMap Call.elem) := by
      rw [← build_pool cs]
      exact List.getElem_mem _
    rcases mem_foldl_addFirst _ _ _ hmem with h | h
    · exact absurd h (List.not_mem_nil _)
    · obtain ⟨c, hc, hce⟩ := List.mem_filterMap.mp h
      obtain ⟨k, hk⟩ := exists_zip_of_mem cs ks hks c hc
      obtain ⟨h0, h1⟩ := hval (c, k) hk _ hce
      obtain ⟨v, hv⟩ := Call.toIns_isSome_of_elem c k _ hce
      have hkl := hlt k _ h0 h1
      have hkn : k.toNat < (build cs)._denseOrLiterals.length := by omega
      have hnd : (build cs)._denseOrLiterals.Nodup := by
        rw [build_pool cs]
        exact foldl_addFirst_nodup _ [] List.nodup_nil
      rw [List.getElem?_eq_getElem hkn, Option.some.injEq] at h1
      have hkj : k.toNat = j := (List.Nodup.getElem_inj_iff hnd).mp h1
      refine ⟨v, ?_, ?_⟩
      · rw [hruns]
        exact List.mem_filterMap.mpr ⟨(c, k), hk, hv⟩
      · rw [(Call.toIns_litIndex c k v hv).2.1 _ hce]
        congr 1
        omega
  refine ⟨rs, hins, hmax, fun r hr => ?_, fun v hv j hj => ?_, href, fun hemp => ?_⟩
  · have := length_le_runsIns rs r hr
    exact run_header r (hmax.1 r hr).1 (fun v hv => ((hmax.1 r hr).2 v hv).1) (by omega)
  · rw [hruns] at hv
    obtain ⟨p, hp, hpv⟩ := List.mem_filterMap.mp hv
    obtain ⟨hjk, e, he⟩ := (Call.toIns_litIndex p.1 p.2 v hpv).1 j hj
    obtain ⟨h0, h1⟩ := hval p hp e he
    subst hjk
    exact ⟨h0, hlt _ e h0 h1⟩
  · have hrs : rs = [] := streamWords_eq_nil rs (hins ▸ hemp)
    cases hp : (build cs)._denseOrLiterals with
    | nil => rfl
    | cons x xs =>
      obtain ⟨v, hv, _⟩ := href 0 (by rw [hp]; simp)
      rw [hrs] at hv
      exact absurd hv (List.not_mem_nil v)

/-- C38 at the calls `Append(7)`, `MinSize(-1)`, `Append(7)`, `EraseRef(0)`. -/
theorem C38_builder_output_well_formed_witness :
    ∃ rs : List (Op × List Visit),
      (build [Call.Append (7 : Int), Call.MinSize (-1), Call.Append 7,
        Call.EraseRef 0])._ops._ins = streamWords rs ∧ MaxRuns rs ∧
      (∀ r ∈ rs, ∃ (hdr : Int) (args : List Int), runWords r.1 r.2 = hdr :: args ∧
        IsValidOp (_ToOpAndCount hdr).op = true ∧ Op.ofInt (_ToOpAndCount hdr).op = some r.1 ∧
        1 ≤ (_ToOpAndCount hdr).count ∧ (_ToOpAndCount hdr).count = r.2.length ∧
        (args.length : Int) = (_ToOpAndCount hdr).count * GetArity r.1) ∧
      (∀ v ∈ runsIns rs, ∀ j, v.litIndex = some j →
        0 ≤ j ∧ j < (build [Call.Append (7 : Int), Call.MinSize (-1), Call.Append 7,
          Call.EraseRef 0])._denseOrLiterals.length) ∧
      (∀ j : Nat, j < (build [Call.Append (7 : Int), Call.MinSize (-1), Call.Append 7,
          Call.EraseRef 0])._denseOrLiterals.length →
        ∃ v ∈ runsIns rs, v.litIndex = some (j : Int)) ∧
      ((build [Call.Append (7 : Int), Call.MinSize (-1), Call.Append 7,
          Call.EraseRef 0])._ops._ins = [] →
        (build [Call.Append (7 : Int), Call.MinSize (-1), Call.Append 7,
          Call.EraseRef 0])._denseOrLiterals = []) :=
  C38_builder_output_well_formed [Call.Append (7 : Int), Call.MinSize (-1), Call.Append 7,
    Call.EraseRef 0] (by norm_num)

/-- C39: for a non-dense edit `E` with pool `lits` whose stream is made of
well-formed runs `rs` holding no `MinSizeFill` or `SetSizeFill` instruction
(the arguments, literal indices included, are arbitrary), and every array
`D`, `Optimize(E).ComposeOver(D)` equals `E.ComposeOver(D)`.  (The stream
holds fewer than `2^55` instructions, the capacity of the 56-bit run
count.) -/
theorem C39_optimize_preserves_edits_without_fill [DecidableEq α] [Inhabited α]
    (rs : List (Op × List Visit)) (lits D : List α) (hrs : ∀ r ∈ rs, RunOK r)
    (hnf : ∀ v ∈ runsIns rs, noFill v) (hlen : (runsIns rs).length < 2 ^ 55) :
    (Optimize (CreateFromSerializationData lits (streamWords rs) false)).ComposeOver
        (ofArray D) =
      (CreateFromSerializationData lits (streamWords rs) false).ComposeOver (ofArray D) := by
  have h2 : (2 : Nat) ^ 55 = 36028797018963968 := by norm_num
  by_cases hemp : streamWords rs = []
  · have : Optimize (CreateFromSerializationData lits (streamWords rs) false) =
        CreateFromSerializationData lits (streamWords rs) false := by
      simp [Optimize, IsIdentity, IsDenseArray, Vt_ArrayEditOps.IsEmpty,
        CreateFromSerializationData, hemp]
    rw [this]
  · have hdec := streamWords_decodes rs hrs
    have hvis : (CreateFromSerializationData lits (streamWords rs) false)._ops.ForEach.visits =
        (replayIns none none (runsIns rs)).1 := (hdec.visits none none).1
    have hsub := (replayIns_unchecked (runsIns rs)).1
    rw [optimize_eq_build _ rfl hemp, hvis]
    have hcl : (((replayIns none none (runsIns rs)).1.filterMap
        (Optimize.toCall lits)).length : Int) < 36028797018963968 := by
      have h1 := List.length_filterMap_le (Optimize.toCall lits) (replayIns none none (runsIns rs)).1
      have h3 := hsub.length_le
      omega
    rw [show (CreateFromSerializationData lits (streamWords rs) false)._denseOrLiterals = lits
      from rfl, build_composeOver _ D hcl, composeOver_ofArray _ D rfl,
      applyEdits_decodes _ D (runsIns rs) hdec,
      optimize_effects lits (runsIns rs) D
        (fun i hi => ⟨hnf i hi, runOK_arity rs hrs i hi⟩)]
    rfl

/-- C39 at the pool `[7]` and the runs `InsertLiteral(0, 0)`,
`InsertLiteral(3, 0)` (index 3 is outside the pool) and `MinSize(-1)`, on the
array `[1]`. -/
theorem C39_optimize_preserves_edits_without_fill_witness :
    (Optimize (CreateFromSerializationData [(7 : Int)]
        (streamWords [(OpInsertLiteral, [⟨OpInsertLiteral, 0, 0⟩, ⟨OpInsertLiteral, 3, 0⟩]),
          (OpMinSize, [⟨OpMinSize, -1, -1⟩])]) false)).ComposeOver (ofArray [1]) =
      (CreateFromSerializationData [(7 : Int)]
        (streamWords [(OpInsertLiteral, [⟨OpInsertLiteral, 0, 0⟩, ⟨OpInsertLiteral, 3, 0⟩]),
          (OpMinSize, [⟨OpMinSize, -1, -1⟩])]) false).ComposeOver (ofArray [1]) :=
  C39_optimize_preserves_edits_without_fill
    [(OpInsertLiteral, [⟨OpInsertLiteral, 0, 0⟩, ⟨OpInsertLiteral, 3, 0⟩]),
      (OpMinSize, [⟨OpMinSize, -1, -1⟩])] [(7 : Int)] [1]
    (by simp [RunOK, GetArity]) (by simp [runsIns, noFill]) (by simp [runsIns])

/-- C40 (as stated, refuted): the non-dense edit with the pool `[7, 7]` and
no instruction word has a well-formed stream (no run) and no literal index
outside its pool; `Optimize` returns it unmodified, with the two equal pool
elements. -/
theorem C40_identity_edit_keeps_duplicate_pool :
    (CreateFromSerializationData [(7 : Int), 7] (streamWords []) false).IsDenseArray = false ∧
    (∀ v ∈ runsIns [], LitOK [(7 : Int), 7].length v) ∧
    Optimize (CreateFromSerializationData [(7 : Int), 7] (streamWords []) false) =
      CreateFromSerializationData [(7 : Int), 7] (streamWords []) false ∧
    ¬ (Optimize (CreateFromSerializationData [(7 : Int), 7] (streamWords [])
        false))._denseOrLiterals.Nodup := by
  refine ⟨rfl, fun v hv => absurd hv (List.not_mem_nil v), by decide, by decide⟩

/-- C40 (amended): for a non-dense edit `E` with pool `lits` and a stream
made of well-formed runs `rs` whose literal indices all lie in `lits`, the
pool of `Optimize(E)` has no more elements than `lits` and the word stream of
`Optimize(E)` is no longer than that of `E`; and when `E` is not the identity
the pool of `Optimize(E)` has no two equal elements.  (The stream holds fewer
than `2^55` instructions, the capacity of the 56-bit run count.) -/
theorem C40_optimize_never_grows [DecidableEq α] [Inhabited α]
    (rs : List (Op × List Visit)) (lits : List α) (hrs : ∀ r ∈ rs, RunOK r)
    (hlit : ∀ v ∈ runsIns rs, LitOK lits.length v) (hlen : (runsIns rs).length < 2 ^ 55) :
    (Optimize (CreateFromSerializationData lits (streamWords rs) false))._denseOrLiterals.length ≤
      lits.length ∧
    (Optimize (CreateFromSerializationData lits (streamWords rs) false))._ops._ins.length ≤
      (streamWords rs).length ∧
    ((CreateFromSerializationData lits (streamWords rs) false).IsIdentity = false →
      (Optimize (CreateFromSerializationData lits (streamWords rs)
        false))._denseOrLiterals.Nodup) := by
  have h2 : (2 : Nat) ^ 55 = 36028797018963968 := by norm_num
  by_cases hemp : streamWords rs = []
  · have hopt : Optimize (CreateFromSerializationData lits (streamWords rs) false) =
        CreateFromSerializationData lits (streamWords rs) false := by
      simp [Optimize, IsIdentity, IsDenseArray, Vt_ArrayEditOps.IsEmpty,
        CreateFromSerializationData, hemp]
    rw [hopt]
    refine ⟨le_refl _, le_refl _, fun hid => ?_⟩
    simp [IsIdentity, Vt_ArrayEditOps.IsEmpty, CreateFromSerializationData, hemp] at hid
  · have hdec := streamWords_decodes rs hrs
    have hvis : (CreateFromSerializationData lits (streamWords rs) false)._ops.ForEach.visits =
        (replayIns none none (runsIns rs)).1 := (hdec.visits none none).1
    have hsub := (replayIns_unchecked (runsIns rs)).1
    rw [optimize_eq_build _ rfl hemp, hvis,
      show (CreateFromSerializationData lits (streamWords rs) false)._denseOrLiterals = lits
        from rfl]
    have hcl : (((replayIns none none (runsIns rs)).1.filterMap
        (Optimize.toCall lits)).length : Int) < 36028797018963968 := by
      have h1 := List.length_filterMap_le (Optimize.toCall lits)
        (replayIns none none (runsIns rs)).1
      have h3 := hsub.length_le
      omega
    obtain ⟨hnd, hle⟩ := optimize_pool lits (replayIns none none (runsIns rs)).1
      (replayIns_unchecked_ok (runsIns rs))
      (fun v hv => runOK_arity rs hrs v (hsub.subset hv))
      (fun v hv => hlit v (hsub.subset hv))
    refine ⟨hle, ?_, fun _ => hnd⟩
    obtain ⟨ks, rsB, hks, hins, hmax, hruns, _⟩ := build_layout _ hcl
    rw [hins, streamWords_length_of_maxRuns rsB hmax, hruns]
    exact le_trans (encLen_sublist _ _ ((optimize_ops_sublist lits _ ks hks).trans
      (hsub.map Visit.op))).1 (encLen_le_streamWords rs (fun r hr v hv => ((hrs r hr).1 v hv).1))

/-- C40 (amended) at the pool `[7, 7]` and the runs `InsertLiteral(0, 0)`,
`InsertLiteral(1, 0)` and `MinSizeFill(1, 0)`. -/
theorem C40_optimize_never_grows_witness :
    (Optimize (CreateFromSerializationData [(7 : Int), 7]
        (streamWords [(OpInsertLiteral, [⟨OpInsertLiteral, 0, 0⟩, ⟨OpInsertLiteral, 1, 0⟩]),
          (OpMinSizeFill, [⟨OpMinSizeFill, 1, 0⟩])]) false))._denseOrLiterals.length ≤
      [(7 : Int), 7].length ∧
    (Optimize (CreateFromSerializationData [(7 : Int), 7]
        (streamWords [(OpInsertLiteral, [⟨OpInsertLiteral, 0, 0⟩, ⟨OpInsertLiteral, 1, 0⟩]),
          (OpMinSizeFill, [⟨OpMinSizeFill, 1, 0⟩])]) false))._ops._ins.length ≤
      (streamWords [(OpInsertLiteral, [⟨OpInsertLiteral, 0, 0⟩, ⟨OpInsertLiteral, 1, 0⟩]),
          (OpMinSizeFill, [⟨OpMinSizeFill, 1, 0⟩])]).length ∧
    (Optimize (CreateFromSerializationData [(7 : Int), 7]
        (streamWords [(OpInsertLiteral, [⟨OpInsertLiteral, 0, 0⟩, ⟨OpInsertLiteral, 1, 0⟩]),
          (OpMinSizeFill, [⟨OpMinSizeFill, 1, 0⟩])]) false))._denseOrLiterals.Nodup :=
  have h := C40_optimize_never_grows
    [(OpInsertLiteral, [⟨OpInsertLiteral, 0, 0⟩, ⟨OpInsertLiteral, 1, 0⟩]),
      (OpMinSizeFill, [⟨OpMinSizeFill, 1, 0⟩])] [(7 : Int), 7]
    (by simp [RunOK, GetArity]) (by simp [runsIns, LitOK]) (by simp [runsIns])
  ⟨h.1, h.2.1, h.2.2 (by decide)⟩

end Claims
